import Mathlib

/-!
# A verification model of the `cpp-spreadsheet` engine

Shallow embedding of the spreadsheet engine: `Position` string conversion
(`src/spreadsheet/structures.cpp`), the formula AST with its
precedence-directed printer and evaluation (`src/spreadsheet/FormulaAST.cpp`,
`src/spreadsheet/formula.cpp`), and the sheet/cell state machine with its
dependency graph, cycle detector and cache invalidation
(`src/spreadsheet/sheet.cpp`, `src/spreadsheet/cell.cpp`).

C++ `int` is modelled as `Int` (no overflow is reachable in the modelled
paths except in `stoi`, where the overflow check is explicit).  Strings are
modelled as `List Char`; `std::string` wrappers take Lean `String` and
convert.  IEEE doubles are modelled as exact rationals (`Dbl`, an
unnormalized fraction representation kept kernel-computable) with the
non-finiteness test of `BinaryOpExpr::Evaluate` rendered as a
divide-by-zero test; no claim below depends on rounding or overflow of
doubles.
-/

namespace Spreadsheet

/-! ## Position (structures.cpp) -/

/-- A cell coordinate: zero-based `(row, col)` pair of C++ `int`s. -/
structure Position where
  row : Int
  col : Int
deriving DecidableEq, Repr

/-- Modelled from the spec: `MAX_ROWS`/`MAX_COLS` are declared in `common.h`,
which is not under `src/`; §6 of the spec fixes both limits at 16384. -/
def MAX_ROWS : Int := 16384

/-- Modelled from the spec: see `MAX_ROWS`. -/
def MAX_COLS : Int := 16384

/-- `Position::NONE = {-1, -1}`. -/
def Position.NONE : Position := ⟨-1, -1⟩

/-- `Position::IsValid`. -/
def Position.IsValid (p : Position) : Bool :=
  p.row ≥ 0 && p.col ≥ 0 && p.row < MAX_ROWS && p.col < MAX_COLS

/-- `is_valid_char` in `Position::FromString`: `std::isalpha && std::isupper`
in the "C" locale, i.e. exactly the code points of `A`–`Z`. -/
def isValidChar (c : Char) : Bool := 65 ≤ c.toNat && c.toNat ≤ 90

/-- `is_valid_digit` in `Position::FromString`: `std::isdigit`, i.e. the code
points of `0`–`9`. -/
def isValidDigit (c : Char) : Bool := 48 ≤ c.toNat && c.toNat ≤ 57

/-- The letter loop of `Position::ToString`, producing the letters in
append order (least significant first); the C++ code reverses them
afterwards.  `for (int column {col}; column >= 0; column = column / 26 - 1)
str += 'A' + (column % 26);` — the loop variable stays non-negative, so it
is carried as a `Nat`; the loop strictly decreases it, so any fuel above
the initial value makes the recursion structural and kernel-computable. -/
def colLettersRev (fuel c : Nat) : List Char :=
  match fuel with
  | 0 => []
  | f + 1 => Char.ofNat (65 + c % 26) :: (if c < 26 then [] else colLettersRev f (c / 26 - 1))

/-- The digit loop of `std::to_string`, least significant first (fuelled,
as `colLettersRev`). -/
def natDigitsRev (fuel n : Nat) : List Char :=
  match fuel with
  | 0 => []
  | f + 1 => if n = 0 then [] else Char.ofNat (48 + n % 10) :: natDigitsRev f (n / 10)

/-- `std::to_string` on a non-negative int: most-significant-first decimal
digits. -/
def natDecimal (n : Nat) : List Char :=
  if n = 0 then ['0'] else (natDigitsRev (n + 1) n).reverse

/-- `Position::ToString` (on `List Char`). -/
def Position.toChars (p : Position) : List Char :=
  if ¬p.IsValid then []
  else (colLettersRev (p.col.toNat + 1) p.col.toNat).reverse ++ natDecimal (p.row + 1).toNat

/-- `std::stoi` on a non-empty all-digit string (the only shape it is
applied to in `Position::FromString`): the decimal value, or `none`
(modelling the thrown `std::out_of_range`) when the value exceeds
`INT_MAX`. -/
def stoi (ds : List Char) : Option Int :=
  let v : Nat := ds.foldl (fun a c => a * 10 + (c.toNat - 48)) 0
  if v > 2147483647 then none else some (v : Int)

/-- `Position::FromString` (on `List Char`).  `find_if_not` splits the
string into a maximal `[A-Z]*` prefix and the rest; the rest must be a
non-empty run of digits reaching the end of the string. -/
def Position.fromChars (s : List Char) : Position :=
  if s = [] then Position.NONE
  -- it_letters == str.begin() (no letters) or it_letters == str.end() (no digits)
  else if s.takeWhile isValidChar = [] then Position.NONE
  else if s.dropWhile isValidChar = [] then Position.NONE
  -- it_digits != str.end(): a non-digit after the digit run
  else if (s.dropWhile isValidChar).dropWhile isValidDigit ≠ [] then Position.NONE
  -- position > MAX_POS_LETTER_COUNT
  else if (s.takeWhile isValidChar).length > 3 then Position.NONE
  else
    match stoi ((s.dropWhile isValidChar).takeWhile isValidDigit) with
    | none => Position.NONE
    | some row =>
      ⟨row - 1,
       (s.takeWhile isValidChar).foldl
         (fun col ch => col * 26 + ((ch.toNat : Int) - 65 + 1)) 0 - 1⟩

/-- `Position::ToString`, `std::string` interface. -/
def Position.toStr (p : Position) : String := ⟨p.toChars⟩

/-- `Position::FromString`, `std::string_view` interface. -/
def Position.fromString (s : String) : Position := Position.fromChars s.toList

/-- The amended lexical condition on `FromString` input, following the
spec's words minus the range check: one to three upper-case letters
followed by at least one digit reaching the end of the string, the digit
run's decimal value fitting in an `int` (so that `std::stoi` does not
throw).  Ranges of the decoded row and column are *not* constrained. -/
def SpecMatches (s : List Char) : Prop :=
  ∃ L D : List Char, s = L ++ D ∧ L ≠ [] ∧ L.length ≤ 3 ∧
    (∀ c ∈ L, isValidChar c = true) ∧ D ≠ [] ∧ (∀ c ∈ D, isValidDigit c = true) ∧
    D.foldl (fun a c => a * 10 + (c.toNat - 48)) 0 ≤ 2147483647

/-! ## Formula errors, AST and the precedence-directed printer
(FormulaAST.cpp) -/

/-- `FormulaError::Category`. -/
inductive FECategory
  | Ref
  | Value
  | Div0
deriving DecidableEq, Repr

/-- The two exception types a formula parse can raise:
`ParsingError` (lexical/syntactic) and `FormulaException` (bad cell
reference token, and — through the `catch (...)` in
`ParseFormulaAST(const std::string&)` — everything else too). -/
inductive AstError
  | parsingError
  | formulaException
deriving DecidableEq, Repr

/-- `ExprPrecedence` (FormulaAST.cpp); higher is tighter. -/
inductive ExprPrecedence
  | EP_ADD
  | EP_SUB
  | EP_MUL
  | EP_DIV
  | EP_UNARY
  | EP_ATOM
deriving DecidableEq, Repr, Fintype

open ExprPrecedence

/-- `PRECEDENCE_RULES[parent][child]` as (left-child bit, right-child bit):
`PR_NONE = (false,false)`, `PR_LEFT = (true,false)`, `PR_RIGHT =
(false,true)`, `PR_BOTH = (true,true)`.  Row by row from the source
table. -/
def PRECEDENCE_RULES (parent child : ExprPrecedence) : Bool × Bool :=
  match parent, child with
  | EP_ADD, _ => (false, false)
  | EP_SUB, EP_ADD => (false, true)
  | EP_SUB, EP_SUB => (false, true)
  | EP_SUB, _ => (false, false)
  | EP_MUL, EP_ADD => (true, true)
  | EP_MUL, EP_SUB => (true, true)
  | EP_MUL, _ => (false, false)
  | EP_DIV, EP_ADD => (true, true)
  | EP_DIV, EP_SUB => (true, true)
  | EP_DIV, EP_MUL => (false, true)
  | EP_DIV, EP_DIV => (false, true)
  | EP_DIV, _ => (false, false)
  | EP_UNARY, EP_ADD => (true, true)
  | EP_UNARY, EP_SUB => (true, true)
  | EP_UNARY, _ => (false, false)
  | EP_ATOM, _ => (false, false)

/-- `BinaryOpExpr::Type`. -/
inductive BinOpType
  | Add
  | Subtract
  | Multiply
  | Divide
deriving DecidableEq, Repr

/-- `UnaryOpExpr::Type`. -/
inductive UnOpType
  | UnaryPlus
  | UnaryMinus
deriving DecidableEq, Repr

/-- The AST node variants of `ASTImpl::Expr`.  A `NumberExpr` stores a
`double` parsed from the literal token and prints it back in the stream's
default format; here the literal is carried as its lexeme (the printed
form), abstracting the IEEE round-trip, with its numeric value recovered
by `numLexVal` during evaluation. -/
inductive Expr
  | number (lexeme : List Char)
  | cell (pos : Position)
  | unaryOp (op : UnOpType) (operand : Expr)
  | binaryOp (op : BinOpType) (lhs rhs : Expr)
deriving DecidableEq, Repr

/-- `BinaryOpExpr::GetPrecedence`. -/
def BinOpType.precedence : BinOpType → ExprPrecedence
  | .Add => EP_ADD
  | .Subtract => EP_SUB
  | .Multiply => EP_MUL
  | .Divide => EP_DIV

/-- `Expr::GetPrecedence` across the four node classes. -/
def Expr.getPrecedence : Expr → ExprPrecedence
  | .number _ => EP_ATOM
  | .cell _ => EP_ATOM
  | .unaryOp _ _ => EP_UNARY
  | .binaryOp op _ _ => op.precedence

/-- Tokens of the formula language.  `refError` stands for the `#REF!`
text `CellExpr::Print` emits for an invalid stored position; it is not
produced by the lexer. -/
inductive Token
  | lparen
  | rparen
  | add
  | sub
  | mul
  | div
  | number (lexeme : List Char)
  | cell (lexeme : List Char)
  | refError
deriving DecidableEq, Repr

/-- The operator character a `BinaryOpExpr` prints. -/
def BinOpType.tok : BinOpType → Token
  | .Add => .add
  | .Subtract => .sub
  | .Multiply => .mul
  | .Divide => .div

/-- The operator character a `UnaryOpExpr` prints. -/
def UnOpType.tok : UnOpType → Token
  | .UnaryPlus => .add
  | .UnaryMinus => .sub

/-- `Expr::PrintFormula(out, parent_precedence, right_child)` together with
the per-class `DoPrintFormula`, at the token level: consult
`PRECEDENCE_RULES[parent][precedence]`, pick the left or right bit, and
parenthesise the node's own printed form when the bit is set. -/
def Expr.printFormula (e : Expr) (parentPrecedence : ExprPrecedence)
    (rightChild : Bool) : List Token :=
  let precedence := e.getPrecedence
  let rule := PRECEDENCE_RULES parentPrecedence precedence
  let parensNeeded := if rightChild then rule.2 else rule.1
  let core : List Token :=
    match e with
    | .number s => [Token.number s]
    | .cell p => if p.IsValid then [Token.cell p.toChars] else [Token.refError]
    | .unaryOp op x => op.tok :: x.printFormula EP_UNARY false
    | .binaryOp op l r =>
      l.printFormula op.precedence false ++ op.tok :: r.printFormula op.precedence true
  if parensNeeded then Token.lparen :: (core ++ [Token.rparen]) else core

/-- `FormulaAST::PrintFormula`: the root is printed with parent precedence
`EP_ATOM` (and `right_child = false`), so never parenthesised. -/
def printFormulaTokens (e : Expr) : List Token := e.printFormula EP_ATOM false

/-! ## Lexer and parser

Modelled from the spec: the lexer and parser are generated by ANTLR from a
grammar file that is not under `src/`; §4.2 of the spec gives the grammar
directly (left-associative `+ -`, tighter left-associative `* /`, tighter
still right-associative unary `+ -`, parentheses, `NUMBER` and `CELL`
atoms, whitespace ignored).  `NUMBER` is taken with the optional fraction
and scientific exponent; `CELL` is `[A-Z]{1,3}[0-9]+`. -/

/-- Parse-tree expressions: like `Expr` but with the raw `CELL` lexeme, as
the ANTLR tree holds tokens; `ParseASTListener::exitCell` later converts
the lexeme through `Position::FromString`. -/
inductive PExpr
  | number (lexeme : List Char)
  | cell (lexeme : List Char)
  | unaryOp (op : UnOpType) (operand : PExpr)
  | binaryOp (op : BinOpType) (lhs rhs : PExpr)
deriving DecidableEq, Repr

/-- One lexer step helper: digits. -/
def isDigitCh (c : Char) : Bool := 48 ≤ c.toNat && c.toNat ≤ 57

/-- One lexer step helper: upper-case letters. -/
def isUpperCh (c : Char) : Bool := 65 ≤ c.toNat && c.toNat ≤ 90

/-- Lex a `NUMBER` lexeme starting at a digit or a dot: `[0-9]+ ('.'
[0-9]*)? | '.' [0-9]+`, optionally followed by `[eE] [+-]? [0-9]+` (the
exponent is only consumed when at least one exponent digit follows). -/
def lexNumber (s : List Char) : Option (List Char × List Char) :=
  let intPart := s.takeWhile isDigitCh
  let s₁ := s.dropWhile isDigitCh
  let (fracPart, s₂) :=
    match s₁ with
    | '.' :: t => ('.' :: t.takeWhile isDigitCh, t.dropWhile isDigitCh)
    | _ => ([], s₁)
  if intPart = [] ∧ fracPart.length ≤ 1 then none
  else
    let mantissa := intPart ++ fracPart
    match s₂ with
    | e :: t =>
      if e = 'e' ∨ e = 'E' then
        match t with
        | sg :: t' =>
          if sg = '+' ∨ sg = '-' then
            let ds := t'.takeWhile isDigitCh
            if ds = [] then some (mantissa, s₂)
            else some (mantissa ++ e :: sg :: ds, t'.dropWhile isDigitCh)
          else
            let ds := t.takeWhile isDigitCh
            if ds = [] then some (mantissa, s₂)
            else some (mantissa ++ e :: ds, t.dropWhile isDigitCh)
        | [] => some (mantissa, s₂)
      else some (mantissa, s₂)
    | [] => some (mantissa, s₂)

/-- The fuelled lexer loop. -/
def lexLoop (fuel : Nat) (s : List Char) : Option (List Token) :=
  match fuel with
  | 0 => none
  | fuel + 1 =>
    match s with
    | [] => some []
    | c :: r =>
      if c = ' ' ∨ c = '\t' ∨ c = '\r' ∨ c = '\n' then lexLoop fuel r
      else if c = '(' then (lexLoop fuel r).map (Token.lparen :: ·)
      else if c = ')' then (lexLoop fuel r).map (Token.rparen :: ·)
      else if c = '+' then (lexLoop fuel r).map (Token.add :: ·)
      else if c = '-' then (lexLoop fuel r).map (Token.sub :: ·)
      else if c = '*' then (lexLoop fuel r).map (Token.mul :: ·)
      else if c = '/' then (lexLoop fuel r).map (Token.div :: ·)
      else if isUpperCh c then
        let letters := (c :: r).takeWhile isUpperCh
        let rest := (c :: r).dropWhile isUpperCh
        let digits := rest.takeWhile isDigitCh
        if letters.length > 3 ∨ digits = [] then none
        else (lexLoop fuel (rest.dropWhile isDigitCh)).map
          (Token.cell (letters ++ digits) :: ·)
      else if isDigitCh c ∨ c = '.' then
        match lexNumber (c :: r) with
        | none => none
        | some (lexeme, rest) => (lexLoop fuel rest).map (Token.number lexeme :: ·)
      else none

/-- The lexer: any failure is a lexical error (`ParsingError`). -/
def lexFormula (s : List Char) : Option (List Token) := lexLoop (s.length + 1) s

/-- Grammar levels of the recursive-descent parser; the two loop levels
carry the left-associated accumulator. -/
inductive PLevel
  | atom
  | unary
  | mulLoop (acc : PExpr)
  | mul
  | addLoop (acc : PExpr)
  | expr

/-- The fuelled recursive-descent parser over tokens:
`atom := NUMBER | CELL | '(' expr ')'`;
`unary := ('+'|'-') unary | atom` (right-associative, tighter than `* /`);
`mul := unary (('*'|'/') unary)*` (left-associative);
`expr := mul (('+'|'-') mul)*` (left-associative).
Every recursive call consumes one unit of fuel, so the recursion is
structural; `runParse` supplies ample fuel. -/
def parseStep : Nat → PLevel → List Token → Option (PExpr × List Token)
  | 0, _, _ => none
  | Nat.succ f, lv, ts =>
    match lv, ts with
    | .atom, Token.number s :: r => some (.number s, r)
    | .atom, Token.cell s :: r => some (.cell s, r)
    | .atom, Token.lparen :: r =>
      match parseStep f .expr r with
      | some (e, Token.rparen :: r') => some (e, r')
      | _ => none
    | .atom, _ => none
    | .unary, Token.add :: r =>
      (parseStep f .unary r).map fun p => (.unaryOp .UnaryPlus p.1, p.2)
    | .unary, Token.sub :: r =>
      (parseStep f .unary r).map fun p => (.unaryOp .UnaryMinus p.1, p.2)
    | .unary, _ => parseStep f .atom ts
    | .mulLoop acc, Token.mul :: r =>
      match parseStep f .unary r with
      | some (u, r') => parseStep f (.mulLoop (.binaryOp .Multiply acc u)) r'
      | none => none
    | .mulLoop acc, Token.div :: r =>
      match parseStep f .unary r with
      | some (u, r') => parseStep f (.mulLoop (.binaryOp .Divide acc u)) r'
      | none => none
    | .mulLoop acc, _ => some (acc, ts)
    | .mul, _ =>
      match parseStep f .unary ts with
      | some (u, r) => parseStep f (.mulLoop u) r
      | none => none
    | .addLoop acc, Token.add :: r =>
      match parseStep f .mul r with
      | some (m, r') => parseStep f (.addLoop (.binaryOp .Add acc m)) r'
      | none => none
    | .addLoop acc, Token.sub :: r =>
      match parseStep f .mul r with
      | some (m, r') => parseStep f (.addLoop (.binaryOp .Subtract acc m)) r'
      | none => none
    | .addLoop acc, _ => some (acc, ts)
    | .expr, _ =>
      match parseStep f .mul ts with
      | some (m, r) => parseStep f (.addLoop m) r
      | none => none

/-- `main := expr EOF`: the whole token stream must be consumed. -/
def runParse (ts : List Token) : Option PExpr :=
  match parseStep (5 * ts.length + 5) .expr ts with
  | some (e, []) => some e
  | _ => none

/-- `ParseASTListener`'s `exitLiteral`/`exitCell` conversions walked over
the parse tree: a cell lexeme goes through `Position::FromString` and an
out-of-range result raises `FormulaException`.  (`exitLiteral`'s
`istringstream >> double` cannot fail on a lexed `NUMBER` token in this
model, which does not bound number magnitude.) -/
def walkPExpr : PExpr → Except AstError Expr
  | .number s => .ok (.number s)
  | .cell s =>
    if (Position.fromChars s).IsValid then .ok (.cell (Position.fromChars s))
    else .error .formulaException
  | .unaryOp op x =>
    match walkPExpr x with
    | .ok x' => .ok (.unaryOp op x')
    | .error e => .error e
  | .binaryOp op l r =>
    match walkPExpr l with
    | .error e => .error e
    | .ok l' =>
      match walkPExpr r with
      | .error e => .error e
      | .ok r' => .ok (.binaryOp op l' r')

/-- `ParseFormulaAST(std::istream&)`: lexer or parser failure surfaces as
`ParsingError` (via the bail error listener / error strategy), an invalid
cell token as `FormulaException` (from `exitCell`). -/
def parseFormulaASTStream (s : List Char) : Except AstError Expr :=
  match lexFormula s with
  | none => .error .parsingError
  | some ts =>
    match runParse ts with
    | none => .error .parsingError
    | some pe => walkPExpr pe

/-- `ParseFormulaAST(const std::string&)`: wraps the stream overload in
`try { ... } catch (...) { throw FormulaException("aaa"); }` — every
failure, including a `ParsingError`, is rethrown as `FormulaException`. -/
def parseFormulaASTString (s : List Char) : Except AstError Expr :=
  match parseFormulaASTStream s with
  | .ok e => .ok e
  | .error _ => .error .formulaException

/-! ### Infrastructure for the print/parse round trip (claim C5) -/

/-- The parenthesisation bit `PrintFormula` consults. -/
def pbit (pp cp : ExprPrecedence) (rc : Bool) : Bool :=
  if rc then (PRECEDENCE_RULES pp cp).2 else (PRECEDENCE_RULES pp cp).1

/-- Precedence class: the table's bits depend on a child's precedence only
through this (add/sub = 0, mul/div = 1, unary = 2, atom = 3). -/
def pclass : ExprPrecedence → Nat
  | EP_ADD => 0
  | EP_SUB => 0
  | EP_MUL => 1
  | EP_DIV => 1
  | EP_UNARY => 2
  | EP_ATOM => 3

/-- Well-formed ASTs: every stored cell position is valid — true of every
AST the listener builds, since `exitCell` rejects invalid positions. -/
def Expr.wf : Expr → Bool
  | .number _ => true
  | .cell p => p.IsValid
  | .unaryOp _ x => x.wf
  | .binaryOp _ l r => l.wf && r.wf

/-- Node count, the induction measure for the round-trip proofs. -/
def Expr.esize : Expr → Nat
  | .number _ => 1
  | .cell _ => 1
  | .unaryOp _ x => x.esize + 1
  | .binaryOp _ l r => l.esize + r.esize + 1

/-- Whether `e`'s print at the given context is consumable in one piece by
the `unary` grammar level: parenthesised, an atom, or a unary chain over
such. -/
def UOK : Expr → ExprPrecedence → Bool → Bool
  | e, pp, rc =>
    if pbit pp e.getPrecedence rc then true
    else
      match e with
      | .number _ => true
      | .cell _ => true
      | .unaryOp _ x => UOK x EP_UNARY false
      | .binaryOp _ _ _ => false

/-- The unparenthesised print of a node (the `core` of
`Expr::PrintFormula`: what `DoPrintFormula` emits). -/
def coreTokens : Expr → List Token
  | .number s => [Token.number s]
  | .cell p => if p.IsValid then [Token.cell p.toChars] else [Token.refError]
  | .unaryOp op x => op.tok :: x.printFormula EP_UNARY false
  | .binaryOp op l r =>
    l.printFormula op.precedence false ++ op.tok :: r.printFormula op.precedence true

/-- A printed occurrence: a subtree together with the print context it was
emitted in. -/
structure Occ where
  oe : Expr
  opp : ExprPrecedence
  orc : Bool

/-- The tokens of an occurrence. -/
def Occ.print (c : Occ) : List Token := c.oe.printFormula c.opp c.orc

/-- Segmentation of a bare multiplicative fragment into its first
unary-consumable chunk and the following (operator, chunk) list; a bare
unary over a multiplicative fragment donates its sign to the fragment's
first chunk (which is how the re-parse reads it). -/
def msegs : Expr → ExprPrecedence → Bool → Occ × List (BinOpType × Occ)
  | e, pp, rc =>
    if UOK e pp rc then (⟨e, pp, rc⟩, [])
    else
      match e with
      | .binaryOp op l r =>
        let s1 := msegs l op.precedence false
        let s2 := msegs r op.precedence true
        (s1.1, s1.2 ++ (op, s2.1) :: s2.2)
      | .unaryOp u x =>
        let s1 := msegs x EP_UNARY false
        (⟨.unaryOp u s1.1.oe, pp, rc⟩, s1.2)
      | e => (⟨e, pp, rc⟩, [])

/-- The token stream of an (operator, chunk) segment list. -/
def segTokens : List (BinOpType × Occ) → List Token
  | [] => []
  | (op, c) :: s => op.tok :: c.print ++ segTokens s

/-- Segmentation of a bare additive fragment into multiplicative
fragments. -/
def asegs : Expr → ExprPrecedence → Bool → Occ × List (BinOpType × Occ)
  | e, pp, rc =>
    if pbit pp e.getPrecedence rc = true ∨ pclass e.getPrecedence ≠ 0 then
      (⟨e, pp, rc⟩, [])
    else
      match e with
      | .binaryOp op l r =>
        let s1 := asegs l op.precedence false
        let s2 := asegs r op.precedence true
        (s1.1, s1.2 ++ (op, s2.1) :: s2.2)
      | e => (⟨e, pp, rc⟩, [])

/-- Token streams at which the multiplicative loop stops. -/
def restM (rest : List Token) : Prop :=
  rest.head? ≠ some .mul ∧ rest.head? ≠ some .div

/-- Token streams at which the whole expression level stops: end of input
or a closing parenthesis. -/
def restE (rest : List Token) : Prop :=
  rest = [] ∨ ∃ r', rest = Token.rparen :: r'

/-- The unary level consumes exactly the print of a unary-consumable
occurrence, and the result re-prints identically in every context with
the same table bit. -/
def UnaryConsumes (e : Expr) (pp : ExprPrecedence) (rc : Bool) : Prop :=
  ∀ (rest : List Token) (f : Nat), 4 * (e.printFormula pp rc).length + 4 ≤ f →
    ∃ pe' e', parseStep f .unary (e.printFormula pp rc ++ rest) = some (pe', rest) ∧
      walkPExpr pe' = .ok e' ∧ e'.wf = true ∧
      pclass e'.getPrecedence = pclass e.getPrecedence ∧
      ∀ pp' rc', pbit pp' e.getPrecedence rc' = pbit pp e.getPrecedence rc →
        e'.printFormula pp' rc' = e.printFormula pp rc

/-- The multiplicative level consumes exactly the print of a fragment
when the following stream does not extend the loop; the result either
re-prints identically (same class), or — when a bare unary wrapped a
multiplicative chain — is the chain with the sign pushed onto its first
factor, printing identically in every unparenthesised context. -/
def MulConsumes (e : Expr) (pp : ExprPrecedence) (rc : Bool) : Prop :=
  ∀ (rest : List Token) (f : Nat), restM rest →
      4 * (e.printFormula pp rc).length + 5 ≤ f →
    ∃ pe' e', parseStep f .mul (e.printFormula pp rc ++ rest) = some (pe', rest) ∧
      walkPExpr pe' = .ok e' ∧ e'.wf = true ∧
      ((pclass e'.getPrecedence = pclass e.getPrecedence ∧
        ∀ pp' rc', pbit pp' e.getPrecedence rc' = pbit pp e.getPrecedence rc →
          e'.printFormula pp' rc' = e.printFormula pp rc) ∨
       (e.getPrecedence = EP_UNARY ∧ pclass e'.getPrecedence = 1 ∧
        ∀ pp' rc', pbit pp' e'.getPrecedence rc' = false →
          e'.printFormula pp' rc' = e.printFormula pp rc))

/-- The expression level consumes exactly the print of any occurrence
when the following stream is a closing parenthesis or the end. -/
def ExprConsumes (e : Expr) (pp : ExprPrecedence) (rc : Bool) : Prop :=
  ∀ (rest : List Token) (f : Nat), restE rest →
      4 * (e.printFormula pp rc).length + 6 ≤ f →
    ∃ pe' e', parseStep f .expr (e.printFormula pp rc ++ rest) = some (pe', rest) ∧
      walkPExpr pe' = .ok e' ∧ e'.wf = true ∧
      ((pclass e'.getPrecedence = pclass e.getPrecedence ∧
        ∀ pp' rc', pbit pp' e.getPrecedence rc' = pbit pp e.getPrecedence rc →
          e'.printFormula pp' rc' = e.printFormula pp rc) ∨
       (e.getPrecedence = EP_UNARY ∧ pclass e'.getPrecedence = 1 ∧
        ∀ pp' rc', pbit pp' e'.getPrecedence rc' = false →
          e'.printFormula pp' rc' = e.printFormula pp rc))

/-- The induction package for strictly smaller subtrees: unary level. -/
def SmallUnary (n : Nat) : Prop :=
  ∀ (e : Expr) (pp : ExprPrecedence) (rc : Bool),
    e.esize < n → e.wf = true → UOK e pp rc = true → UnaryConsumes e pp rc

/-- The induction package for strictly smaller subtrees: mul level. -/
def SmallMul (n : Nat) : Prop :=
  ∀ (e : Expr) (pp : ExprPrecedence) (rc : Bool),
    e.esize < n → e.wf = true →
    (pbit pp e.getPrecedence rc = true ∨ pclass e.getPrecedence ≠ 0) →
    MulConsumes e pp rc

/-- The characters a token renders to (`operator<<` on the AST nodes:
number and cell lexemes verbatim, operators and parentheses as single
characters, `#REF!` for an invalid stored cell). -/
def Token.chars : Token → List Char
  | .lparen => ['(']
  | .rparen => [')']
  | .add => ['+']
  | .sub => ['-']
  | .mul => ['*']
  | .div => ['/']
  | .number s => s
  | .cell s => s
  | .refError => ['#', 'R', 'E', 'F', '!']

/-- Rendering a token stream to the printed string. -/
def renderTokens : List Token → List Char
  | [] => []
  | t :: ts => t.chars ++ renderTokens ts

/-- Atom tokens (number and cell literals). -/
def atomTok : Token → Bool
  | .number _ => true
  | .cell _ => true
  | _ => false

/-- The exponent shapes `lexNumber` can produce. -/
def expShape (ex : List Char) : Prop :=
  ex = [] ∨ ∃ (ec sg : Char) (ds : List Char),
    (ec = 'e' ∨ ec = 'E') ∧ ds ≠ [] ∧ (∀ c ∈ ds, isDigitCh c = true) ∧
    (ex = ec :: ds ∨ ((sg = '+' ∨ sg = '-') ∧ ex = ec :: sg :: ds))

/-- The lexeme shapes `lexNumber` can produce: digits, an optional
fraction, an optional exponent, with at least one mantissa digit. -/
def NumOK (s : List Char) : Prop :=
  ∃ ip fp ex, s = ip ++ fp ++ ex ∧
    (∀ c ∈ ip, isDigitCh c = true) ∧
    (fp = [] ∨ ∃ fd, fp = '.' :: fd ∧ ∀ c ∈ fd, isDigitCh c = true) ∧
    expShape ex ∧
    ¬(ip = [] ∧ fp.length ≤ 1)

/-- The lexeme shape of a rendered cell reference. -/
def CellOK (s : List Char) : Prop :=
  ∃ ls ds, s = ls ++ ds ∧ ls ≠ [] ∧ ls.length ≤ 3 ∧
    (∀ c ∈ ls, isUpperCh c = true) ∧ ds ≠ [] ∧ (∀ c ∈ ds, isDigitCh c = true)

/-- A lexable token. -/
def TokOK : Token → Prop
  | .number s => NumOK s
  | .cell s => CellOK s
  | .refError => False
  | _ => True

/-- A lexable token stream: every token lexable and no two atom tokens
adjacent. -/
def TokListOK : List Token → Prop
  | [] => True
  | t :: ts => TokOK t ∧
      (atomTok t = true → ∀ t2, ts.head? = some t2 → atomTok t2 = false) ∧
      TokListOK ts

/-- Number lexemes of a parse tree satisfy a predicate. -/
def PENum (P : List Char → Prop) : PExpr → Prop
  | .number s => P s
  | .cell _ => True
  | .unaryOp _ x => PENum P x
  | .binaryOp _ l r => PENum P l ∧ PENum P r

/-- Number lexemes of an AST satisfy a predicate. -/
def ENum (P : List Char → Prop) : Expr → Prop
  | .number s => P s
  | .cell _ => True
  | .unaryOp _ x => ENum P x
  | .binaryOp _ l r => ENum P l ∧ ENum P r

/-- Number lexemes of a token stream satisfy a predicate. -/
def TSNum (P : List Char → Prop) (ts : List Token) : Prop :=
  ∀ s, Token.number s ∈ ts → P s

/-- Number lexemes of a parser-level accumulator satisfy a predicate. -/
def LVNum (P : List Char → Prop) : PLevel → Prop
  | .mulLoop acc => PENum P acc
  | .addLoop acc => PENum P acc
  | _ => True

/-! ## Referenced cells and evaluation -/

/-- The cell positions mentioned by an AST (`FormulaAST::cells_`,
collected by `exitCell`). -/
def Expr.cellsOf : Expr → List Position
  | .number _ => []
  | .cell p => [p]
  | .unaryOp _ x => x.cellsOf
  | .binaryOp _ l r => l.cellsOf ++ r.cellsOf

/-- `operator<` on `Position`: row-major (`std::tie` comparison). -/
def Position.posLt (a b : Position) : Bool :=
  a.row < b.row || (a.row = b.row && a.col < b.col)

/-- Insertion into a sorted duplicate-free list (the `std::set<Position>`
of `Formula::GetReferencedCells`). -/
def insertPosSorted (p : Position) : List Position → List Position
  | [] => [p]
  | q :: t =>
    if p = q then q :: t
    else if Position.posLt p q then p :: q :: t
    else q :: insertPosSorted p t

/-- `Formula::GetReferencedCells`: the valid positions of the AST, sorted
and deduplicated. -/
def referencedCells (e : Expr) : List Position :=
  (e.cellsOf.filter fun p => p.IsValid).foldl (fun acc p => insertPosSorted p acc) []

/-- Exact rationals as unnormalized fractions (the denominator is a
product of nonzero factors, hence nonzero).  `Rat`'s normalizing
arithmetic does not reduce inside the kernel, which would make concrete
trace theorems unprovable by `decide`; this representation does.  The
fraction is *not* reduced, so equalities in concrete theorems are stated
on the computed representatives. -/
structure Dbl where
  num : Int
  den : Int
deriving DecidableEq, Repr

/-- Embedding of an integer. -/
def Dbl.ofInt (n : Int) : Dbl := ⟨n, 1⟩

/-- Addition of fractions. -/
def Dbl.add (a b : Dbl) : Dbl := ⟨a.num * b.den + b.num * a.den, a.den * b.den⟩

/-- Subtraction of fractions. -/
def Dbl.sub (a b : Dbl) : Dbl := ⟨a.num * b.den - b.num * a.den, a.den * b.den⟩

/-- Multiplication of fractions. -/
def Dbl.mul (a b : Dbl) : Dbl := ⟨a.num * b.num, a.den * b.den⟩

/-- Division of fractions (caller guards against a zero divisor). -/
def Dbl.div (a b : Dbl) : Dbl := ⟨a.num * b.den, a.den * b.num⟩

/-- The value-zero test (`den` is never zero by construction). -/
def Dbl.isZero (a : Dbl) : Bool := a.num = 0

/-- `10^e` for a signed exponent. -/
def Dbl.pow10 (e : Int) : Dbl :=
  if 0 ≤ e then ⟨(10 : Int) ^ e.toNat, 1⟩ else ⟨1, (10 : Int) ^ (-e).toNat⟩

/-- `CellInterface::Value = std::variant<std::string, double,
FormulaError>`; doubles are modelled as `Dbl`.  The default-constructed
value is `str []` (the empty string, the variant's first alternative). -/
inductive CellVal
  | str (s : List Char)
  | num (v : Dbl)
  | err (c : FECategory)
deriving DecidableEq, Repr

/-- Modelled from the spec: `std::stod` is standard-library code; per §4.2
the referenced string is "parsed as a decimal number", with the consumed
prefix length reported back (`pos`).  Leading whitespace is skipped,
optional sign, digits with optional fraction, optional scientific
exponent; the hex/inf/nan forms of `strtod` are not modelled. -/
def stodScan (s : List Char) : Option (Dbl × Nat) :=
  let ws := s.takeWhile fun c => c = ' ' ∨ c = '\t' ∨ c = '\r' ∨ c = '\n'
  let s₀ := s.dropWhile fun c => c = ' ' ∨ c = '\t' ∨ c = '\r' ∨ c = '\n'
  let (sign, s₁) : Dbl × List Char :=
    match s₀ with
    | '-' :: t => (Dbl.ofInt (-1), t)
    | '+' :: t => (Dbl.ofInt 1, t)
    | _ => (Dbl.ofInt 1, s₀)
  let intPart := s₁.takeWhile isDigitCh
  let s₂ := s₁.dropWhile isDigitCh
  let (fracPart, s₃) : List Char × List Char :=
    match s₂ with
    | '.' :: t => (t.takeWhile isDigitCh, t.dropWhile isDigitCh)
    | _ => ([], s₂)
  if intPart = [] ∧ fracPart = [] then none
  else
    let mantissa : Dbl :=
      (Dbl.ofInt (intPart.foldl (fun a c => a * 10 + (c.toNat - 48)) 0 : Nat)).add
        ((Dbl.ofInt (fracPart.foldl (fun a c => a * 10 + (c.toNat - 48)) 0 : Nat)).div
          ⟨(10 : Int) ^ fracPart.length, 1⟩)
    let consumed := ws.length + (s₀.length - s₁.length) + intPart.length +
      (s₂.length - s₃.length) + fracPart.length
    match s₃ with
    | e :: t =>
      if e = 'e' ∨ e = 'E' then
        let (esign, t') : Int × List Char :=
          match t with
          | '-' :: t' => (-1, t')
          | '+' :: t' => (1, t')
          | _ => (1, t)
        let eds := t'.takeWhile isDigitCh
        if eds = [] then some (sign.mul mantissa, consumed)
        else
          let expVal : Int := esign * (eds.foldl (fun a c => a * 10 + (c.toNat - 48)) 0 : Nat)
          some ((sign.mul mantissa).mul (Dbl.pow10 expVal),
            consumed + 1 + (t.length - t'.length) + eds.length)
      else some (sign.mul mantissa, consumed)
    | [] => some (sign.mul mantissa, consumed)

/-- The numeric value of a number literal (`exitLiteral`'s
`istringstream >> value` on the lexeme). -/
def numLexVal (s : List Char) : Dbl :=
  match stodScan s with
  | some (q, _) => q
  | none => Dbl.ofInt 0

/-- `CellExpr::Evaluate`, as a function of the stored position and the
outcome of `get_cell` (`none` models a null `CellInterface*`). -/
def cellExprEvaluate (p : Position) (lookup : Option CellVal) : Except FECategory Dbl :=
  if ¬p.IsValid then .error .Ref
  else
    match lookup with
    | none => .ok (Dbl.ofInt 0)
    | some (.err _) => .error .Value
    | some (.num d) => .ok d
    | some (.str s) =>
      if s = [] then .ok (Dbl.ofInt 0)
      else
        match stodScan s with
        | none => .error .Value
        | some (q, pos) => if pos ≠ s.length then .error .Value else .ok q

/-- The `Evaluator` lambda of `BinaryOpExpr::Evaluate`: apply the
operation and raise `Div0` when the result is not finite.  Over `ℚ` the
only non-finite outcome is division by zero. -/
def evalBinOp (op : BinOpType) (l r : Dbl) : Except FECategory Dbl :=
  match op with
  | .Add => .ok (l.add r)
  | .Subtract => .ok (l.sub r)
  | .Multiply => .ok (l.mul r)
  | .Divide => if r.isZero then .error .Div0 else .ok (l.div r)

/-- `UnaryOpExpr::Evaluate`. -/
def evalUnOp : UnOpType → Dbl → Dbl
  | .UnaryPlus, v => v
  | .UnaryMinus, v => (Dbl.ofInt (-1)).mul v

/-! ## Cells and the sheet (cell.cpp, sheet.cpp) -/

/-- `CellCache`: memoized value plus validity bit.  The default-constructed
value is the empty string; when the bit is cleared the stale value is
retained, exactly as in the C++ struct. -/
structure CellCache where
  value : CellVal := .str []
  valid : Bool := false
deriving DecidableEq, Repr

/-- `Cell::Impl` and its three subclasses: `EmptyImpl`, `TextImpl`,
`FormulaImpl` (the latter owning its parsed AST and mutable cache). -/
inductive CellImpl
  | empty
  | text (s : List Char)
  | formula (ast : Expr) (cache : CellCache)
deriving DecidableEq, Repr

/-- `Impl::GetReferencedCells` — overridden only by `FormulaImpl`, which
forwards to `Formula::GetReferencedCells`. -/
def CellImpl.refs : CellImpl → List Position
  | .formula ast _ => referencedCells ast
  | _ => []

/-- `Impl::InvalidateCache` — a no-op except on `FormulaImpl`, which
clears the validity bit. -/
def CellImpl.invalidate : CellImpl → CellImpl
  | .formula ast cache => .formula ast { cache with valid := false }
  | i => i

/-- A `Cell`: its content implementation and its reverse-dependency set
`back_dependencies_`.  In C++ the set holds `CellInterface*`; every live
cell is owned by exactly one map slot, so pointers are modelled as
positions.  (A pointer left dangling by `Sheet::ClearCell` becomes a stale
position; the set is only ever read by `Cell::IsReferenced`, which no code
calls, so the difference is unobservable.) -/
structure Cell where
  impl : CellImpl
  backDeps : List Position
deriving DecidableEq, Repr

/-- A freshly constructed `Cell` (`EmptyImpl`, no reverse edges). -/
def freshCell : Cell := ⟨.empty, []⟩

/-- The sheet's `std::unordered_map<Position, std::unique_ptr<Cell>>`,
modelled as an association list whose keys stay unique by construction. -/
abbrev Sheet := List (Position × Cell)

/-- Map lookup (`GetCell` without the validity guard). -/
def Sheet.find? : Sheet → Position → Option Cell
  | [], _ => none
  | (q, c) :: t, p => if q = p then some c else Sheet.find? t p

/-- Replace the cell stored under a present key (mutation through the
`unique_ptr`). -/
def Sheet.update : Sheet → Position → Cell → Sheet
  | [], _, _ => []
  | (q, c) :: t, p, c' => if q = p then (q, c') :: t else (q, c) :: Sheet.update t p c'

/-- `sheet_.erase(pos)`.  Keys are unique by construction, so erasing
every entry with the key equals erasing the single entry. -/
def Sheet.eraseAt (st : Sheet) (p : Position) : Sheet :=
  st.filter fun qc => decide (qc.1 ≠ p)

/-- The referenced-cells list of the cell at `p` (empty when absent). -/
def Sheet.refsAt (st : Sheet) (p : Position) : List Position :=
  match st.find? p with
  | some c => c.impl.refs
  | none => []

/-- The API-boundary exceptions of §6/§7. -/
inductive ApiExc
  | invalidPosition
  | formulaException
  | circularDependency
deriving DecidableEq, Repr

/-- An operation's outcome: normal return; a thrown boundary exception
(the sheet still has a definite state, possibly already modified); or
undefined behaviour — the unchecked null dereference in
`Cell::UpdateDependencies`. -/
inductive Outcome
  | ok (st : Sheet)
  | exc (e : ApiExc) (st : Sheet)
  | ub
deriving DecidableEq, Repr

/-! ### The cycle detector (`Cell::ThrowIfHasCycle`) -/

/-- The colour map of the three-colour DFS, as the grey and black sets
(`DFSColor::None` = in neither). -/
structure Colors where
  gray : List Position
  black : List Position
deriving DecidableEq, Repr

/-- DFS outcomes: the thrown `CircularDependencyException`, or fuel
exhaustion — unreachable with the fuel `cellThrowIfHasCycle` supplies,
since each nested descent greys a distinct present cell. -/
inductive DfsErr
  | cycleFound
  | fuelOut
deriving DecidableEq, Repr

/-- The reference loop of `DFSPaint`: skip absent cells, skip black ones,
throw on a grey one, and descend into a white one — greying it first and
blackening it when its subtree is done (`color.first->second = Black`).
The descent is abstracted as a function parameter so that the loop is
structurally recursive; `dfsDescend` ties the knot with fuel bounding only
the descent depth. -/
def dfsLoop (st : Sheet) (descend : Colors → Cell → Except DfsErr Colors) :
    Colors → List Position → Except DfsErr Colors
  | colors, [] => .ok colors
  | colors, r :: rest =>
    match st.find? r with
    | none => dfsLoop st descend colors rest
    | some cell =>
      if r ∈ colors.black then dfsLoop st descend colors rest
      else if r ∈ colors.gray then .error .cycleFound
      else
        match descend ⟨r :: colors.gray, colors.black⟩ cell with
        | .error e => .error e
        | .ok c1 => dfsLoop st descend ⟨c1.gray.filter (· ≠ r), r :: c1.black⟩ rest

/-- `DFSPaint` on one cell: loop over its referenced positions. -/
def dfsDescend (st : Sheet) : Nat → Colors → Cell → Except DfsErr Colors
  | 0, _, _ => .error .fuelOut
  | f + 1, colors, cell => dfsLoop st (dfsDescend st f) colors cell.impl.refs

/-- `Cell::ThrowIfHasCycle(&tmp_cell)`: `this` is pre-marked grey, then
the scratch cell's referents are explored; `true` means
`CircularDependencyException` was thrown.  (The scratch cell is not at
any sheet position, so its own colour entry is never consulted and is
omitted.)  Depth fuel `st.length` covers every chain of distinct present
cells. -/
def cellThrowIfHasCycle (st : Sheet) (selfPos : Position)
    (scratchRefs : List Position) : Bool :=
  match dfsLoop st (dfsDescend st st.length) ⟨[selfPos], []⟩ scratchRefs with
  | .error .cycleFound => true
  | _ => false

/-! ### Reverse-edge maintenance and cache invalidation -/

/-- `Cell::UpdateDependencies(old, new)`: erase `this` from each old
referent's reverse set, insert it into each new referent's.  The C++
dereferences `sheet_.GetCell(pos)` without a null check; an absent
position therefore yields `none` — undefined behaviour. -/
def cellUpdateDependencies (st : Sheet) (selfPos : Position)
    (oldDeps newDeps : List Position) : Option Sheet :=
  let era := oldDeps.foldlM
    (fun (s : Sheet) pos =>
      match s.find? pos with
      | none => none
      | some c => some (s.update pos ⟨c.impl, c.backDeps.filter (· ≠ selfPos)⟩))
    st
  match era with
  | none => none
  | some st₁ =>
    newDeps.foldlM
      (fun (s : Sheet) pos =>
        match s.find? pos with
        | none => none
        | some c =>
          some (s.update pos
            ⟨c.impl, if selfPos ∈ c.backDeps then c.backDeps else selfPos :: c.backDeps⟩))
      st₁

/-- `std::unordered_set` insertion for the visited set of
`Cell::InvalidateCache`. -/
def insertPos (p : Position) (v : List Position) : List Position :=
  if p ∈ v then v else p :: v

/-- The reference loop inside `Cell::InvalidateCache`'s DFS: absent cells
are skipped, visited cells are skipped, otherwise recurse.  As with the
cycle detector the descent is a parameter to keep the loop structural. -/
def invLoop (st : Sheet) (descend : List Position → Position → List Position) :
    List Position → List Position → List Position
  | visited, [] => visited
  | visited, ref :: rest =>
    match st.find? ref with
    | none => invLoop st descend visited rest
    | some _ =>
      if ref ∈ visited then invLoop st descend visited rest
      else invLoop st descend (descend visited ref) rest

/-- The `DFS` lambda of `Cell::InvalidateCache`: a null cell returns; the
cell is inserted into the visited set and its *referenced* cells
(forward edges) are explored. -/
def invDescend (st : Sheet) : Nat → List Position → Position → List Position
  | 0, visited, _ => visited
  | f + 1, visited, pos =>
    match st.find? pos with
    | none => visited
    | some cell => invLoop st (invDescend st f) (insertPos pos visited) cell.impl.refs

/-- `Cell::InvalidateCache`: the visited set starts at `{this}`, the DFS
runs from each of *this cell's referenced positions* — the FORWARD edges,
`back_dependencies_` is never consulted — and finally every visited
cell's `impl_->InvalidateCache()` is called. -/
def cellInvalidateCache (st : Sheet) (selfPos : Position) : Sheet :=
  let visited := (st.refsAt selfPos).foldl
    (fun v ref => invDescend st (st.length + 1) v ref) [selfPos]
  st.map fun qc =>
    if qc.1 ∈ visited then (qc.1, ⟨qc.2.impl.invalidate, qc.2.backDeps⟩) else qc

/-! ### `Cell::Set`, `Sheet::SetCell`, `Sheet::ClearCell` -/

/-- The common tail of `Cell::Set` (and of `Cell::Clear`): after the
content swap, `UpdateDependencies(tmp.GetReferencedCells(),
this->GetReferencedCells())` then `InvalidateCache()`. -/
def cellSetTail (st : Sheet) (selfPos : Position) (oldRefs : List Position) : Outcome :=
  match cellUpdateDependencies st selfPos oldRefs (st.refsAt selfPos) with
  | none => .ub
  | some st' => .ok (cellInvalidateCache st' selfPos)

/-- The auto-insertion loop of the formula branch of `Cell::Set`: for each
referent with no cell yet, `sheet_.SetCell(ref_pos, {})` is called; that
recursive call only emplaces a fresh cell and runs the empty branch of
`Set` on it, whose dependency update and invalidation are no-ops, so it is
inlined here as a plain map insertion. -/
def autoInsert (st : Sheet) (refs : List Position) : Sheet :=
  refs.foldl
    (fun s ref => if (Sheet.find? s ref).isSome then s else s ++ [(ref, freshCell)]) st

/-- `Cell::Set(text)` on the (present) cell at `selfPos`.  The scratch
cell (`tmp_cell`) holds the new content until the cycle check passes; on
either exception nothing has been swapped.  After the swap `tmp_cell`
holds the previous content, whose referent list feeds
`UpdateDependencies`. -/
def cellSet (st : Sheet) (selfPos : Position) (text : List Char) : Outcome :=
  let oldRefs := st.refsAt selfPos
  if text = [] then
    cellSetTail
      (st.update selfPos ⟨.empty, ((st.find? selfPos).getD freshCell).backDeps⟩)
      selfPos oldRefs
  else if text.head? = some '=' ∧ 1 < text.length then
    match parseFormulaASTString (text.drop 1) with
    | .error _ => .exc .formulaException st
    | .ok ast =>
      if cellThrowIfHasCycle st selfPos (referencedCells ast) then
        .exc .circularDependency st
      else
        let st₁ := st.update selfPos
          ⟨.formula ast {}, ((st.find? selfPos).getD freshCell).backDeps⟩
        cellSetTail (autoInsert st₁ (referencedCells ast)) selfPos oldRefs
  else
    cellSetTail
      (st.update selfPos ⟨.text text, ((st.find? selfPos).getD freshCell).backDeps⟩)
      selfPos oldRefs

/-- `Sheet::SetCell`: reject an invalid position, emplace a fresh cell if
the slot is empty, then `Cell::Set`. -/
def sheetSetCell (st : Sheet) (pos : Position) (text : List Char) : Outcome :=
  if ¬pos.IsValid then .exc .invalidPosition st
  else
    cellSet (if (st.find? pos).isSome then st else st ++ [(pos, freshCell)]) pos text

/-- `Sheet::ClearCell`: reject an invalid position, then `sheet_.erase(pos)`
— the content reset, dependency rewire, invalidation and the
reverse-edge check of `Cell::Clear`/`Cell::IsReferenced` are *not*
performed. -/
def sheetClearCell (st : Sheet) (pos : Position) : Outcome :=
  if ¬pos.IsValid then .exc .invalidPosition st
  else .ok (st.eraseAt pos)

/-- One API mutation. -/
inductive Op
  | set (pos : Position) (text : List Char)
  | clear (pos : Position)
deriving DecidableEq, Repr

/-- Run a sequence of mutations from a given sheet.  A thrown boundary
exception is reported to the caller and the run continues from the
resulting state; undefined behaviour (`ub`) poisons the run. -/
def runOps : Sheet → List Op → Option Sheet
  | st, [] => some st
  | st, op :: rest =>
    match
      (match op with
       | .set p t => sheetSetCell st p t
       | .clear p => sheetClearCell st p) with
    | .ok st' => runOps st' rest
    | .exc _ st' => runOps st' rest
    | .ub => none


/-! ### `GetValue` — lazy evaluation with memoization -/

/-- The value analysis of `CellExpr::Evaluate` on an obtained cell value
(everything after the null check). -/
def cellValConvert (v : CellVal) : Except FECategory Dbl :=
  match v with
  | .err _ => .error .Value
  | .num d => .ok d
  | .str s =>
    if s = [] then .ok (Dbl.ofInt 0)
    else
      match stodScan s with
      | none => .error .Value
      | some (q, pos) => if pos ≠ s.length then .error .Value else .ok q

/-- `Expr::Evaluate` over the AST, threading the sheet because a
referenced cell's `GetValue` memoizes through `const` (`mutable cache_`).
The stateful `GetValue` of referenced cells is a parameter so that the
recursion over the expression stays structural. -/
def evalExprWith (getVal : Sheet → Position → Sheet × CellVal) :
    Sheet → Expr → Sheet × Except FECategory Dbl
  | st, .number s => (st, .ok (numLexVal s))
  | st, .cell p =>
    if ¬p.IsValid then (st, .error .Ref)
    else
      match st.find? p with
      | none => (st, .ok (Dbl.ofInt 0))
      | some _ =>
        let r := getVal st p
        (r.1, cellValConvert r.2)
  | st, .unaryOp op x =>
    match evalExprWith getVal st x with
    | (st', .error e) => (st', .error e)
    | (st', .ok v) => (st', .ok (evalUnOp op v))
  | st, .binaryOp op l r =>
    match evalExprWith getVal st l with
    | (st', .error e) => (st', .error e)
    | (st', .ok lv) =>
      match evalExprWith getVal st' r with
      | (st'', .error e) => (st'', .error e)
      | (st'', .ok rv) => (st'', evalBinOp op lv rv)

/-- `Cell::GetValue` / `Impl::GetValue` for the cell at `p`: Empty yields
the empty string; Text strips a leading `'`; Formula returns the memoized
value when valid, otherwise evaluates, stores and marks valid
(`Formula::Evaluate` catches a raised `FormulaError` and returns it as a
value). -/
def cellGetValueWith (evalAst : Sheet → Expr → Sheet × Except FECategory Dbl)
    (st : Sheet) (p : Position) : Sheet × CellVal :=
  match st.find? p with
  | none => (st, .str [])
  | some c =>
    match c.impl with
    | .empty => (st, .str [])
    | .text s =>
      match s with
      | '\'' :: t => (st, .str t)
      | _ => (st, .str s)
    | .formula ast cache =>
      if cache.valid then (st, cache.value)
      else
        let r := evalAst st ast
        let ret : CellVal :=
          match r.2 with
          | .ok d => .num d
          | .error e => .err e
        (Sheet.update r.1 p ⟨.formula ast ⟨ret, true⟩, c.backDeps⟩, ret)

/-- The tied evaluation loop, fuelled on the depth of formula chains. -/
def evalAstFuel : Nat → Sheet → Expr → Sheet × Except FECategory Dbl
  | 0, st, _ => (st, .error .Value)
  | f + 1, st, e => evalExprWith (cellGetValueWith (evalAstFuel f)) st e

/-- The API read `GetCell(p)->GetValue()`, returning the value and the
sheet with any caches it populated. -/
def apiGetValue (st : Sheet) (p : Position) : Sheet × CellVal :=
  cellGetValueWith (evalAstFuel (st.length + 1)) st p

/-! ### The forward-edge graph -/

/-- A forward edge: the cell at `a` references position `b` (absent cells
and non-formula cells have no referents, so no outgoing edges). -/
def Edge (st : Sheet) (a b : Position) : Prop := b ∈ st.refsAt a

/-- Reachability along forward edges. -/
def Reaches (st : Sheet) : Position → Position → Prop :=
  Relation.ReflTransGen (Edge st)

/-- The forward-edge relation contains no directed cycle. -/
def Acyclic (st : Sheet) : Prop := ∀ v, ¬Relation.TransGen (Edge st) v v

/-- The finished-cell invariant of the three-colour DFS: every present
successor of a black cell is black. -/
def BlackClosed (st : Sheet) (black : List Position) : Prop :=
  ∀ b ∈ black, ∀ x ∈ st.refsAt b, (st.find? x).isSome → x ∈ black

/-- Grey cells are present in the map (`this` is emplaced before
`Cell::Set` runs; every cell the DFS greys came from a successful
lookup). -/
def GrayPresent (st : Sheet) (colors : Colors) : Prop :=
  ∀ g ∈ colors.gray, (st.find? g).isSome = true

/-- Grey and black are disjoint. -/
def GrayBlackDisjoint (colors : Colors) : Prop :=
  ∀ x ∈ colors.black, x ∉ colors.gray

/-- The number of present positions not yet coloured — the quantity that
strictly decreases at each DFS descent, bounding the recursion depth. -/
def whiteCount (st : Sheet) (colors : Colors) : Nat :=
  (((st.map Prod.fst).dedup).filter
    (fun p => decide (p ∉ colors.gray ∧ p ∉ colors.black))).length

/-- The contract `dfsLoop` relies on for its descent callback, satisfied
by `dfsDescend` at every fuel: on a normal return the grey set is
restored, black only grows, the visited cell's present referents are
black, every new black cell is present and was not grey, and the
finished-cell invariant is preserved. -/
def DescSpec (st : Sheet) (descend : Colors → Cell → Except DfsErr Colors) : Prop :=
  ∀ colors cell c', descend colors cell = .ok c' →
    c'.gray = colors.gray ∧
    (∀ x ∈ colors.black, x ∈ c'.black) ∧
    (∀ r ∈ cell.impl.refs, (Sheet.find? st r).isSome = true → r ∈ c'.black) ∧
    (∀ x ∈ c'.black,
      x ∈ colors.black ∨ ((Sheet.find? st x).isSome = true ∧ x ∉ colors.gray)) ∧
    (BlackClosed st colors.black → BlackClosed st c'.black)

/-- One API mutation dispatched (the body of the `runOps` loop). -/
def applyOp (st : Sheet) : Op → Outcome
  | .set p t => sheetSetCell st p t
  | .clear p => sheetClearCell st p
/-- `runOps` steps through `applyOp`. -/
theorem runOps_cons (st : Sheet) (op : Op) (rest : List Op) :
    runOps st (op :: rest) =
      match applyOp st op with
      | .ok st' => runOps st' rest
      | .exc _ st' => runOps st' rest
      | .ub => none := by
  cases op <;> rfl


/-! ### Concrete traces used by the claims -/

/-- Scenario 6 of spec §8, first half: `Set(A1,"=B1")`, `Set(B1,"=C1")`,
`Set(C1,"5")`. -/
def c1Ops : List Op :=
  [.set ⟨0, 0⟩ "=B1".toList, .set ⟨0, 1⟩ "=C1".toList, .set ⟨0, 2⟩ "5".toList]

/-- The sheet after the three writes. -/
def c1St1 : Sheet := (runOps [] c1Ops).getD []

/-- The first read of `A1` (populating the caches of `A1` and `B1`). -/
def c1Read1 : Sheet × CellVal := apiGetValue c1St1 ⟨0, 0⟩

/-- The sheet after `Set(C1, "7")`. -/
def c1St3 : Sheet :=
  match sheetSetCell c1Read1.1 ⟨0, 2⟩ "7".toList with
  | .ok s => s
  | .exc _ s => s
  | .ub => []

/-- The second read of `A1`. -/
def c1Read2 : Sheet × CellVal := apiGetValue c1St3 ⟨0, 0⟩

/-- The sheet after `Set(A1, "=B1")` on an empty sheet. -/
def c2St : Sheet := (runOps [] [.set ⟨0, 0⟩ "=B1".toList]).getD []

/-- That sheet after `ClearCell(B1)`. -/
def c2St' : Sheet := c2St.eraseAt ⟨0, 1⟩

/-- The sheet after `Set(A1,"=B1")` then `ClearCell(B1)`. -/
def c10St2 : Sheet :=
  (runOps [] [.set ⟨0, 0⟩ "=B1".toList, .clear ⟨0, 1⟩]).getD []

/-- A one-step run (`Set(A1,"x")`) whose resulting sheet witnesses the
acyclicity invariant. -/
def c3Ops : List Op := [.set ⟨0, 0⟩ ['x']]

/-- The sheet that run produces. -/
def c3St : Sheet := (runOps [] c3Ops).getD []

/-! ## Round-trip facts about `Position` string conversion -/

lemma letterChar_toNat : ∀ m : Nat, m < 26 → (Char.ofNat (65 + m)).toNat = 65 + m := by
  decide

lemma letterChar_isValidChar : ∀ m : Nat, m < 26 →
    isValidChar (Char.ofNat (65 + m)) = true := by decide

lemma digitChar_toNat : ∀ d : Nat, d < 10 → (Char.ofNat (48 + d)).toNat = 48 + d := by
  decide

lemma digitChar_isValidDigit : ∀ d : Nat, d < 10 →
    isValidDigit (Char.ofNat (48 + d)) = true := by decide

lemma isValidDigit_not_isValidChar (c : Char) (h : isValidDigit c = true) :
    isValidChar c = false := by
  simp only [isValidDigit, Bool.and_eq_true, decide_eq_true_eq] at h
  have : ¬(isValidChar c = true) := by
    simp only [isValidChar, Bool.and_eq_true, decide_eq_true_eq]
    omega
  simpa using this

lemma takeWhile_append_left (p : Char → Bool) (l₁ l₂ : List Char)
    (h₁ : ∀ a ∈ l₁, p a = true) (h₂ : ∀ a ∈ l₂.take 1, p a = false) :
    (l₁ ++ l₂).takeWhile p = l₁ ∧ (l₁ ++ l₂).dropWhile p = l₂ := by
  induction l₁ with
  | nil =>
    simp only [List.nil_append]
    cases l₂ with
    | nil => simp
    | cons a t =>
      have ha := h₂ a (by simp)
      simp [List.takeWhile, List.dropWhile, ha]
  | cons a t ih =>
    have ha := h₁ a (by simp)
    have ht := ih (fun x hx => h₁ x (by simp [hx]))
    simp [List.takeWhile, List.dropWhile, ha, ht.1, ht.2]

/-- Every character the `ToString` letter loop emits is an upper-case letter. -/
lemma colLettersRev_valid (f : Nat) : ∀ c, c < f →
    ∀ ch ∈ colLettersRev f c, isValidChar ch = true := by
  induction f with
  | zero => omega
  | succ f ih =>
    intro c _ ch hch
    simp only [colLettersRev] at hch
    rcases List.mem_cons.mp hch with h | h
    · exact h ▸ letterChar_isValidChar _ (Nat.mod_lt _ (by omega))
    · rcases Nat.lt_or_ge c 26 with h26 | h26
      · simp [h26] at h
      · rw [if_neg (show ¬c < 26 by omega)] at h
        exact ih _ (by omega) ch h

/-- With fewer than `26 + 26² + 26³` columns the letter loop stops within
three iterations. -/
lemma colLettersRev_length (f : Nat) : ∀ c, c < f →
    ((c < 26 → (colLettersRev f c).length ≤ 1) ∧
     (c < 702 → (colLettersRev f c).length ≤ 2) ∧
     (c < 18278 → (colLettersRev f c).length ≤ 3)) := by
  induction f with
  | zero => omega
  | succ f ih =>
    intro c _
    simp only [colLettersRev]
    by_cases h1 : c < 26
    · simp [h1]
    · rw [if_neg h1]
      have h' := ih (c / 26 - 1) (by omega)
      refine ⟨by omega, fun h2 => ?_, fun h3 => ?_⟩
      · have := h'.1 (by omega)
        simp only [List.length_cons]
        omega
      · have := h'.2.1 (by omega)
        simp only [List.length_cons]
        omega

/-- Decoding the reversed letter string recovers the bijective base-26 value:
the column loop of `FromString` applied to the output of the column loop of
`ToString` yields `c + 1`. -/
lemma colLettersRev_decode (f : Nat) : ∀ c, c < f →
    ((colLettersRev f c).reverse).foldl
      (fun col ch => col * 26 + ((ch.toNat : Int) - 65 + 1)) 0 = (c : Int) + 1 := by
  induction f with
  | zero => omega
  | succ f ih =>
    intro c _
    simp only [colLettersRev]
    have hmod : c % 26 < 26 := Nat.mod_lt _ (by omega)
    have hchar := letterChar_toNat (c % 26) hmod
    by_cases h1 : c < 26
    · simp only [if_pos h1, List.reverse_cons, List.reverse_nil, List.nil_append,
        List.foldl_cons, List.foldl_nil, hchar]
      have : c % 26 = c := Nat.mod_eq_of_lt h1
      push_cast [this]
      ring
    · rw [if_neg h1]
      have hdiv : 1 ≤ c / 26 := (Nat.one_le_div_iff (by omega)).mpr (by omega)
      simp only [List.reverse_cons, List.foldl_append, List.foldl_cons, List.foldl_nil,
        ih (c / 26 - 1) (by omega), hchar]
      have hnm := Nat.div_add_mod c 26
      push_cast [Nat.cast_sub hdiv]
      push_cast at hnm
      linarith [hnm]

/-- The fuelled digit loop agrees with `Nat.digits` once the fuel exceeds
the value. -/
lemma natDigitsRev_eq (f : Nat) : ∀ n, n < f →
    natDigitsRev f n = (Nat.digits 10 n).map fun d => Char.ofNat (48 + d) := by
  induction f with
  | zero => omega
  | succ f ih =>
    intro n _
    simp only [natDigitsRev]
    by_cases h0 : n = 0
    · simp [h0]
    · rw [if_neg h0, Nat.digits_def' (show (1:ℕ) < 10 by norm_num) (Nat.pos_of_ne_zero h0)]
      simp only [List.map_cons]
      congr 1
      exact ih (n / 10) (by omega)

/-- `natDecimal` in terms of `Nat.digits`. -/
lemma natDecimal_eq (n : Nat) :
    natDecimal n =
      if n = 0 then ['0']
      else (Nat.digits 10 n).reverse.map fun d => Char.ofNat (48 + d) := by
  rw [natDecimal]
  by_cases h0 : n = 0
  · simp [h0]
  · rw [if_neg h0, if_neg h0, natDigitsRev_eq (n + 1) n (by omega), List.map_reverse]

/-- Folding most-significant-first over digit characters computes the decimal
value (`stoi`'s accumulation). -/
lemma foldl_digit_chars (l : List Nat) (hl : ∀ d ∈ l, d < 10) (acc : Nat) :
    (l.map fun d => Char.ofNat (48 + d)).foldl (fun a c => a * 10 + (c.toNat - 48)) acc
      = l.foldl (fun a d => a * 10 + d) acc := by
  induction l generalizing acc with
  | nil => rfl
  | cons d t ih =>
    have hd : d < 10 := hl d (by simp)
    simp only [List.map_cons, List.foldl_cons, digitChar_toNat d hd]
    rw [ih (fun x hx => hl x (by simp [hx]))]
    congr 1
    omega

lemma foldl_reverse_ofDigits (l : List Nat) (acc : Nat) :
    l.reverse.foldl (fun a d => a * 10 + d) acc = acc * 10 ^ l.length + Nat.ofDigits 10 l := by
  induction l generalizing acc with
  | nil => simp
  | cons d t ih =>
    simp only [List.reverse_cons, List.foldl_append, List.foldl_cons, List.foldl_nil,
      ih, Nat.ofDigits_cons, List.length_cons]
    ring

lemma natDecimal_digits (n : Nat) : ∀ c ∈ natDecimal n, isValidDigit c = true := by
  intro c hc
  rw [natDecimal_eq] at hc
  by_cases h : n = 0
  · simp [h] at hc
    subst hc; decide
  · rw [if_neg h] at hc
    simp only [List.mem_map, List.mem_reverse] at hc
    obtain ⟨d, hd, rfl⟩ := hc
    exact digitChar_isValidDigit d (Nat.digits_lt_base (by omega) hd)

lemma natDecimal_ne_nil (n : Nat) : natDecimal n ≠ [] := by
  rw [natDecimal_eq]
  by_cases h : n = 0
  · simp [h]
  · rw [if_neg h]
    simp [Nat.digits_ne_nil_iff_ne_zero, h]

/-- The digit fold of `stoi` applied to `std::to_string n` recovers `n`. -/
lemma natDecimal_foldl (n : Nat) :
    (natDecimal n).foldl (fun a c => a * 10 + (c.toNat - 48)) 0 = n := by
  rw [natDecimal_eq]
  by_cases h0 : n = 0
  · subst h0; decide
  · rw [if_neg h0]
    rw [foldl_digit_chars _ (fun d hd => Nat.digits_lt_base (by omega) (List.mem_reverse.mp hd)) 0,
      foldl_reverse_ofDigits, Nat.ofDigits_digits]
    simp

/-- `stoi` applied to `std::to_string n` recovers `n` whenever it fits in an
`int`. -/
lemma stoi_natDecimal (n : Nat) (h : n ≤ 2147483647) : stoi (natDecimal n) = some (n : Int) := by
  rw [stoi, natDecimal_foldl, if_neg (by omega)]

/-- The split of `letters ++ digits` performed by `FromString`'s two
`find_if_not` scans. -/
lemma fromChars_split (L D : List Char) (hL : ∀ c ∈ L, isValidChar c = true)
    (hD : ∀ c ∈ D, isValidDigit c = true) :
    (L ++ D).takeWhile isValidChar = L ∧ (L ++ D).dropWhile isValidChar = D := by
  refine takeWhile_append_left _ _ _ hL ?_
  intro a ha
  exact isValidDigit_not_isValidChar a (hD a (List.mem_of_mem_take ha))

/-- Evaluation of `Position::FromString` on any string of the shape
`[A-Z]{1,3}[0-9]+` whose digit value fits in an `int`: the decoded pair is
returned with *no* range check. -/
lemma fromChars_eval (L D : List Char) (hL0 : L ≠ []) (hL3 : L.length ≤ 3)
    (hL : ∀ c ∈ L, isValidChar c = true) (hD0 : D ≠ [])
    (hD : ∀ c ∈ D, isValidDigit c = true)
    (hbound : D.foldl (fun a c => a * 10 + (c.toNat - 48)) 0 ≤ 2147483647) :
    Position.fromChars (L ++ D) =
      ⟨((D.foldl (fun a c => a * 10 + (c.toNat - 48)) 0 : Nat) : Int) - 1,
       L.foldl (fun col ch => col * 26 + ((ch.toNat : Int) - 65 + 1)) 0 - 1⟩ := by
  obtain ⟨htake, hdrop⟩ := fromChars_split L D hL hD
  have hne : L ++ D ≠ [] := by simp [hL0]
  have hDall : D.dropWhile isValidDigit = [] := List.dropWhile_eq_nil_iff.mpr hD
  have hDtake : D.takeWhile isValidDigit = D := List.takeWhile_eq_self_iff.mpr hD
  rw [Position.fromChars, if_neg hne, htake, hdrop, if_neg hL0, if_neg hD0]
  rw [if_neg (by simp [hDall]), if_neg (by omega)]
  rw [hDtake, stoi, if_neg (by omega)]

/-- The column fold of `FromString` on a non-empty run of upper-case letters
yields a value ≥ 1 (so the returned column is never `-1`). -/
lemma letters_foldl_pos (L : List Char) (hL : ∀ c ∈ L, isValidChar c = true) (acc : Int)
    (hacc : 0 ≤ acc) :
    0 ≤ L.foldl (fun col ch => col * 26 + ((ch.toNat : Int) - 65 + 1)) acc ∧
    (L ≠ [] → 1 ≤ L.foldl (fun col ch => col * 26 + ((ch.toNat : Int) - 65 + 1)) acc) := by
  induction L generalizing acc with
  | nil => exact ⟨hacc, fun h => absurd rfl h⟩
  | cons a t ih =>
    have ha : 65 ≤ a.toNat ∧ a.toNat ≤ 90 := by
      have := hL a (by simp)
      simpa [isValidChar, Bool.and_eq_true, decide_eq_true_eq] using this
    have hstep : 1 ≤ acc * 26 + ((a.toNat : Int) - 65 + 1) := by
      have : (65 : Int) ≤ (a.toNat : Int) := by exact_mod_cast ha.1
      nlinarith
    have := ih (fun x hx => hL x (by simp [hx])) (acc * 26 + ((a.toNat : Int) - 65 + 1))
      (by omega)
    refine ⟨by simpa using this.1, fun _ => ?_⟩
    rcases List.eq_nil_or_concat t with rfl | _
    · simpa using hstep
    · rcases t with _ | ⟨b, t'⟩
      · simpa using hstep
      · have h1 := this.2 (by simp)
        simpa using h1

/-- Full evaluation of `FromString ∘ ToString` on a valid position. -/
lemma fromChars_toChars (p : Position) (h : p.IsValid = true) :
    Position.fromChars p.toChars = p := by
  have hp : 0 ≤ p.row ∧ 0 ≤ p.col ∧ p.row < 16384 ∧ p.col < 16384 := by
    simpa [Position.IsValid, MAX_ROWS, MAX_COLS, Bool.and_eq_true, decide_eq_true_eq,
      and_assoc] using h
  rw [Position.toChars, if_neg (by simp [h])]
  have hL0 : (colLettersRev (p.col.toNat + 1) p.col.toNat).reverse ≠ [] := by
    simp only [colLettersRev]
    simp
  have hL3 : ((colLettersRev (p.col.toNat + 1) p.col.toNat).reverse).length ≤ 3 := by
    rw [List.length_reverse]
    exact (colLettersRev_length _ _ (by omega)).2.2 (by omega)
  have hLv : ∀ c ∈ (colLettersRev (p.col.toNat + 1) p.col.toNat).reverse,
      isValidChar c = true := by
    intro c hc
    exact colLettersRev_valid _ _ (by omega) c (List.mem_reverse.mp hc)
  have hD0 := natDecimal_ne_nil (p.row + 1).toNat
  have hDv := natDecimal_digits (p.row + 1).toNat
  have hDval := natDecimal_foldl (p.row + 1).toNat
  rw [fromChars_eval _ _ hL0 hL3 hLv hD0 hDv (by rw [hDval]; omega)]
  rw [colLettersRev_decode _ _ (by omega)]
  obtain ⟨r, c⟩ := p
  simp only [Position.mk.injEq, hDval]
  constructor
  · simp only at hp ⊢
    omega
  · simp only at hp ⊢
    omega

/-- A `FromString` run that does not return `NONE` certifies the amended
lexical condition. -/
lemma fromChars_ne_none_matches (s : List Char) (h : Position.fromChars s ≠ Position.NONE) :
    SpecMatches s := by
  rw [Position.fromChars] at h
  by_cases h1 : s = []
  · rw [if_pos h1] at h; exact absurd rfl h
  rw [if_neg h1] at h
  by_cases h2 : s.takeWhile isValidChar = []
  · rw [if_pos h2] at h; exact absurd rfl h
  rw [if_neg h2] at h
  by_cases h3 : s.dropWhile isValidChar = []
  · rw [if_pos h3] at h; exact absurd rfl h
  rw [if_neg h3] at h
  by_cases h4 : (s.dropWhile isValidChar).dropWhile isValidDigit ≠ []
  · rw [if_pos h4] at h; exact absurd rfl h
  rw [if_neg h4] at h
  by_cases h5 : (s.takeWhile isValidChar).length > 3
  · rw [if_pos h5] at h; exact absurd rfl h
  rw [if_neg h5] at h
  have hdigits : ∀ c ∈ s.dropWhile isValidChar, isValidDigit c = true :=
    List.dropWhile_eq_nil_iff.mp (not_not.mp h4)
  have htake : (s.dropWhile isValidChar).takeWhile isValidDigit = s.dropWhile isValidChar :=
    List.takeWhile_eq_self_iff.mpr hdigits
  rw [htake, stoi] at h
  by_cases h6 :
      (s.dropWhile isValidChar).foldl (fun a c => a * 10 + (c.toNat - 48)) 0 > 2147483647
  · rw [if_pos h6] at h; exact absurd rfl h
  exact ⟨s.takeWhile isValidChar, s.dropWhile isValidChar,
    (List.takeWhile_append_dropWhile isValidChar s).symm, h2, by omega,
    fun c hc => List.mem_takeWhile_imp hc, h3, hdigits, by omega⟩

/-- Conversely, on any input satisfying the amended lexical condition
`FromString` returns the decoded pair, whose column field is ≥ 0, so the
result is never `NONE`. -/
lemma fromChars_matches_ne_none (s : List Char) (hm : SpecMatches s) :
    Position.fromChars s ≠ Position.NONE := by
  obtain ⟨L, D, rfl, hL0, hL3, hLv, hD0, hDv, hbound⟩ := hm
  rw [fromChars_eval L D hL0 hL3 hLv hD0 hDv hbound]
  have hcol := (letters_foldl_pos L hLv 0 le_rfl).2 hL0
  intro hcontra
  have : (Position.NONE).col = -1 := rfl
  rw [← hcontra] at this
  simp only at this
  omega

/-! ## Claim C7 -/

/-- C7 counterexample: the claim says `FromString` returns `NONE` on
`"ZZZ1"` (column out of range), `"A0"` (row 0) and `"A99999"` (row out of
range); the code never performs the range check and returns the decoded
pair instead, which differs from the `NONE` sentinel on all three. -/
theorem C7_counterexample :
    Position.fromString "ZZZ1" = ⟨0, 18277⟩ ∧ Position.fromString "ZZZ1" ≠ Position.NONE ∧
    Position.fromString "A0" = ⟨-1, 0⟩ ∧ Position.fromString "A0" ≠ Position.NONE ∧
    Position.fromString "A99999" = ⟨99998, 0⟩ ∧
    Position.fromString "A99999" ≠ Position.NONE :=
  ⟨by decide, by decide, by decide, by decide, by decide, by decide⟩

/-- C7 (amended): `Position::FromString` returns `NONE` exactly when the
input fails the lexical shape `[A-Z]{1,3}[0-9]+` (or the digit value
overflows `int`); it performs no range check, so in-grammar strings with
out-of-range coordinates — `ZZZ1`, `A0`, `A99999` — decode to positions
that are invalid under `IsValid` yet distinct from `NONE`. -/
theorem C7_fromString_amended :
    (∀ s : List Char, Position.fromChars s = Position.NONE ↔ ¬SpecMatches s) ∧
    Position.fromString "ZZZ1" = ⟨0, 18277⟩ ∧ (Position.mk 0 18277).IsValid = false ∧
    Position.fromString "A0" = ⟨-1, 0⟩ ∧ (Position.mk (-1) 0).IsValid = false ∧
    Position.fromString "A99999" = ⟨99998, 0⟩ ∧
    (Position.mk 99998 0).IsValid = false := by
  refine ⟨fun s => ⟨?_, ?_⟩, by decide, by decide, by decide, by decide, by decide, by decide⟩
  · intro h hm
    exact fromChars_matches_ne_none s hm h
  · intro hm
    by_contra hne
    exact hm (fromChars_ne_none_matches s hne)

/-! ## Claim C8 -/

/-- C8: Position string conversion round-trips: for every valid zero-based
`(row, col)` pair, `FromString (ToString (row, col)) = (row, col)`. -/
theorem C8_position_roundtrip (row col : Int) (h1 : 0 ≤ row) (h2 : row < 16384)
    (h3 : 0 ≤ col) (h4 : col < 16384) :
    Position.fromString (Position.toStr ⟨row, col⟩) = ⟨row, col⟩ := by
  have hv : (Position.mk row col).IsValid = true := by
    simp only [Position.IsValid, MAX_ROWS, MAX_COLS, Bool.and_eq_true, decide_eq_true_eq,
      ge_iff_le]
    refine ⟨⟨⟨h1, h3⟩, h2⟩, h4⟩
  exact fromChars_toChars ⟨row, col⟩ hv

/-- Witness for C8 at `(row, col) = (2, 27)` (cell `AB3`). -/
theorem C8_position_roundtrip_witness :
    (0:Int) ≤ 2 ∧ (2:Int) < 16384 ∧ (0:Int) ≤ 27 ∧ (27:Int) < 16384 ∧
    Position.fromString (Position.toStr ⟨2, 27⟩) = ⟨2, 27⟩ :=
  ⟨by decide, by decide, by decide, by decide,
   C8_position_roundtrip 2 27 (by decide) (by decide) (by decide) (by decide)⟩

/-! ## Claim C6 -/

/-- C6: evaluation of a cell-reference node `Cell(p)`: invalid `p` raises
`Ref`; an absent cell yields `0`; a referenced `FormulaError` of *any*
category raises `Value`; a number yields itself; a string yields `0` when
empty, its decimal value when the whole string parses, and raises `Value`
otherwise. -/
theorem C6_cellref_evaluate (p : Position) (lookup : Option CellVal) :
    (p.IsValid = false → cellExprEvaluate p lookup = .error .Ref) ∧
    (p.IsValid = true → lookup = none → cellExprEvaluate p lookup = .ok (Dbl.ofInt 0)) ∧
    (∀ c, p.IsValid = true → lookup = some (.err c) →
      cellExprEvaluate p lookup = .error .Value) ∧
    (∀ d, p.IsValid = true → lookup = some (.num d) →
      cellExprEvaluate p lookup = .ok d) ∧
    (p.IsValid = true → lookup = some (.str []) →
      cellExprEvaluate p lookup = .ok (Dbl.ofInt 0)) ∧
    (∀ s q, p.IsValid = true → lookup = some (.str s) → s ≠ [] →
      stodScan s = some (q, s.length) → cellExprEvaluate p lookup = .ok q) ∧
    (∀ s, p.IsValid = true → lookup = some (.str s) → s ≠ [] →
      (∀ q, stodScan s ≠ some (q, s.length)) →
      cellExprEvaluate p lookup = .error .Value) := by
  refine ⟨?_, ?_, ?_, ?_, ?_, ?_, ?_⟩
  · intro hv
    simp [cellExprEvaluate, hv]
  · intro hv hl
    simp [cellExprEvaluate, hv, hl]
  · intro c hv hl
    simp [cellExprEvaluate, hv, hl]
  · intro d hv hl
    simp [cellExprEvaluate, hv, hl]
  · intro hv hl
    simp [cellExprEvaluate, hv, hl]
  · intro s q hv hl hs hscan
    simp [cellExprEvaluate, hv, hl, hs, hscan]
  · intro s hv hl hs hscan
    subst hl
    match hsc : stodScan s with
    | none => simp [cellExprEvaluate, hv, hs, hsc]
    | some (q, pos) =>
      have hne : pos ≠ s.length := fun hpos => hscan q (by rw [hsc, hpos])
      simp [cellExprEvaluate, hv, hs, hsc, hne]

/-- Witness for C6: the error-normalisation branch at a concrete input —
a referenced `#DIV/0!` surfaces as `#VALUE!`. -/
theorem C6_cellref_evaluate_witness :
    (Position.mk 0 0).IsValid = true ∧
    cellExprEvaluate ⟨0, 0⟩ (some (.err .Div0)) = .error .Value :=
  ⟨by decide, (C6_cellref_evaluate ⟨0, 0⟩ (some (.err .Div0))).2.2.1 .Div0 (by decide) rfl⟩

/-! ## Claim C9 -/

/-- C9 counterexample: at the boundary the claim speaks about — the caller
of `ParseFormula`, which reaches `ParseFormulaAST(const std::string&)` —
the syntactic failure `"1+"` surfaces as `FormulaException`, not
`ParsingError`: the string overload's `catch (...)` rethrows everything as
`FormulaException("aaa")`. -/
theorem C9_counterexample :
    parseFormulaASTString "1+".toList = .error .formulaException ∧
    AstError.formulaException ≠ AstError.parsingError :=
  ⟨by rfl, by decide⟩

/-- C9 (amended): inside `ParseFormulaAST(std::istream&)` the two failure
kinds are distinct — lexical/syntactic failures raise `ParsingError`,
out-of-range cell tokens raise `FormulaException` — but the string
overload used by `ParseFormula` collapses every failure to
`FormulaException`, so the two are *not* distinguishable by
`ParseFormula`'s caller. -/
theorem C9_parse_errors_amended :
    (∀ (s : List Char) (e : AstError),
      parseFormulaASTString s = .error e → e = .formulaException) ∧
    parseFormulaASTStream "1+".toList = .error .parsingError ∧
    parseFormulaASTStream "(1".toList = .error .parsingError ∧
    parseFormulaASTStream "ZZZ1".toList = .error .formulaException ∧
    parseFormulaASTString "1+".toList = .error .formulaException ∧
    parseFormulaASTString "ZZZ1".toList = .error .formulaException := by
  refine ⟨?_, by rfl, by rfl, by rfl, by rfl, by rfl⟩
  intro s e h
  rw [parseFormulaASTString] at h
  match hst : parseFormulaASTStream s with
  | .ok v => rw [hst] at h; exact absurd h (by simp)
  | .error e' => rw [hst] at h; exact (Except.error.injEq _ _).mp h.symm

/-- Witness for C9 (amended), applying the universal conjunct at the
concrete failing input `"1+"`. -/
theorem C9_parse_errors_amended_witness :
    parseFormulaASTString "1+".toList = .error .formulaException ∧
    AstError.formulaException = .formulaException :=
  ⟨by rfl,
   C9_parse_errors_amended.1 "1+".toList .formulaException (by rfl)⟩

/-! ## Claim C1 -/

/-- C1, evaluated at the claim's own scenario: after `Set(A1,"=B1")`,
`Set(B1,"=C1")`, `Set(C1,"5")`, reading `A1` gives `5.0` and populates the
caches; after `Set(C1,"7")` reading `A1` *still* gives `5.0`, not the
`7.0` the claim requires — `Cell::InvalidateCache` walks the FORWARD
edges (`GetReferencedCells`), never `back_dependencies_`, so no cell
downstream of `C1` is invalidated. -/
theorem C1_invalidation_reaches_wrong_cells :
    (runOps [] c1Ops).isSome = true ∧
    c1Read1.2 = .num (Dbl.ofInt 5) ∧
    sheetSetCell c1Read1.1 ⟨0, 2⟩ "7".toList = .ok c1St3 ∧
    (c1St3.find? ⟨0, 2⟩).map (fun c => c.impl) = some (.text "7".toList) ∧
    c1Read2.2 = .num (Dbl.ofInt 5) ∧
    c1Read2.2 ≠ .num (Dbl.ofInt 7) :=
  ⟨by decide, by decide, by decide, by decide, by decide, by decide⟩

/-! ## Claim C2 -/

/-- C2, evaluated at a failing input: after `Set(A1,"=B1")` the sheet holds
`B1` as an auto-inserted Empty cell whose reverse-edge set contains `A1`;
`ClearCell(B1)` is `sheet_.erase(pos)` and nothing else, so the map entry
disappears even though a reverse edge points at it — no Empty replacement,
no dependency rewire, no invalidation (`Cell::Clear` and
`Cell::IsReferenced` are never called). -/
theorem C2_clearcell_erases_referenced_cell :
    (runOps [] [.set ⟨0, 0⟩ "=B1".toList]).isSome = true ∧
    c2St.find? ⟨0, 1⟩ = some ⟨.empty, [⟨0, 0⟩]⟩ ∧
    sheetClearCell c2St ⟨0, 1⟩ = .ok c2St' ∧
    c2St'.find? ⟨0, 1⟩ = none ∧
    (c2St'.find? ⟨0, 0⟩).map (fun c => c.impl.refs) = some [⟨0, 1⟩] :=
  ⟨by decide, by decide, by decide, by decide, by decide⟩

/-! ## Basic sheet-map lemmas -/

lemma Sheet.find?_update_ne (st : Sheet) (p q : Position) (c : Cell) (h : q ≠ p) :
    Sheet.find? (Sheet.update st p c) q = Sheet.find? st q := by
  induction st with
  | nil => rfl
  | cons hd t ih =>
    obtain ⟨a, d⟩ := hd
    by_cases hap : a = p
    · subst hap
      have haq : a ≠ q := fun hh => h hh.symm
      simp [Sheet.update, Sheet.find?, haq]
    · by_cases haq : a = q
      · subst haq
        simp [Sheet.update, Sheet.find?, hap, ih]
      · simp [Sheet.update, Sheet.find?, hap, haq, ih]

lemma Sheet.find?_update_self (st : Sheet) (p : Position) (c : Cell)
    (h : (Sheet.find? st p).isSome) : Sheet.find? (Sheet.update st p c) p = some c := by
  induction st with
  | nil => simp [Sheet.find?] at h
  | cons hd t ih =>
    obtain ⟨a, d⟩ := hd
    by_cases hap : a = p
    · simp [Sheet.update, Sheet.find?, hap]
    · simp only [Sheet.find?, if_neg hap] at h
      simp [Sheet.update, Sheet.find?, hap, ih h]

lemma Sheet.update_absent (st : Sheet) (p : Position) (c : Cell)
    (h : Sheet.find? st p = none) : Sheet.update st p c = st := by
  induction st with
  | nil => rfl
  | cons hd t ih =>
    obtain ⟨a, d⟩ := hd
    by_cases hap : a = p
    · simp [Sheet.find?, hap] at h
    · simp only [Sheet.find?, if_neg hap] at h
      simp [Sheet.update, hap, ih h]

lemma Sheet.find?_append (st l : Sheet) (q : Position) :
    Sheet.find? (st ++ l) q = match Sheet.find? st q with
      | some c => some c
      | none => Sheet.find? l q := by
  induction st with
  | nil => simp [Sheet.find?]
  | cons hd t ih =>
    obtain ⟨a, d⟩ := hd
    by_cases haq : a = q
    · simp [Sheet.find?, haq]
    · simp [Sheet.find?, haq, ih]

lemma Sheet.find?_eraseAt (st : Sheet) (p q : Position) :
    Sheet.find? (Sheet.eraseAt st p) q = if q = p then none else Sheet.find? st q := by
  induction st with
  | nil => simp [Sheet.eraseAt, Sheet.find?]
  | cons hd t ih =>
    obtain ⟨a, d⟩ := hd
    simp only [Sheet.eraseAt, List.filter_cons, ne_eq, decide_not] at ih ⊢
    by_cases hap : a = p
    · subst hap
      by_cases hq : q = a
      · subst hq
        simp [Sheet.find?, ih]
      · simp [Sheet.find?, hq, Ne.symm hq, ih]
    · by_cases haq : a = q
      · subst haq
        simp [Sheet.find?, hap, fun h : a = p => hap h]
      · by_cases hq : q = p
        · subst hq
          simpa [Sheet.find?, haq] using ih
        · simp [Sheet.find?, hap, haq, hq, ih]

/-- `CellImpl.invalidate` does not change the referent list. -/
lemma CellImpl.refs_invalidate (i : CellImpl) : i.invalidate.refs = i.refs := by
  cases i <;> rfl

lemma Sheet.find?_condMap (st : Sheet) (v : List Position) (q : Position) :
    Sheet.find? (st.map fun qc =>
        if qc.1 ∈ v then (qc.1, (⟨qc.2.impl.invalidate, qc.2.backDeps⟩ : Cell)) else qc) q
      = (Sheet.find? st q).map fun c =>
          if q ∈ v then (⟨c.impl.invalidate, c.backDeps⟩ : Cell) else c := by
  induction st with
  | nil => rfl
  | cons hd t ih =>
    obtain ⟨a, d⟩ := hd
    simp only [List.map_cons]
    by_cases hav : a ∈ v
    · rw [if_pos hav]
      by_cases haq : a = q
      · subst haq
        simp [Sheet.find?, hav]
      · simp [Sheet.find?, haq, ih]
    · rw [if_neg hav]
      by_cases haq : a = q
      · subst haq
        simp [Sheet.find?, hav]
      · simp [Sheet.find?, haq, ih]

/-! ## The graph is untouched by reverse-edge and cache updates -/

/-- Cache invalidation only flips validity bits: lookups keep their
referent lists. -/
lemma refsAt_invalidateCache (st : Sheet) (sp q : Position) :
    Sheet.refsAt (cellInvalidateCache st sp) q = Sheet.refsAt st q := by
  rw [cellInvalidateCache]
  generalize (Sheet.refsAt st sp).foldl
      (fun v ref => invDescend st (st.length + 1) v ref) [sp] = vis
  rw [Sheet.refsAt, Sheet.refsAt, Sheet.find?_condMap st vis q]
  cases Sheet.find? st q with
  | none => rfl
  | some c =>
    by_cases hq : q ∈ vis
    · simp [hq, CellImpl.refs_invalidate]
    · simp [hq]

/-- A fold step that rewrites only `backDeps` preserves every lookup's
`impl`. -/
lemma find?_impl_foldlM (G : Position → Cell → Cell) (hG : ∀ p c, (G p c).impl = c.impl)
    (l : List Position) :
    ∀ (s s' : Sheet),
      l.foldlM (fun (s : Sheet) pos =>
        match Sheet.find? s pos with
        | none => none
        | some c => some (Sheet.update s pos (G pos c))) s = some s' →
      ∀ q, (Sheet.find? s' q).map (·.impl) = (Sheet.find? s q).map (·.impl) := by
  induction l with
  | nil =>
    intro s s' h q
    simp only [List.foldlM_nil, Option.pure_def, Option.some.injEq] at h
    subst h
    rfl
  | cons pos rest ih =>
    intro s s' h q
    rw [List.foldlM_cons] at h
    cases hf : Sheet.find? s pos with
    | none => rw [hf] at h; exact absurd h (by simp)
    | some c =>
      rw [hf] at h
      simp only [Option.bind_eq_bind, Option.some_bind] at h
      have hstep : ∀ q', (Sheet.find? (Sheet.update s pos (G pos c)) q').map (·.impl)
          = (Sheet.find? s q').map (·.impl) := by
        intro q'
        by_cases hq' : q' = pos
        · subst hq'
          rw [Sheet.find?_update_self _ _ _ (by simp [hf]), hf]
          simp [hG]
        · rw [Sheet.find?_update_ne _ _ _ _ hq']
      rw [← hstep q]
      exact ih _ _ h q

/-- `Cell::UpdateDependencies` changes only reverse-dependency sets: every
lookup's `impl` (hence the whole forward graph) is preserved. -/
lemma find?_impl_updateDependencies (st : Sheet) (sp : Position)
    (old new' : List Position) (st' : Sheet)
    (h : cellUpdateDependencies st sp old new' = some st') :
    ∀ q, (Sheet.find? st' q).map (·.impl) = (Sheet.find? st q).map (·.impl) := by
  rw [cellUpdateDependencies] at h
  cases hera : old.foldlM (fun (s : Sheet) pos =>
      match Sheet.find? s pos with
      | none => none
      | some c => some (Sheet.update s pos ⟨c.impl, c.backDeps.filter (· ≠ sp)⟩)) st with
  | none => rw [hera] at h; exact absurd h (by simp)
  | some st₁ =>
    rw [hera] at h
    intro q
    have h₁ := find?_impl_foldlM (fun _ c => ⟨c.impl, c.backDeps.filter (· ≠ sp)⟩)
      (fun _ _ => rfl) old st st₁ hera q
    have h₂ := find?_impl_foldlM
      (fun _ c => ⟨c.impl, if sp ∈ c.backDeps then c.backDeps else sp :: c.backDeps⟩)
      (fun _ _ => rfl) new' st₁ st' h q
    rw [h₂, h₁]

lemma refsAt_of_find?_impl (s s' : Sheet)
    (h : ∀ q, (Sheet.find? s' q).map (·.impl) = (Sheet.find? s q).map (·.impl))
    (q : Position) : Sheet.refsAt s' q = Sheet.refsAt s q := by
  rw [Sheet.refsAt, Sheet.refsAt]
  have hq := h q
  cases h1 : Sheet.find? s' q <;> cases h2 : Sheet.find? s q <;>
      rw [h1, h2] at hq <;> simp at hq <;> simp [hq]

/-- Appending a fresh empty cell at an absent key does not add edges. -/
lemma refsAt_append_fresh (st : Sheet) (p : Position) (h : Sheet.find? st p = none)
    (q : Position) : Sheet.refsAt (st ++ [(p, freshCell)]) q = Sheet.refsAt st q := by
  rw [Sheet.refsAt, Sheet.refsAt, Sheet.find?_append]
  cases hf : Sheet.find? st q with
  | some c => rfl
  | none =>
    by_cases hqp : p = q
    · subst hqp
      simp [Sheet.find?, freshCell, CellImpl.refs]
    · simp [Sheet.find?, hqp]

/-- The auto-insertion loop adds only fresh empty cells, never edges. -/
lemma refsAt_autoInsert (refs : List Position) :
    ∀ (st : Sheet) (q : Position), Sheet.refsAt (autoInsert st refs) q = Sheet.refsAt st q := by
  induction refs with
  | nil => intro st q; rfl
  | cons r rest ih =>
    intro st q
    rw [autoInsert, List.foldl_cons]
    by_cases hr : (Sheet.find? st r).isSome
    · rw [if_pos hr]
      exact ih st q
    · rw [if_neg hr]
      rw [show (rest.foldl (fun s ref =>
          if (Sheet.find? s ref).isSome = true then s else s ++ [(ref, freshCell)])
          (st ++ [(r, freshCell)])) = autoInsert (st ++ [(r, freshCell)]) rest from rfl]
      rw [ih _ q]
      exact refsAt_append_fresh st r (Option.not_isSome_iff_eq_none.mp hr) q

/-- Updating a present key rewrites exactly that cell's referent list. -/
lemma refsAt_update (st : Sheet) (p : Position) (c : Cell)
    (h : (Sheet.find? st p).isSome) (q : Position) :
    Sheet.refsAt (Sheet.update st p c) q = if q = p then c.impl.refs else Sheet.refsAt st q := by
  by_cases hq : q = p
  · subst hq
    rw [Sheet.refsAt, Sheet.find?_update_self _ _ _ h, if_pos rfl]
  · rw [Sheet.refsAt, Sheet.find?_update_ne _ _ _ _ hq, if_neg hq, Sheet.refsAt]

/-- Erasing a cell removes its outgoing edges and nothing else. -/
lemma refsAt_eraseAt (st : Sheet) (p q : Position) :
    Sheet.refsAt (Sheet.eraseAt st p) q = if q = p then [] else Sheet.refsAt st q := by
  rw [Sheet.refsAt, Sheet.find?_eraseAt]
  by_cases hq : q = p
  · simp [hq]
  · simp [hq, Sheet.refsAt]

/-! ## Correctness of the cycle detector -/

/-- On a normal return `dfsLoop` restores the grey set, only grows black,
blackens every present listed position, colours only present non-grey
cells black, and preserves the finished-cell invariant. -/
lemma dfsLoop_ok_spec (st : Sheet) (descend : Colors → Cell → Except DfsErr Colors)
    (hd : DescSpec st descend) :
    ∀ (ts : List Position) (colors c' : Colors),
      dfsLoop st descend colors ts = .ok c' →
      c'.gray = colors.gray ∧
      (∀ x ∈ colors.black, x ∈ c'.black) ∧
      (∀ r ∈ ts, (Sheet.find? st r).isSome = true → r ∈ c'.black) ∧
      (∀ x ∈ c'.black,
        x ∈ colors.black ∨ ((Sheet.find? st x).isSome = true ∧ x ∉ colors.gray)) ∧
      (BlackClosed st colors.black → BlackClosed st c'.black) := by
  intro ts
  induction ts with
  | nil =>
    intro colors c' h
    rw [dfsLoop] at h
    injection h with h
    subst h
    exact ⟨rfl, fun x hx => hx, fun r hr => absurd hr (List.not_mem_nil r),
      fun x hx => Or.inl hx, fun hBC => hBC⟩
  | cons r rest ih =>
    intro colors c' h
    rw [dfsLoop] at h
    cases hf : Sheet.find? st r with
    | none =>
      rw [hf] at h
      obtain ⟨h1, h2, h3, h4, h5⟩ := ih colors c' h
      refine ⟨h1, h2, ?_, h4, h5⟩
      intro q hq hqs
      rcases List.mem_cons.mp hq with rfl | hq'
      · rw [hf] at hqs; simp at hqs
      · exact h3 q hq' hqs
    | some cell =>
      rw [hf] at h
      dsimp only at h
      by_cases hb : r ∈ colors.black
      · rw [if_pos hb] at h
        obtain ⟨h1, h2, h3, h4, h5⟩ := ih colors c' h
        refine ⟨h1, h2, ?_, h4, h5⟩
        intro q hq hqs
        rcases List.mem_cons.mp hq with rfl | hq'
        · exact h2 q hb
        · exact h3 q hq' hqs
      · rw [if_neg hb] at h
        by_cases hg : r ∈ colors.gray
        · rw [if_pos hg] at h
          simp at h
        · rw [if_neg hg] at h
          cases hdres : descend ⟨r :: colors.gray, colors.black⟩ cell with
          | error e => rw [hdres] at h; simp at h
          | ok c1 =>
            rw [hdres] at h
            obtain ⟨hd1, hd2, hd3, hd4, hd5⟩ := hd _ _ _ hdres
            have hgr2 : c1.gray.filter (· ≠ r) = colors.gray := by
              rw [show (⟨r :: colors.gray, colors.black⟩ : Colors).gray
                  = r :: colors.gray from rfl] at hd1
              rw [hd1, List.filter_cons_of_neg (by simp)]
              exact List.filter_eq_self.mpr fun x hx => by
                simp only [ne_eq, decide_eq_true_eq]
                rintro rfl
                exact hg hx
            obtain ⟨h1, h2, h3, h4, h5⟩ := ih ⟨c1.gray.filter (· ≠ r), r :: c1.black⟩ c' h
            refine ⟨h1.trans hgr2, ?_, ?_, ?_, ?_⟩
            · intro x hx
              exact h2 x (List.mem_cons_of_mem r (hd2 x hx))
            · intro q hq hqs
              rcases List.mem_cons.mp hq with rfl | hq'
              · exact h2 q (List.mem_cons_self _ _)
              · exact h3 q hq' hqs
            · intro x hx
              rcases h4 x hx with hx2 | ⟨hxs, hxg⟩
              · rcases List.mem_cons.mp hx2 with rfl | hx3
                · exact Or.inr ⟨by rw [hf]; rfl, hg⟩
                · rcases hd4 x hx3 with hxb | ⟨hxs', hxg'⟩
                  · exact Or.inl hxb
                  · exact Or.inr ⟨hxs', fun hmem => hxg' (List.mem_cons_of_mem r hmem)⟩
              · exact Or.inr ⟨hxs, fun hmem => hxg (show x ∈ c1.gray.filter (· ≠ r)
                    from hgr2.symm ▸ hmem)⟩
            · intro hBC
              apply h5
              intro b hb x hx hxs
              rcases List.mem_cons.mp hb with rfl | hb'
              · have hrefs : Sheet.refsAt st b = cell.impl.refs := by
                  rw [Sheet.refsAt, hf]
                rw [hrefs] at hx
                exact List.mem_cons_of_mem b (hd3 x hx hxs)
              · exact List.mem_cons_of_mem r (hd5 hBC b hb' x hx hxs)

/-- `dfsDescend` meets the descent contract at every fuel. -/
lemma dfsDescend_spec (st : Sheet) : ∀ f, DescSpec st (dfsDescend st f) := by
  intro f
  induction f with
  | zero =>
    intro colors cell c' h
    rw [dfsDescend] at h
    simp at h
  | succ f ih =>
    intro colors cell c' h
    rw [dfsDescend] at h
    exact dfsLoop_ok_spec st _ ih cell.impl.refs colors c' h

/-- A successful lookup's key occurs among the sheet's keys. -/
lemma mem_keys_of_find? (st : Sheet) (r : Position)
    (h : (Sheet.find? st r).isSome = true) : r ∈ st.map Prod.fst := by
  induction st with
  | nil => rw [Sheet.find?] at h; simp at h
  | cons qc t ih =>
    obtain ⟨q, c⟩ := qc
    rw [Sheet.find?] at h
    by_cases hq : q = r
    · subst hq
      exact List.mem_cons_self q _
    · rw [if_neg hq] at h
      exact List.mem_cons_of_mem _ (ih h)

/-- An edge's source is a present cell. -/
lemma find?_isSome_of_edge (st : Sheet) (a b : Position) (h : Edge st a b) :
    (Sheet.find? st a).isSome = true := by
  rw [Edge, Sheet.refsAt] at h
  cases hf : Sheet.find? st a with
  | none => rw [hf] at h; simp at h
  | some c => rfl

/-- The white count never exceeds the sheet size. -/
lemma whiteCount_le_length (st : Sheet) (colors : Colors) :
    whiteCount st colors ≤ st.length := by
  rw [whiteCount]
  calc (((st.map Prod.fst).dedup).filter
        (fun p => decide (p ∉ colors.gray ∧ p ∉ colors.black))).length
      ≤ ((st.map Prod.fst).dedup).length := (List.filter_sublist _).length_le
    _ ≤ (st.map Prod.fst).length := ((st.map Prod.fst).dedup_sublist).length_le
    _ = st.length := List.length_map _ _

/-- Growing the coloured sets cannot increase the white count. -/
lemma whiteCount_mono (st : Sheet) (c1 c2 : Colors)
    (h : ∀ x, (x ∈ c1.gray ∨ x ∈ c1.black) → (x ∈ c2.gray ∨ x ∈ c2.black)) :
    whiteCount st c2 ≤ whiteCount st c1 := by
  rw [whiteCount, whiteCount]
  apply List.Sublist.length_le
  apply List.monotone_filter_right
  intro a ha
  rw [decide_eq_true_eq] at ha ⊢
  refine ⟨fun hg1 => ?_, fun hb1 => ?_⟩
  · rcases h a (Or.inl hg1) with h' | h'
    · exact ha.1 h'
    · exact ha.2 h'
  · rcases h a (Or.inr hb1) with h' | h'
    · exact ha.1 h'
    · exact ha.2 h'

/-- Colouring one additional present cell strictly decreases the white
count. -/
lemma whiteCount_lt (st : Sheet) (c1 c2 : Colors) (r : Position)
    (hmono : ∀ x, (x ∈ c1.gray ∨ x ∈ c1.black) → (x ∈ c2.gray ∨ x ∈ c2.black))
    (hr : (Sheet.find? st r).isSome = true)
    (hw1 : r ∉ c1.gray ∧ r ∉ c1.black)
    (hc2 : r ∈ c2.gray ∨ r ∈ c2.black) :
    whiteCount st c2 < whiteCount st c1 := by
  have hsub : List.Sublist
      (((st.map Prod.fst).dedup).filter
        (fun p => decide (p ∉ c2.gray ∧ p ∉ c2.black)))
      (((st.map Prod.fst).dedup).filter
        (fun p => decide (p ∉ c1.gray ∧ p ∉ c1.black))) := by
    apply List.monotone_filter_right
    intro a ha
    rw [decide_eq_true_eq] at ha ⊢
    refine ⟨fun hg1 => ?_, fun hb1 => ?_⟩
    · rcases hmono a (Or.inl hg1) with h' | h'
      · exact ha.1 h'
      · exact ha.2 h'
    · rcases hmono a (Or.inr hb1) with h' | h'
      · exact ha.1 h'
      · exact ha.2 h'
  rw [whiteCount, whiteCount]
  rcases Nat.lt_or_ge (((st.map Prod.fst).dedup).filter
      (fun p => decide (p ∉ c2.gray ∧ p ∉ c2.black))).length
      (((st.map Prod.fst).dedup).filter
      (fun p => decide (p ∉ c1.gray ∧ p ∉ c1.black))).length with hlt | hge
  · exact hlt
  · exfalso
    have heq := hsub.eq_of_length (Nat.le_antisymm hsub.length_le hge)
    have hrmem : r ∈ ((st.map Prod.fst).dedup).filter
        (fun p => decide (p ∉ c1.gray ∧ p ∉ c1.black)) :=
      List.mem_filter.mpr ⟨List.mem_dedup.mpr (mem_keys_of_find? st r hr),
        by rw [decide_eq_true_eq]; exact hw1⟩
    rw [← heq] at hrmem
    have := (List.mem_filter.mp hrmem).2
    rw [decide_eq_true_eq] at this
    rcases hc2 with hc2 | hc2
    · exact this.1 hc2
    · exact this.2 hc2

/-- With fuel bounding the white count, the reference loop cannot run out
of fuel. -/
lemma dfsLoop_no_fuelOut (st : Sheet)
    (descend : Colors → Cell → Except DfsErr Colors) (f : Nat)
    (hsuff : ∀ colors cell, whiteCount st colors < f →
      descend colors cell ≠ .error .fuelOut)
    (hspec : DescSpec st descend) :
    ∀ (ts : List Position) (colors : Colors), whiteCount st colors ≤ f →
      dfsLoop st descend colors ts ≠ .error .fuelOut := by
  intro ts
  induction ts with
  | nil =>
    intro colors _ h
    rw [dfsLoop] at h
    simp at h
  | cons r rest ih =>
    intro colors hwc h
    rw [dfsLoop] at h
    cases hf : Sheet.find? st r with
    | none => rw [hf] at h; exact ih colors hwc h
    | some cell =>
      rw [hf] at h
      dsimp only at h
      by_cases hb : r ∈ colors.black
      · rw [if_pos hb] at h; exact ih colors hwc h
      · rw [if_neg hb] at h
        by_cases hg : r ∈ colors.gray
        · rw [if_pos hg] at h; simp at h
        · rw [if_neg hg] at h
          have hlt : whiteCount st ⟨r :: colors.gray, colors.black⟩ < f := by
            have := whiteCount_lt st colors ⟨r :: colors.gray, colors.black⟩ r
              (fun x hx => by
                rcases hx with hx | hx
                · exact Or.inl (List.mem_cons_of_mem r hx)
                · exact Or.inr hx)
              (by rw [hf]; rfl) ⟨hg, hb⟩ (Or.inl (List.mem_cons_self r _))
            omega
          cases hdres : descend ⟨r :: colors.gray, colors.black⟩ cell with
          | error e =>
            rw [hdres] at h
            cases e with
            | cycleFound => simp at h
            | fuelOut => exact hsuff _ cell hlt hdres
          | ok c1 =>
            rw [hdres] at h
            obtain ⟨hd1, hd2, _, _, _⟩ := hspec _ _ _ hdres
            refine ih ⟨c1.gray.filter (· ≠ r), r :: c1.black⟩ ?_ h
            refine le_trans (whiteCount_mono st colors _ ?_) hwc
            intro x hx
            rcases hx with hx | hx
            · refine Or.inl (List.mem_filter.mpr ⟨?_, ?_⟩)
              · have : c1.gray = r :: colors.gray := hd1
                rw [this]
                exact List.mem_cons_of_mem r hx
              · simp only [ne_eq, decide_eq_true_eq]
                rintro rfl
                exact hg hx
            · exact Or.inr (List.mem_cons_of_mem r (hd2 x hx))

/-- With fuel exceeding the white count, a descent cannot run out of
fuel. -/
lemma dfsDescend_no_fuelOut (st : Sheet) :
    ∀ (f : Nat) (colors : Colors) (cell : Cell), whiteCount st colors < f →
      dfsDescend st f colors cell ≠ .error .fuelOut := by
  intro f
  induction f with
  | zero => intro colors cell hwc; exact absurd hwc (Nat.not_lt_zero _)
  | succ f ih =>
    intro colors cell hwc
    rw [dfsDescend]
    exact dfsLoop_no_fuelOut st (dfsDescend st f) f (fun c cc hlt => ih c cc hlt)
      (dfsDescend_spec st f) cell.impl.refs colors (by omega)

/-- No member of a closed black set reaches a present non-black cell. -/
lemma blackClosed_no_reach (st : Sheet) (black : List Position)
    (hB : BlackClosed st black) (g : Position)
    (hgp : (Sheet.find? st g).isSome = true) (hg : g ∉ black) :
    ∀ b, Reaches st b g → b ∉ black := by
  intro b hreach
  induction hreach using Relation.ReflTransGen.head_induction_on with
  | refl => exact hg
  | head hab hbc ih =>
    intro ha
    refine ih (hB _ ha _ hab ?_)
    rcases Relation.ReflTransGen.cases_head hbc with rfl | ⟨d, hcd, _⟩
    · exact hgp
    · exact find?_isSome_of_edge st _ _ hcd

/-- When `Cell::ThrowIfHasCycle` does not throw, no referent of the
scratch cell reaches `this` along forward edges. -/
lemma throwIfHasCycle_false_no_reach (st : Sheet) (selfPos : Position)
    (refs : List Position) (hp : (Sheet.find? st selfPos).isSome = true)
    (h : cellThrowIfHasCycle st selfPos refs = false) :
    ∀ r ∈ refs, ¬ Reaches st r selfPos := by
  rw [cellThrowIfHasCycle] at h
  cases hres : dfsLoop st (dfsDescend st st.length) ⟨[selfPos], []⟩ refs with
  | error e =>
    cases e with
    | cycleFound => rw [hres] at h; simp at h
    | fuelOut =>
      exact absurd hres (dfsLoop_no_fuelOut st (dfsDescend st st.length) st.length
        (fun c cc hlt => dfsDescend_no_fuelOut st st.length c cc hlt)
        (dfsDescend_spec st st.length) refs ⟨[selfPos], []⟩ (whiteCount_le_length st _))
  | ok c' =>
    obtain ⟨h1, h2, h3, h4, h5⟩ := dfsLoop_ok_spec st _ (dfsDescend_spec st st.length)
      refs ⟨[selfPos], []⟩ c' hres
    have hBC : BlackClosed st c'.black := h5 fun b hb => absurd hb (List.not_mem_nil b)
    have hself : selfPos ∉ c'.black := by
      intro hmem
      rcases h4 selfPos hmem with hx | ⟨_, hxg⟩
      · exact List.not_mem_nil _ hx
      · exact hxg (List.mem_cons_self _ _)
    intro r hr hreach
    by_cases hrs : (Sheet.find? st r).isSome = true
    · exact absurd (h3 r hr hrs)
        (blackClosed_no_reach st c'.black hBC selfPos hp hself r hreach)
    · rcases Relation.ReflTransGen.cases_head hreach with rfl | ⟨d, hrd, _⟩
      · exact hrs hp
      · exact hrs (find?_isSome_of_edge st _ _ hrd)

/-- When some referent of the scratch cell reaches `this`,
`Cell::ThrowIfHasCycle` throws `CircularDependencyException`. -/
lemma throwIfHasCycle_true_of_reach (st : Sheet) (selfPos : Position)
    (refs : List Position) (hp : (Sheet.find? st selfPos).isSome = true)
    (r : Position) (hr : r ∈ refs) (hreach : Reaches st r selfPos) :
    cellThrowIfHasCycle st selfPos refs = true := by
  cases hc : cellThrowIfHasCycle st selfPos refs with
  | true => rfl
  | false =>
    exact absurd hreach (throwIfHasCycle_false_no_reach st selfPos refs hp hc r hr)

/-! ## `Cell::Set` exception paths -/

/-- The post-swap tail of `Cell::Set` never raises a boundary exception:
it either returns normally or hits the `UpdateDependencies` null
dereference. -/
lemma cellSetTail_no_exc (st : Sheet) (p : Position) (old : List Position)
    (e : ApiExc) (s' : Sheet) : cellSetTail st p old ≠ .exc e s' := by
  rw [cellSetTail]
  cases cellUpdateDependencies st p old (st.refsAt p) with
  | none => simp
  | some s => simp

/-- When `Cell::Set` raises, the sheet it leaves behind is exactly the one
it was called on: both throwing paths (parse failure, cycle detection)
precede the content swap, the auto-insertion loop, the dependency rewire
and the invalidation. -/
lemma cellSet_exc_state (st : Sheet) (p : Position) (text : List Char)
    (e : ApiExc) (s' : Sheet) (h : cellSet st p text = .exc e s') : s' = st := by
  rw [cellSet] at h
  by_cases h0 : text = []
  · rw [if_pos h0] at h
    exact absurd h (cellSetTail_no_exc _ _ _ _ _)
  · rw [if_neg h0] at h
    by_cases h1 : text.head? = some '=' ∧ 1 < text.length
    · rw [if_pos h1] at h
      cases hp : parseFormulaASTString (text.drop 1) with
      | error er =>
        rw [hp] at h
        cases h
        rfl
      | ok ast =>
        rw [hp] at h
        dsimp only at h
        by_cases hc : cellThrowIfHasCycle st p (referencedCells ast)
        · rw [if_pos hc] at h
          cases h
          rfl
        · rw [if_neg hc] at h
          exact absurd h (cellSetTail_no_exc _ _ _ _ _)
    · rw [if_neg h1] at h
      exact absurd h (cellSetTail_no_exc _ _ _ _ _)

/-! ## Acyclicity is an invariant of the mutation API -/

/-- Reachability depends only on the forward graph. -/
lemma reaches_congr (s s' : Sheet) (h : ∀ q, Sheet.refsAt s' q = Sheet.refsAt s q)
    (a b : Position) (hr : Reaches s a b) : Reaches s' a b := by
  refine Relation.ReflTransGen.mono ?_ hr
  intro x y hxy
  show y ∈ Sheet.refsAt s' x
  rw [h x]
  exact hxy

/-- Acyclicity depends only on the forward graph. -/
lemma acyclic_congr (s s' : Sheet) (h : ∀ q, Sheet.refsAt s' q = Sheet.refsAt s q)
    (hAc : Acyclic s) : Acyclic s' := by
  intro v hcyc
  refine hAc v (Relation.TransGen.mono ?_ hcyc)
  intro x y hxy
  show y ∈ Sheet.refsAt s x
  rw [← h x]
  exact hxy

/-- Every path splits at the first edge leaving `p`: either no edge on it
leaves `p`, or a prefix with no `p`-sourced edge reaches `p`. -/
lemma decomp_path (R : Position → Position → Prop) (p : Position) :
    ∀ a b, Relation.ReflTransGen R a b →
      Relation.ReflTransGen (fun x y => R x y ∧ x ≠ p) a b ∨
      (Relation.ReflTransGen (fun x y => R x y ∧ x ≠ p) a p ∧
        Relation.ReflTransGen R p b) := by
  intro a b hab
  induction hab using Relation.ReflTransGen.head_induction_on with
  | refl => exact Or.inl Relation.ReflTransGen.refl
  | @head a' c' hac hcb ih =>
    by_cases hap : a' = p
    · subst hap
      exact Or.inr ⟨Relation.ReflTransGen.refl, Relation.ReflTransGen.head hac hcb⟩
    · rcases ih with hres | ⟨hcp, hpb⟩
      · exact Or.inl (Relation.ReflTransGen.head ⟨hac, hap⟩ hres)
      · exact Or.inr ⟨Relation.ReflTransGen.head ⟨hac, hap⟩ hcp, hpb⟩

/-- Rewriting one cell's referent list, to targets none of which reached
it, preserves acyclicity — the heart of the cycle-check's soundness. -/
lemma acyclic_update_graph (st st' : Sheet) (p : Position) (R : List Position)
    (hAc : Acyclic st) (hNR : ∀ r ∈ R, ¬ Reaches st r p)
    (hg : ∀ q, Sheet.refsAt st' q = if q = p then R else Sheet.refsAt st q) :
    Acyclic st' := by
  have hedge : ∀ x y, Edge st' x y → (x = p ∧ y ∈ R) ∨ (x ≠ p ∧ Edge st x y) := by
    intro x y hxy
    have hx := hg x
    have hxy' : y ∈ Sheet.refsAt st' x := hxy
    by_cases hxp : x = p
    · rw [if_pos hxp] at hx
      rw [hx] at hxy'
      exact Or.inl ⟨hxp, hxy'⟩
    · rw [if_neg hxp] at hx
      rw [hx] at hxy'
      exact Or.inr ⟨hxp, hxy'⟩
  have hrestr : ∀ a b, Relation.ReflTransGen (fun x y => Edge st' x y ∧ x ≠ p) a b →
      Reaches st a b := by
    intro a b hab
    refine Relation.ReflTransGen.mono ?_ hab
    intro x y hxy
    rcases hedge x y hxy.1 with ⟨hxp, _⟩ | ⟨_, he⟩
    · exact absurd hxp hxy.2
    · exact he
  intro v hcyc
  rcases (Relation.TransGen.head'_iff).mp hcyc with ⟨w, hvw, hwv⟩
  rcases decomp_path (Edge st') p w v hwv with hres | ⟨hwp, hpv⟩
  · have hwv' : Reaches st w v := hrestr w v hres
    rcases hedge v w hvw with ⟨hvp, hwR⟩ | ⟨_, he⟩
    · subst hvp
      exact hNR w hwR hwv'
    · exact hAc v (Relation.TransGen.head' he hwv')
  · have hwp' : Reaches st w p := hrestr w p hwp
    rcases hedge v w hvw with ⟨hvp, hwR⟩ | ⟨_, he⟩
    · subst hvp
      exact hNR w hwR hwp'
    · have hpp : Relation.TransGen (Edge st') p p := by
        have hvw' : Relation.TransGen (Edge st') v w := Relation.TransGen.single hvw
        have hwp'' : Relation.ReflTransGen (Edge st') w p :=
          Relation.ReflTransGen.mono (fun x y hxy => hxy.1) hwp
        exact Relation.TransGen.trans_right hpv (Relation.TransGen.trans_left hvw' hwp'')
      rcases (Relation.TransGen.head'_iff).mp hpp with ⟨u, hpu, hup⟩
      have huR : u ∈ R := by
        rcases hedge p u hpu with ⟨_, h'⟩ | ⟨hne, _⟩
        · exact h'
        · exact absurd rfl hne
      rcases decomp_path (Edge st') p u p hup with hres2 | ⟨hup2, _⟩
      · exact hNR u huR (hrestr u p hres2)
      · exact hNR u huR (hrestr u p hup2)

/-- The normal-return tail of `Cell::Set` — dependency rewire plus cache
invalidation — leaves the forward graph untouched. -/
lemma cellSetTail_ok_refsAt (st : Sheet) (p : Position) (old : List Position)
    (st' : Sheet) (h : cellSetTail st p old = .ok st') :
    ∀ q, Sheet.refsAt st' q = Sheet.refsAt st q := by
  rw [cellSetTail] at h
  cases hud : cellUpdateDependencies st p old (Sheet.refsAt st p) with
  | none => rw [hud] at h; simp at h
  | some st₃ =>
    rw [hud] at h
    dsimp only at h
    injection h with h
    subst h
    intro q
    rw [refsAt_invalidateCache]
    exact refsAt_of_find?_impl st st₃ (find?_impl_updateDependencies st p old _ st₃ hud) q

/-- Emplacing at an absent key makes the key present (holding the fresh
empty cell). -/
lemma find?_emplace_self (st : Sheet) (p : Position) (h : Sheet.find? st p = none) :
    Sheet.find? (st ++ [(p, freshCell)]) p = some freshCell := by
  rw [Sheet.find?_append, h]
  simp [Sheet.find?]

/-- A successful `Cell::Set` on a present cell rewrites exactly the target
cell's referent list, to referents that could not reach it (the empty
list for the empty and text branches, the parsed formula's referent list
— vetted by the cycle check — for the formula branch). -/
lemma cellSet_ok_refsAt (st : Sheet) (p : Position) (text : List Char)
    (st' : Sheet) (hp : (Sheet.find? st p).isSome = true)
    (h : cellSet st p text = .ok st') :
    ∃ R : List Position,
      (∀ q, Sheet.refsAt st' q = if q = p then R else Sheet.refsAt st q) ∧
      (∀ r ∈ R, ¬ Reaches st r p) := by
  rw [cellSet] at h
  by_cases h0 : text = []
  · rw [if_pos h0] at h
    refine ⟨[], ?_, fun r hr => absurd hr (List.not_mem_nil r)⟩
    intro q
    rw [cellSetTail_ok_refsAt _ _ _ _ h q, refsAt_update st p _ hp q]
    rfl
  · rw [if_neg h0] at h
    by_cases h1 : text.head? = some '=' ∧ 1 < text.length
    · rw [if_pos h1] at h
      cases hpr : parseFormulaASTString (text.drop 1) with
      | error er => rw [hpr] at h; simp at h
      | ok ast =>
        rw [hpr] at h
        dsimp only at h
        by_cases hc : cellThrowIfHasCycle st p (referencedCells ast)
        · rw [if_pos hc] at h; simp at h
        · rw [if_neg hc] at h
          refine ⟨referencedCells ast, ?_, ?_⟩
          · intro q
            rw [cellSetTail_ok_refsAt _ _ _ _ h q, refsAt_autoInsert _ _ q,
              refsAt_update st p _ hp q]
            rfl
          · exact throwIfHasCycle_false_no_reach st p (referencedCells ast) hp
              (Bool.not_eq_true _ ▸ hc)
    · rw [if_neg h1] at h
      refine ⟨[], ?_, fun r hr => absurd hr (List.not_mem_nil r)⟩
      intro q
      rw [cellSetTail_ok_refsAt _ _ _ _ h q, refsAt_update st p _ hp q]
      rfl

/-- A successful `Sheet::SetCell` preserves acyclicity: the cycle check
vetoes every referent that reaches the target, and no other cell's
referent list changes. -/
lemma setCell_ok_acyclic (st : Sheet) (p : Position) (text : List Char)
    (st' : Sheet) (hAc : Acyclic st) (h : sheetSetCell st p text = .ok st') :
    Acyclic st' := by
  rw [sheetSetCell] at h
  by_cases hv : ¬p.IsValid
  · rw [if_pos hv] at h; simp at h
  · rw [if_neg hv] at h
    by_cases hp : (Sheet.find? st p).isSome
    · rw [if_pos hp] at h
      obtain ⟨R, hg, hNR⟩ := cellSet_ok_refsAt st p text st' hp h
      exact acyclic_update_graph st st' p R hAc hNR hg
    · rw [if_neg hp] at h
      have hnone : Sheet.find? st p = none := Option.not_isSome_iff_eq_none.mp hp
      have hsame : ∀ q, Sheet.refsAt (st ++ [(p, freshCell)]) q = Sheet.refsAt st q :=
        fun q => refsAt_append_fresh st p hnone q
      have hp' : (Sheet.find? (st ++ [(p, freshCell)]) p).isSome = true := by
        rw [find?_emplace_self st p hnone]; rfl
      obtain ⟨R, hg, hNR⟩ := cellSet_ok_refsAt _ p text st' hp' h
      refine acyclic_update_graph st st' p R hAc ?_ ?_
      · intro r hr hreach
        exact hNR r hr (reaches_congr st (st ++ [(p, freshCell)]) hsame r p hreach)
      · intro q
        rw [hg q]
        by_cases hq : q = p
        · rw [if_pos hq, if_pos hq]
        · rw [if_neg hq, if_neg hq, hsame q]

/-- `Sheet::ClearCell`'s bare erase only removes edges, so it preserves
acyclicity (whatever else it breaks). -/
lemma clearCell_ok_acyclic (st : Sheet) (p : Position) (st' : Sheet)
    (hAc : Acyclic st) (h : sheetClearCell st p = .ok st') : Acyclic st' := by
  rw [sheetClearCell] at h
  by_cases hv : ¬p.IsValid
  · rw [if_pos hv] at h; simp at h
  · rw [if_neg hv] at h
    injection h with h
    subst h
    intro v hcyc
    refine hAc v (Relation.TransGen.mono ?_ hcyc)
    intro x y hxy
    have hxy' : y ∈ Sheet.refsAt (Sheet.eraseAt st p) x := hxy
    rw [refsAt_eraseAt] at hxy'
    by_cases hx : x = p
    · rw [if_pos hx] at hxy'; simp at hxy'
    · rw [if_neg hx] at hxy'; exact hxy'

/-- A mutation that raises a boundary exception preserves acyclicity: both
throwing paths of `Cell::Set` precede the content swap, and the
invalid-position guards change nothing. -/
lemma applyOp_exc_acyclic (st : Sheet) (op : Op) (e : ApiExc) (st' : Sheet)
    (hAc : Acyclic st) (h : applyOp st op = .exc e st') : Acyclic st' := by
  cases op with
  | clear p =>
    simp only [applyOp] at h
    rw [sheetClearCell] at h
    by_cases hv : ¬p.IsValid
    · rw [if_pos hv] at h
      cases h
      exact hAc
    · rw [if_neg hv] at h; simp at h
  | set p t =>
    simp only [applyOp] at h
    rw [sheetSetCell] at h
    by_cases hv : ¬p.IsValid
    · rw [if_pos hv] at h
      cases h
      exact hAc
    · rw [if_neg hv] at h
      by_cases hp : (Sheet.find? st p).isSome
      · rw [if_pos hp] at h
        rw [cellSet_exc_state _ _ _ _ _ h]
        exact hAc
      · rw [if_neg hp] at h
        rw [cellSet_exc_state _ _ _ _ _ h]
        exact acyclic_congr st _
          (fun q => refsAt_append_fresh st p (Option.not_isSome_iff_eq_none.mp hp) q) hAc

/-- Acyclicity is an invariant of every run of the mutation API. -/
lemma runOps_acyclic : ∀ (ops : List Op) (st₀ st : Sheet),
    Acyclic st₀ → runOps st₀ ops = some st → Acyclic st := by
  intro ops
  induction ops with
  | nil =>
    intro st₀ st hAc h
    rw [runOps] at h
    injection h with h
    subst h
    exact hAc
  | cons op rest ih =>
    intro st₀ st hAc h
    rw [runOps_cons] at h
    cases happ : applyOp st₀ op with
    | ok st₁ =>
      rw [happ] at h
      dsimp only at h
      refine ih st₁ st ?_ h
      cases op with
      | set p t => exact setCell_ok_acyclic st₀ p t st₁ hAc happ
      | clear p => exact clearCell_ok_acyclic st₀ p st₁ hAc happ
    | exc e st₁ =>
      rw [happ] at h
      dsimp only at h
      exact ih st₁ st (applyOp_exc_acyclic st₀ op e st₁ hAc happ) h
    | ub =>
      rw [happ] at h
      dsimp only at h
      exact absurd h (by simp)

/-- The empty sheet's graph has no edges, hence no cycles. -/
lemma acyclic_nil : Acyclic ([] : Sheet) := by
  intro v hcyc
  rcases (Relation.TransGen.head'_iff).mp hcyc with ⟨w, hvw, _⟩
  have hmem : w ∈ Sheet.refsAt [] v := hvw
  rw [Sheet.refsAt] at hmem
  simp [Sheet.find?] at hmem

/-! ## Claim C3 -/

/-- C3: after every finite run of `SetCell`/`ClearCell` calls from the
empty sheet in which each call returns normally or raises a boundary
exception, the forward-edge relation is acyclic; and a `SetCell` whose
parsed formula has a referent that already reaches the (present) target
cell raises `CircularDependency` without committing — the sheet it leaves
is the one it was called on. -/
theorem C3_forward_graph_acyclic :
    (∀ (ops : List Op) (st : Sheet), runOps [] ops = some st → Acyclic st) ∧
    (∀ (st : Sheet) (p : Position) (text : List Char) (ast : Expr),
      p.IsValid = true → (Sheet.find? st p).isSome = true →
      text ≠ [] → text.head? = some '=' ∧ 1 < text.length →
      parseFormulaASTString (text.drop 1) = .ok ast →
      (∃ r ∈ referencedCells ast, Reaches st r p) →
      sheetSetCell st p text = .exc .circularDependency st) := by
  constructor
  · intro ops st h
    exact runOps_acyclic ops [] st acyclic_nil h
  · intro st p text ast hv hp hne h1 hparse hex
    obtain ⟨r, hr, hreach⟩ := hex
    rw [sheetSetCell, if_neg (not_not_intro hv), if_pos hp, cellSet, if_neg hne,
      if_pos h1, hparse]
    dsimp only
    rw [if_pos (throwIfHasCycle_true_of_reach st p (referencedCells ast) hp r hr hreach)]

/-- Witness for C3: a concrete one-step run whose result is provably
acyclic, and a concrete self-referencing `SetCell` on it that raises
`CircularDependency`. -/
theorem C3_forward_graph_acyclic_witness :
    (runOps [] c3Ops = some c3St ∧ Acyclic c3St) ∧
    sheetSetCell c3St ⟨0, 0⟩ "=A1".toList = .exc .circularDependency c3St := by
  refine ⟨⟨by rfl, C3_forward_graph_acyclic.1 c3Ops c3St (by rfl)⟩, ?_⟩
  refine C3_forward_graph_acyclic.2 c3St ⟨0, 0⟩ _ (Expr.cell ⟨0, 0⟩)
    (by decide) (by rfl) (by decide) (by decide) (by rfl) ?_
  exact ⟨⟨0, 0⟩, by decide, Relation.ReflTransGen.refl⟩

/-! ## Round-trip of the formula printer and parser (claim C5) -/

/-- The atom row of the table never parenthesises. -/
lemma pbit_atom (c : ExprPrecedence) (rc : Bool) : pbit EP_ATOM c rc = false := by
  cases c <;> cases rc <;> rfl

/-- The table's bits depend on the child only through its class. -/
lemma pbit_pclass : ∀ (pp c c' : ExprPrecedence) (rc : Bool),
    pclass c = pclass c' → pbit pp c rc = pbit pp c' rc := by decide

/-- Unary nodes are never parenthesised. -/
lemma pbit_unary (pp : ExprPrecedence) (rc : Bool) : pbit pp EP_UNARY rc = false := by
  cases pp <;> cases rc <;> rfl

/-- `PrintFormula` in closed form: parentheses around the core exactly
when the table bit is set. -/
lemma printFormula_eq (e : Expr) (pp : ExprPrecedence) (rc : Bool) :
    e.printFormula pp rc =
      if pbit pp e.getPrecedence rc then
        Token.lparen :: (coreTokens e ++ [Token.rparen])
      else coreTokens e := by
  cases e <;> rfl

/-- The root print (parent `EP_ATOM`) is the bare core. -/
lemma printFormula_atom (e : Expr) : e.printFormula EP_ATOM false = coreTokens e := by
  rw [printFormula_eq, pbit_atom]
  rfl

/-- Prints in contexts with equal table bits are equal. -/
lemma printFormula_congr (e : Expr) (pp : ExprPrecedence) (rc : Bool)
    (pp' : ExprPrecedence) (rc' : Bool)
    (h : pbit pp e.getPrecedence rc = pbit pp' e.getPrecedence rc') :
    e.printFormula pp rc = e.printFormula pp' rc' := by
  rw [printFormula_eq, printFormula_eq, h]

/-- The listener's walk on a rebuilt binary node. -/
lemma walk_binaryOp (op : BinOpType) (l r : PExpr) (l' r' : Expr)
    (hl : walkPExpr l = .ok l') (hr : walkPExpr r = .ok r') :
    walkPExpr (.binaryOp op l r) = .ok (.binaryOp op l' r') := by
  rw [walkPExpr, hl, hr]

/-- The listener's walk on a rebuilt unary node. -/
lemma walk_unaryOp (op : UnOpType) (x : PExpr) (x' : Expr)
    (hx : walkPExpr x = .ok x') :
    walkPExpr (.unaryOp op x) = .ok (.unaryOp op x') := by
  rw [walkPExpr, hx]

/-- Parser fuel only bounds the recursion: a result obtained with some
fuel is obtained with any larger fuel. -/
lemma parseStep_mono : ∀ (f : Nat) (lv : PLevel) (ts : List Token)
    (res : PExpr × List Token), parseStep f lv ts = some res →
    ∀ f', f ≤ f' → parseStep f' lv ts = some res := by
  intro f
  induction f with
  | zero => intro lv ts res h; exact Option.noConfusion h
  | succ g ih =>
    intro lv ts res h f' hle
    obtain ⟨g', rfl⟩ : ∃ g', f' = g' + 1 := ⟨f' - 1, by omega⟩
    have hg : g ≤ g' := by omega
    cases lv with
    | atom =>
      cases ts with
      | nil => exact Option.noConfusion h
      | cons t r =>
        cases t with
        | number s => exact h
        | cell s => exact h
        | lparen =>
          simp only [parseStep] at h ⊢
          cases hin : parseStep g .expr r with
          | none => rw [hin] at h; exact Option.noConfusion h
          | some pr =>
            rw [hin] at h
            rw [ih _ _ _ hin g' hg]
            exact h
        | rparen => exact Option.noConfusion h
        | add => exact Option.noConfusion h
        | sub => exact Option.noConfusion h
        | mul => exact Option.noConfusion h
        | div => exact Option.noConfusion h
        | refError => exact Option.noConfusion h
    | unary =>
      cases ts with
      | nil =>
        have h' : parseStep g PLevel.atom [] = some res := h
        exact ih _ _ _ h' g' hg
      | cons t r =>
        cases t with
        | add =>
          simp only [parseStep] at h ⊢
          cases hin : parseStep g .unary r with
          | none => rw [hin] at h; exact Option.noConfusion h
          | some pr =>
            rw [hin] at h
            rw [ih _ _ _ hin g' hg]
            exact h
        | sub =>
          simp only [parseStep] at h ⊢
          cases hin : parseStep g .unary r with
          | none => rw [hin] at h; exact Option.noConfusion h
          | some pr =>
            rw [hin] at h
            rw [ih _ _ _ hin g' hg]
            exact h
        | number s =>
          have h' : parseStep g PLevel.atom (Token.number s :: r) = some res := h
          exact ih _ _ _ h' g' hg
        | cell s =>
          have h' : parseStep g PLevel.atom (Token.cell s :: r) = some res := h
          exact ih _ _ _ h' g' hg
        | lparen =>
          have h' : parseStep g PLevel.atom (Token.lparen :: r) = some res := h
          exact ih _ _ _ h' g' hg
        | rparen =>
          have h' : parseStep g PLevel.atom (Token.rparen :: r) = some res := h
          exact ih _ _ _ h' g' hg
        | mul =>
          have h' : parseStep g PLevel.atom (Token.mul :: r) = some res := h
          exact ih _ _ _ h' g' hg
        | div =>
          have h' : parseStep g PLevel.atom (Token.div :: r) = some res := h
          exact ih _ _ _ h' g' hg
        | refError =>
          have h' : parseStep g PLevel.atom (Token.refError :: r) = some res := h
          exact ih _ _ _ h' g' hg
    | mulLoop acc =>
      cases ts with
      | nil => exact h
      | cons t r =>
        cases t with
        | mul =>
          simp only [parseStep] at h ⊢
          cases hin : parseStep g .unary r with
          | none => rw [hin] at h; exact Option.noConfusion h
          | some pr =>
            rw [hin] at h
            rw [ih _ _ _ hin g' hg]
            exact ih _ _ _ h g' hg
        | div =>
          simp only [parseStep] at h ⊢
          cases hin : parseStep g .unary r with
          | none => rw [hin] at h; exact Option.noConfusion h
          | some pr =>
            rw [hin] at h
            rw [ih _ _ _ hin g' hg]
            exact ih _ _ _ h g' hg
        | number s => exact h
        | cell s => exact h
        | lparen => exact h
        | rparen => exact h
        | add => exact h
        | sub => exact h
        | refError => exact h
    | mul =>
      simp only [parseStep] at h ⊢
      cases hin : parseStep g .unary ts with
      | none => rw [hin] at h; exact Option.noConfusion h
      | some pr =>
        rw [hin] at h
        rw [ih _ _ _ hin g' hg]
        exact ih _ _ _ h g' hg
    | addLoop acc =>
      cases ts with
      | nil => exact h
      | cons t r =>
        cases t with
        | add =>
          simp only [parseStep] at h ⊢
          cases hin : parseStep g .mul r with
          | none => rw [hin] at h; exact Option.noConfusion h
          | some pr =>
            rw [hin] at h
            rw [ih _ _ _ hin g' hg]
            exact ih _ _ _ h g' hg
        | sub =>
          simp only [parseStep] at h ⊢
          cases hin : parseStep g .mul r with
          | none => rw [hin] at h; exact Option.noConfusion h
          | some pr =>
            rw [hin] at h
            rw [ih _ _ _ hin g' hg]
            exact ih _ _ _ h g' hg
        | number s => exact h
        | cell s => exact h
        | lparen => exact h
        | rparen => exact h
        | mul => exact h
        | div => exact h
        | refError => exact h
    | expr =>
      simp only [parseStep] at h ⊢
      cases hin : parseStep g .mul ts with
      | none => rw [hin] at h; exact Option.noConfusion h
      | some pr =>
        rw [hin] at h
        rw [ih _ _ _ hin g' hg]
        exact ih _ _ _ h g' hg

/-- The multiplicative loop stops at any stream whose head is not a
multiplicative operator. -/
lemma mulLoop_stop (f : Nat) (acc : PExpr) (rest : List Token) (h : restM rest) :
    parseStep (f + 1) (.mulLoop acc) rest = some (acc, rest) := by
  cases rest with
  | nil => rfl
  | cons t r =>
    cases t with
    | mul => exact absurd rfl h.1
    | div => exact absurd rfl h.2
    | number s => rfl
    | cell s => rfl
    | lparen => rfl
    | rparen => rfl
    | add => rfl
    | sub => rfl
    | refError => rfl

/-- The additive loop stops at end of input or a closing parenthesis. -/
lemma addLoop_stop (f : Nat) (acc : PExpr) (rest : List Token) (h : restE rest) :
    parseStep (f + 1) (.addLoop acc) rest = some (acc, rest) := by
  rcases h with rfl | ⟨r', rfl⟩ <;> rfl

/-- The multiplicative row parenthesises left and right alike. -/
lemma pbit_mul_lr (c : ExprPrecedence) : pbit EP_MUL c true = pbit EP_MUL c false := by
  cases c <;> rfl

/-- The additive row never parenthesises. -/
lemma pbit_add_row (c : ExprPrecedence) (rc : Bool) : pbit EP_ADD c rc = false := by
  cases c <;> cases rc <;> rfl

/-- All left contexts of the three tight rows agree. -/
lemma pbit_left_rows : ∀ (p q c : ExprPrecedence),
    (pclass p = 1 ∨ pclass p = 2) → (pclass q = 1 ∨ pclass q = 2) →
    pbit p c false = pbit q c false := by decide

/-- The additive and subtractive rows agree on left children. -/
lemma pbit_addsub_left : ∀ (p q c : ExprPrecedence),
    pclass p = 0 → pclass q = 0 → pbit p c false = pbit q c false := by decide

/-- The subtractive row parenthesises an additive right child. -/
lemma pbit_sub_right0 : ∀ c : ExprPrecedence,
    pclass c = 0 → pbit EP_SUB c true = true := by decide

/-- A tight row always parenthesises an additive child. -/
lemma pbit_class0 : ∀ (p c : ExprPrecedence) (rc : Bool),
    (pclass p = 1 ∨ pclass p = 2) → pclass c = 0 → pbit p c rc = true := by decide

/-- Nothing parenthesises a unary child. -/
lemma pbit_unary_col : ∀ (p : ExprPrecedence) (rc : Bool),
    pbit p EP_UNARY rc = false := by decide

/-- Nothing parenthesises an atom child. -/
lemma pbit_atom_col : ∀ (p : ExprPrecedence) (rc : Bool),
    pbit p EP_ATOM rc = false := by decide

/-- `segTokens` distributes over append. -/
lemma segTokens_append (s1 s2 : List (BinOpType × Occ)) :
    segTokens (s1 ++ s2) = segTokens s1 ++ segTokens s2 := by
  induction s1 with
  | nil => rfl
  | cons oc s ih =>
    obtain ⟨op, c⟩ := oc
    simp [segTokens, ih]

/-- `UOK` in closed form. -/
lemma UOK_unfold (e : Expr) (pp : ExprPrecedence) (rc : Bool) :
    UOK e pp rc = if pbit pp e.getPrecedence rc then true else
      match e with
      | .number _ => true
      | .cell _ => true
      | .unaryOp _ x => UOK x EP_UNARY false
      | .binaryOp _ _ _ => false := by
  cases e <;> rfl

/-- A parenthesised occurrence is unary-consumable. -/
lemma UOK_of_pbit (e : Expr) (pp : ExprPrecedence) (rc : Bool)
    (h : pbit pp e.getPrecedence rc = true) : UOK e pp rc = true := by
  rw [UOK_unfold, if_pos h]

/-- Unary-consumability depends on the context only through the table
bit. -/
lemma UOK_congr (e : Expr) (pp : ExprPrecedence) (rc : Bool)
    (pp' : ExprPrecedence) (rc' : Bool)
    (h : pbit pp e.getPrecedence rc = pbit pp' e.getPrecedence rc') :
    UOK e pp rc = UOK e pp' rc' := by
  rw [UOK_unfold, UOK_unfold, h]

/-- Atoms are always unary-consumable. -/
lemma UOK_atomprec (e : Expr) (pp : ExprPrecedence) (rc : Bool)
    (h : e.getPrecedence = EP_ATOM) : UOK e pp rc = true := by
  cases e with
  | number s => rw [UOK]; split <;> rfl
  | cell p => rw [UOK]; split <;> rfl
  | unaryOp u x => simp [Expr.getPrecedence] at h
  | binaryOp op l r =>
    cases op <;> simp [Expr.getPrecedence, BinOpType.precedence] at h

/-- `msegs` in closed form. -/
lemma msegs_unfold (e : Expr) (pp : ExprPrecedence) (rc : Bool) :
    msegs e pp rc = if UOK e pp rc then (⟨e, pp, rc⟩, []) else
      match e with
      | .binaryOp op l r =>
        ((msegs l op.precedence false).1,
          (msegs l op.precedence false).2
            ++ (op, (msegs r op.precedence true).1) :: (msegs r op.precedence true).2)
      | .unaryOp u x =>
        (⟨.unaryOp u (msegs x EP_UNARY false).1.oe, pp, rc⟩, (msegs x EP_UNARY false).2)
      | e => (⟨e, pp, rc⟩, []) := by
  cases e <;> rfl

/-- Everything the mul-level parse needs to know about the segmentation of
a fragment: the print decomposes chunkwise, every chunk is a well-formed
unary-consumable occurrence smaller than the fragment, the chunks'
contexts re-print identically at the positions the parser rebuilds them
in, and a fragment that is not itself one chunk has a nonempty tail. -/
lemma msegs_spec : ∀ (e : Expr) (pp : ExprPrecedence) (rc : Bool),
    e.wf = true →
    (UOK e pp rc = true ∨
      (pbit pp e.getPrecedence rc = false ∧ pclass e.getPrecedence ≠ 0)) →
    ∀ c1 segs, msegs e pp rc = (c1, segs) →
    e.printFormula pp rc = c1.print ++ segTokens segs ∧
    UOK c1.oe c1.opp c1.orc = true ∧
    c1.oe.wf = true ∧
    c1.oe.esize ≤ e.esize ∧
    (segs ≠ [] →
      pbit EP_MUL c1.oe.getPrecedence false
        = pbit c1.opp c1.oe.getPrecedence c1.orc) ∧
    (∀ op c, (op, c) ∈ segs →
      UOK c.oe c.opp c.orc = true ∧ c.oe.wf = true ∧
      (op = BinOpType.Multiply ∨ op = BinOpType.Divide) ∧
      pbit op.precedence c.oe.getPrecedence true
        = pbit c.opp c.oe.getPrecedence c.orc ∧
      c.oe.esize < e.esize) ∧
    (UOK e pp rc = true → c1 = ⟨e, pp, rc⟩ ∧ segs = []) ∧
    (UOK e pp rc = false →
      segs ≠ [] ∧ c1.oe.esize < e.esize ∧
      (e.getPrecedence = EP_UNARY → c1.oe.getPrecedence = EP_UNARY)) := by
  intro e
  induction e with
  | number s =>
    intro pp rc hw hH c1 segs hms
    have hU : UOK (.number s) pp rc = true := by
      rw [UOK_unfold]; split <;> rfl
    rw [msegs_unfold, if_pos hU] at hms
    injection hms with h1 h2
    subst h1; subst h2
    refine ⟨by simp [Occ.print, segTokens], hU, hw, Nat.le_refl _,
      fun h => absurd rfl h, ?_, fun _ => ⟨rfl, rfl⟩, ?_⟩
    · intro op c hc; exact absurd hc (List.not_mem_nil _)
    · intro hf; exact absurd hU (by rw [hf]; exact Bool.false_ne_true)
  | cell p =>
    intro pp rc hw hH c1 segs hms
    have hU : UOK (.cell p) pp rc = true := by
      rw [UOK_unfold]; split <;> rfl
    rw [msegs_unfold, if_pos hU] at hms
    injection hms with h1 h2
    subst h1; subst h2
    refine ⟨by simp [Occ.print, segTokens], hU, hw, Nat.le_refl _,
      fun h => absurd rfl h, ?_, fun _ => ⟨rfl, rfl⟩, ?_⟩
    · intro op c hc; exact absurd hc (List.not_mem_nil _)
    · intro hf; exact absurd hU (by rw [hf]; exact Bool.false_ne_true)
  | unaryOp u x ihx =>
    intro pp rc hw hH c1 segs hms
    by_cases hU : UOK (.unaryOp u x) pp rc = true
    · rw [msegs_unfold, if_pos hU] at hms
      injection hms with h1 h2
      subst h1; subst h2
      refine ⟨by simp [Occ.print, segTokens], hU, hw, Nat.le_refl _,
        fun h => absurd rfl h, ?_, fun _ => ⟨rfl, rfl⟩, ?_⟩
      · intro op c hc; exact absurd hc (List.not_mem_nil _)
      · intro hf; exact absurd hU (by rw [hf]; exact Bool.false_ne_true)
    · have hUf : UOK (.unaryOp u x) pp rc = false := Bool.not_eq_true _ ▸ hU
      have hUx : UOK x EP_UNARY false = false := by
        have := hUf
        rw [UOK_unfold] at this
        rw [if_neg (by
          show ¬pbit pp (Expr.unaryOp u x).getPrecedence rc = true
          rw [show (Expr.unaryOp u x).getPrecedence = EP_UNARY from rfl,
            pbit_unary]
          exact Bool.false_ne_true)] at this
        exact this
      have hHx : UOK x EP_UNARY false = true ∨
          (pbit EP_UNARY x.getPrecedence false = false ∧
            pclass x.getPrecedence ≠ 0) := by
        cases hb : pbit EP_UNARY x.getPrecedence false with
        | true => exact Or.inl (UOK_of_pbit _ _ _ hb)
        | false =>
          refine Or.inr ⟨rfl, fun hc0 => ?_⟩
          rw [pbit_class0 EP_UNARY x.getPrecedence false (Or.inr rfl) hc0] at hb
          exact absurd hb (by decide)
      rcases hqx : msegs x EP_UNARY false with ⟨c1x, s1x⟩
      obtain ⟨hPx, hUc1x, hwc1x, hszx, hcompx, htailx, _, hNUx⟩ :=
        ihx EP_UNARY false hw hHx c1x s1x hqx
      obtain ⟨hne1x, hlt1x, _⟩ := hNUx hUx
      rw [msegs_unfold, if_neg hU] at hms
      dsimp only at hms
      rw [hqx] at hms
      injection hms with h1 h2
      subst h1; subst h2
      have hc1xprint : c1x.oe.printFormula EP_UNARY false = c1x.print := by
        rw [Occ.print]
        refine printFormula_congr _ _ _ _ _ ?_
        rw [pbit_left_rows EP_UNARY EP_MUL c1x.oe.getPrecedence
          (Or.inr rfl) (Or.inl rfl)]
        exact hcompx hne1x
      refine ⟨?_, ?_, hwc1x, ?_, ?_, ?_, ?_, ?_⟩
      · rw [printFormula_eq]
        rw [if_neg (by
          show ¬pbit pp (Expr.unaryOp u x).getPrecedence rc = true
          rw [show (Expr.unaryOp u x).getPrecedence = EP_UNARY from rfl, pbit_unary]
          exact Bool.false_ne_true)]
        show u.tok :: x.printFormula EP_UNARY false = _
        rw [hPx]
        rw [show Occ.print ⟨Expr.unaryOp u c1x.oe, pp, rc⟩
            = (Expr.unaryOp u c1x.oe).printFormula pp rc from rfl]
        rw [printFormula_eq]
        rw [if_neg (by
          show ¬pbit pp (Expr.unaryOp u c1x.oe).getPrecedence rc = true
          rw [show (Expr.unaryOp u c1x.oe).getPrecedence = EP_UNARY from rfl,
            pbit_unary]
          exact Bool.false_ne_true)]
        show _ = (u.tok :: c1x.oe.printFormula EP_UNARY false) ++ segTokens s1x
        rw [hc1xprint]
        simp
      · show UOK (.unaryOp u c1x.oe) pp rc = true
        rw [UOK_unfold]
        split
        · rfl
        · show UOK c1x.oe EP_UNARY false = true
          rw [UOK_congr c1x.oe EP_UNARY false c1x.opp c1x.orc (by
            rw [pbit_left_rows EP_UNARY EP_MUL c1x.oe.getPrecedence
              (Or.inr rfl) (Or.inl rfl)]
            exact hcompx hne1x)]
          exact hUc1x
      · show c1x.oe.esize + 1 ≤ x.esize + 1
        omega
      · intro _
        show pbit EP_MUL EP_UNARY false = pbit pp EP_UNARY rc
        rw [pbit_unary_col, pbit_unary_col]
      · intro op c hc
        obtain ⟨ha, hb', hc', hd', he'⟩ := htailx op c hc
        exact ⟨ha, hb', hc', hd', by show c.oe.esize < x.esize + 1; omega⟩
      · intro hf; exact absurd hf (by rw [hUf]; exact Bool.false_ne_true)
      · intro _
        refine ⟨hne1x, by show c1x.oe.esize + 1 < x.esize + 1; omega, fun _ => rfl⟩
  | binaryOp op l r ihl ihr =>
    intro pp rc hw hH c1 segs hms
    obtain ⟨hwl, hwr⟩ := by
      have := hw
      rw [show (Expr.binaryOp op l r).wf = (l.wf && r.wf) from rfl,
        Bool.and_eq_true] at this
      exact this
    by_cases hU : UOK (.binaryOp op l r) pp rc = true
    · rw [msegs_unfold, if_pos hU] at hms
      injection hms with h1 h2
      subst h1; subst h2
      refine ⟨by simp [Occ.print, segTokens], hU, hw, Nat.le_refl _,
        fun h => absurd rfl h, ?_, fun _ => ⟨rfl, rfl⟩, ?_⟩
      · intro op' c hc; exact absurd hc (List.not_mem_nil _)
      · intro hf; exact absurd hU (by rw [hf]; exact Bool.false_ne_true)
    · have hUf : UOK (.binaryOp op l r) pp rc = false := Bool.not_eq_true _ ▸ hU
      have hpb : pbit pp (Expr.binaryOp op l r).getPrecedence rc = false := by
        cases hb : pbit pp (Expr.binaryOp op l r).getPrecedence rc with
        | false => rfl
        | true =>
          exact absurd (UOK_of_pbit _ _ _ hb)
            (by rw [hUf]; exact Bool.false_ne_true)
      have hcl : pclass (Expr.binaryOp op l r).getPrecedence ≠ 0 := by
        rcases hH with hHl | ⟨_, h⟩
        · exact absurd hHl (by rw [hUf]; exact Bool.false_ne_true)
        · exact h
      have hop : op = BinOpType.Multiply ∨ op = BinOpType.Divide := by
        cases op with
        | Add => exact absurd rfl hcl
        | Subtract => exact absurd rfl hcl
        | Multiply => exact Or.inl rfl
        | Divide => exact Or.inr rfl
      have hopc : pclass op.precedence = 1 ∨ pclass op.precedence = 2 := by
        rcases hop with rfl | rfl
        · exact Or.inl rfl
        · exact Or.inl rfl
      have hHl : UOK l op.precedence false = true ∨
          (pbit op.precedence l.getPrecedence false = false ∧
            pclass l.getPrecedence ≠ 0) := by
        cases hb : pbit op.precedence l.getPrecedence false with
        | true => exact Or.inl (UOK_of_pbit _ _ _ hb)
        | false =>
          refine Or.inr ⟨rfl, fun hc0 => ?_⟩
          rw [pbit_class0 op.precedence l.getPrecedence false hopc hc0] at hb
          exact absurd hb (by decide)
      have hHr : UOK r op.precedence true = true ∨
          (pbit op.precedence r.getPrecedence true = false ∧
            pclass r.getPrecedence ≠ 0) := by
        cases hb : pbit op.precedence r.getPrecedence true with
        | true => exact Or.inl (UOK_of_pbit _ _ _ hb)
        | false =>
          refine Or.inr ⟨rfl, fun hc0 => ?_⟩
          rw [pbit_class0 op.precedence r.getPrecedence true hopc hc0] at hb
          exact absurd hb (by decide)
      rcases hql : msegs l op.precedence false with ⟨c1l, s1l⟩
      rcases hqr : msegs r op.precedence true with ⟨c1r, s2r⟩
      obtain ⟨hPl, hUc1l, hwc1l, hszl, hcompl, htaill, hOKl, hNUl⟩ :=
        ihl op.precedence false hwl hHl c1l s1l hql
      obtain ⟨hPr, hUc1r, hwc1r, hszr, hcompr, htailr, hOKr, hNUr⟩ :=
        ihr op.precedence true hwr hHr c1r s2r hqr
      rw [msegs_unfold, if_neg hU] at hms
      dsimp only at hms
      rw [hql, hqr] at hms
      injection hms with h1 h2
      subst h1; subst h2
      refine ⟨?_, hUc1l, hwc1l, ?_, ?_, ?_, ?_, ?_⟩
      · rw [printFormula_eq, if_neg (by rw [hpb]; exact Bool.false_ne_true)]
        show l.printFormula op.precedence false
            ++ op.tok :: r.printFormula op.precedence true = _
        rw [hPl, hPr, segTokens_append]
        show _ = c1l.print ++ (segTokens s1l
          ++ (op.tok :: (c1r.print ++ segTokens s2r)))
        simp [segTokens]
      · show c1l.oe.esize ≤ l.esize + r.esize + 1
        omega
      · intro _
        by_cases hUl : UOK l op.precedence false = true
        · obtain ⟨rfl, _⟩ := hOKl hUl
          show pbit EP_MUL l.getPrecedence false = pbit op.precedence l.getPrecedence false
          exact pbit_left_rows EP_MUL op.precedence l.getPrecedence
            (Or.inl rfl) hopc
        · exact hcompl (hNUl (Bool.not_eq_true _ ▸ hUl)).1
      · intro op' c hc
        rw [List.mem_append] at hc
        rcases hc with hc | hc
        · obtain ⟨ha, hb', hc', hd', he'⟩ := htaill op' c hc
          refine ⟨ha, hb', hc', hd', ?_⟩
          show c.oe.esize < l.esize + r.esize + 1
          omega
        · rcases List.mem_cons.mp hc with heq | hc
          · have he1 : op = op' := (congrArg Prod.fst heq).symm
            subst he1
            have he2 : c = c1r := congrArg Prod.snd heq
            subst he2
            refine ⟨hUc1r, hwc1r, hop, ?_, ?_⟩
            · by_cases hUr : UOK r op.precedence true = true
              · obtain ⟨rfl, _⟩ := hOKr hUr
                rfl
              · have hUrf : UOK r op.precedence true = false :=
                  Bool.not_eq_true _ ▸ hUr
                have hNUr' := hNUr hUrf
                have hprecr : r.getPrecedence = EP_UNARY ∨ op = BinOpType.Multiply := by
                  rcases hop with rfl | rfl
                  · exact Or.inr rfl
                  · -- op = Divide: a bare right child of ÷ must be unary-topped
                    left
                    have hUrf' : UOK r EP_DIV true = false := hUrf
                    have hbr : pbit EP_DIV r.getPrecedence true = false := by
                      cases hb : pbit EP_DIV r.getPrecedence true with
                      | false => rfl
                      | true =>
                        exact absurd (UOK_of_pbit _ _ _ hb)
                          (by rw [hUrf']; exact Bool.false_ne_true)
                    cases hp : r.getPrecedence with
                    | EP_UNARY => rfl
                    | EP_ATOM =>
                      exact absurd (UOK_atomprec r EP_DIV true hp)
                        (by rw [hUrf']; exact Bool.false_ne_true)
                    | EP_ADD => rw [hp] at hbr; exact absurd hbr (by decide)
                    | EP_SUB => rw [hp] at hbr; exact absurd hbr (by decide)
                    | EP_MUL => rw [hp] at hbr; exact absurd hbr (by decide)
                    | EP_DIV => rw [hp] at hbr; exact absurd hbr (by decide)
                rcases hprecr with hpu | hopm
                · have hc1ru : c.oe.getPrecedence = EP_UNARY := hNUr'.2.2 hpu
                  rw [hc1ru, pbit_unary_col, pbit_unary_col]
                · subst hopm
                  rw [show (BinOpType.Multiply).precedence = EP_MUL from rfl,
                    pbit_mul_lr]
                  exact hcompr hNUr'.1
            · show c.oe.esize < l.esize + r.esize + 1
              omega
          · obtain ⟨ha, hb', hc', hd', he'⟩ := htailr op' c hc
            refine ⟨ha, hb', hc', hd', ?_⟩
            show c.oe.esize < l.esize + r.esize + 1
            omega
      · intro hf; exact absurd hf (by rw [hUf]; exact Bool.false_ne_true)
      · intro _
        refine ⟨by simp, ?_, ?_⟩
        · show c1l.oe.esize < l.esize + r.esize + 1
          omega
        · intro hup
          exact absurd hup (by
            rcases hop with rfl | rfl <;> exact fun h => ExprPrecedence.noConfusion h)
/-- `asegs` in closed form. -/
lemma asegs_unfold (e : Expr) (pp : ExprPrecedence) (rc : Bool) :
    asegs e pp rc =
      if pbit pp e.getPrecedence rc = true ∨ pclass e.getPrecedence ≠ 0 then
        (⟨e, pp, rc⟩, [])
      else
        match e with
        | .binaryOp op l r =>
          ((asegs l op.precedence false).1,
            (asegs l op.precedence false).2
              ++ (op, (asegs r op.precedence true).1) :: (asegs r op.precedence true).2)
        | e => (⟨e, pp, rc⟩, []) := by
  cases e <;> rfl

/-- Everything the expression-level parse needs about the additive
segmentation: the print decomposes fragmentwise, every fragment is a
well-formed occurrence the mul level accepts, fragments re-print
identically at their rebuilt positions, and a proper chain has a nonempty
tail. -/
lemma asegs_spec : ∀ (e : Expr) (pp : ExprPrecedence) (rc : Bool),
    e.wf = true →
    ∀ c1 segs, asegs e pp rc = (c1, segs) →
    e.printFormula pp rc = c1.print ++ segTokens segs ∧
    (pbit c1.opp c1.oe.getPrecedence c1.orc = true ∨
      pclass c1.oe.getPrecedence ≠ 0) ∧
    c1.oe.wf = true ∧
    c1.oe.esize ≤ e.esize ∧
    (segs ≠ [] →
      pbit EP_ADD c1.oe.getPrecedence false
        = pbit c1.opp c1.oe.getPrecedence c1.orc) ∧
    (∀ op c, (op, c) ∈ segs →
      (pbit c.opp c.oe.getPrecedence c.orc = true ∨
        pclass c.oe.getPrecedence ≠ 0) ∧
      c.oe.wf = true ∧
      (op = BinOpType.Add ∨ op = BinOpType.Subtract) ∧
      pbit op.precedence c.oe.getPrecedence true
        = pbit c.opp c.oe.getPrecedence c.orc ∧
      c.oe.esize < e.esize) ∧
    ((pbit pp e.getPrecedence rc = true ∨ pclass e.getPrecedence ≠ 0) →
      c1 = ⟨e, pp, rc⟩ ∧ segs = []) ∧
    (¬(pbit pp e.getPrecedence rc = true ∨ pclass e.getPrecedence ≠ 0) →
      segs ≠ [] ∧ c1.oe.esize < e.esize) := by
  intro e
  induction e with
  | number s =>
    intro pp rc hw c1 segs hms
    have hA : pbit pp (Expr.number s).getPrecedence rc = true ∨
        pclass (Expr.number s).getPrecedence ≠ 0 :=
      Or.inr (by show pclass EP_ATOM ≠ 0; decide)
    rw [asegs_unfold, if_pos hA] at hms
    injection hms with h1 h2
    subst h1; subst h2
    refine ⟨by simp [Occ.print, segTokens], hA, hw, Nat.le_refl _,
      fun h => absurd rfl h, ?_, fun _ => ⟨rfl, rfl⟩, fun h => absurd hA h⟩
    intro op c hc; exact absurd hc (List.not_mem_nil _)
  | cell p =>
    intro pp rc hw c1 segs hms
    have hA : pbit pp (Expr.cell p).getPrecedence rc = true ∨
        pclass (Expr.cell p).getPrecedence ≠ 0 :=
      Or.inr (by show pclass EP_ATOM ≠ 0; decide)
    rw [asegs_unfold, if_pos hA] at hms
    injection hms with h1 h2
    subst h1; subst h2
    refine ⟨by simp [Occ.print, segTokens], hA, hw, Nat.le_refl _,
      fun h => absurd rfl h, ?_, fun _ => ⟨rfl, rfl⟩, fun h => absurd hA h⟩
    intro op c hc; exact absurd hc (List.not_mem_nil _)
  | unaryOp u x _ =>
    intro pp rc hw c1 segs hms
    have hA : pbit pp (Expr.unaryOp u x).getPrecedence rc = true ∨
        pclass (Expr.unaryOp u x).getPrecedence ≠ 0 :=
      Or.inr (by show pclass EP_UNARY ≠ 0; decide)
    rw [asegs_unfold, if_pos hA] at hms
    injection hms with h1 h2
    subst h1; subst h2
    refine ⟨by simp [Occ.print, segTokens], hA, hw, Nat.le_refl _,
      fun h => absurd rfl h, ?_, fun _ => ⟨rfl, rfl⟩, fun h => absurd hA h⟩
    intro op c hc; exact absurd hc (List.not_mem_nil _)
  | binaryOp op l r ihl ihr =>
    intro pp rc hw c1 segs hms
    obtain ⟨hwl, hwr⟩ := by
      have := hw
      rw [show (Expr.binaryOp op l r).wf = (l.wf && r.wf) from rfl,
        Bool.and_eq_true] at this
      exact this
    by_cases hA : pbit pp (Expr.binaryOp op l r).getPrecedence rc = true ∨
        pclass (Expr.binaryOp op l r).getPrecedence ≠ 0
    · rw [asegs_unfold, if_pos hA] at hms
      injection hms with h1 h2
      subst h1; subst h2
      refine ⟨by simp [Occ.print, segTokens], hA, hw, Nat.le_refl _,
        fun h => absurd rfl h, ?_, fun _ => ⟨rfl, rfl⟩, fun h => absurd hA h⟩
      intro op' c hc; exact absurd hc (List.not_mem_nil _)
    · have hpb : pbit pp (Expr.binaryOp op l r).getPrecedence rc = false := by
        cases hb : pbit pp (Expr.binaryOp op l r).getPrecedence rc with
        | false => rfl
        | true => exact absurd (Or.inl hb) hA
      have hcl : pclass (Expr.binaryOp op l r).getPrecedence = 0 := by
        by_contra hne
        exact hA (Or.inr hne)
      have hop : op = BinOpType.Add ∨ op = BinOpType.Subtract := by
        cases op with
        | Add => exact Or.inl rfl
        | Subtract => exact Or.inr rfl
        | Multiply =>
          have hcl' : pclass EP_MUL = 0 := hcl
          exact absurd hcl' (by decide)
        | Divide =>
          have hcl' : pclass EP_DIV = 0 := hcl
          exact absurd hcl' (by decide)
      have hopc : pclass op.precedence = 0 := by
        rcases hop with rfl | rfl
        · rfl
        · rfl
      rcases hql : asegs l op.precedence false with ⟨c1l, s1l⟩
      rcases hqr : asegs r op.precedence true with ⟨c1r, s2r⟩
      obtain ⟨hPl, hAc1l, hwc1l, hszl, hcompl, htaill, hOKl, hNUl⟩ :=
        ihl op.precedence false hwl c1l s1l hql
      obtain ⟨hPr, hAc1r, hwc1r, hszr, hcompr, htailr, hOKr, hNUr⟩ :=
        ihr op.precedence true hwr c1r s2r hqr
      rw [asegs_unfold, if_neg hA] at hms
      dsimp only at hms
      rw [hql, hqr] at hms
      injection hms with h1 h2
      subst h1; subst h2
      refine ⟨?_, hAc1l, hwc1l, ?_, ?_, ?_, ?_, ?_⟩
      · rw [printFormula_eq, if_neg (by rw [hpb]; exact Bool.false_ne_true)]
        show l.printFormula op.precedence false
            ++ op.tok :: r.printFormula op.precedence true = _
        rw [hPl, hPr, segTokens_append]
        show _ = c1l.print ++ (segTokens s1l
          ++ (op.tok :: (c1r.print ++ segTokens s2r)))
        simp [segTokens]
      · show c1l.oe.esize ≤ l.esize + r.esize + 1
        omega
      · intro _
        by_cases hAl : pbit op.precedence l.getPrecedence false = true ∨
            pclass l.getPrecedence ≠ 0
        · obtain ⟨rfl, _⟩ := hOKl hAl
          show pbit EP_ADD l.getPrecedence false
            = pbit op.precedence l.getPrecedence false
          exact pbit_addsub_left EP_ADD op.precedence l.getPrecedence rfl hopc
        · exact hcompl (hNUl hAl).1
      · intro op' c hc
        rw [List.mem_append] at hc
        rcases hc with hc | hc
        · obtain ⟨ha, hb', hc', hd', he'⟩ := htaill op' c hc
          refine ⟨ha, hb', hc', hd', ?_⟩
          show c.oe.esize < l.esize + r.esize + 1
          omega
        · rcases List.mem_cons.mp hc with heq | hc
          · have he1 : op = op' := (congrArg Prod.fst heq).symm
            subst he1
            have he2 : c = c1r := congrArg Prod.snd heq
            subst he2
            refine ⟨hAc1r, hwc1r, hop, ?_, ?_⟩
            · by_cases hAr : pbit op.precedence r.getPrecedence true = true ∨
                  pclass r.getPrecedence ≠ 0
              · obtain ⟨rfl, _⟩ := hOKr hAr
                rfl
              · have hNUr' := hNUr hAr
                have hclr : pclass r.getPrecedence = 0 := by
                  by_contra hne
                  exact hAr (Or.inr hne)
                have hopA : op = BinOpType.Add := by
                  rcases hop with rfl | rfl
                  · rfl
                  · exfalso
                    exact hAr (Or.inl (pbit_sub_right0 r.getPrecedence hclr))
                subst hopA
                rw [show (BinOpType.Add).precedence = EP_ADD from rfl,
                  pbit_add_row, ← pbit_add_row c.oe.getPrecedence false]
                exact hcompr hNUr'.1
            · show c.oe.esize < l.esize + r.esize + 1
              omega
          · obtain ⟨ha, hb', hc', hd', he'⟩ := htailr op' c hc
            refine ⟨ha, hb', hc', hd', ?_⟩
            show c.oe.esize < l.esize + r.esize + 1
            omega
      · intro hf; exact absurd hf hA
      · intro _
        refine ⟨by simp, ?_⟩
        show c1l.oe.esize < l.esize + r.esize + 1
        omega

/-- The tight rows have equal-to-false bits at multiplicative columns in
additive rows. -/
lemma pbit_row0_col12 : ∀ (p c : ExprPrecedence) (rc : Bool),
    pclass p = 0 → (pclass c = 1 ∨ pclass c = 2) → pbit p c rc = false := by
  decide

/-- A printed additive tail followed by a stopping stream never begins
with a multiplicative operator. -/
lemma restM_addsegs (segs : List (BinOpType × Occ)) (rest : List Token)
    (hops : ∀ op c, (op, c) ∈ segs → op = BinOpType.Add ∨ op = BinOpType.Subtract)
    (hre : restE rest) : restM (segTokens segs ++ rest) := by
  cases segs with
  | nil =>
    rcases hre with rfl | ⟨r', rfl⟩
    · exact ⟨by simp [segTokens], by simp [segTokens]⟩
    · refine ⟨?_, ?_⟩ <;> simp [segTokens, List.head?]
  | cons oc s =>
    obtain ⟨op, c⟩ := oc
    rcases hops op c (List.mem_cons_self _ _) with rfl | rfl <;>
      exact ⟨by simp [segTokens, BinOpType.tok, List.head?],
        by simp [segTokens, BinOpType.tok, List.head?]⟩

/-- Running the reference loop of the multiplicative level over a segment
list: the chunks are left-associated onto the accumulator, exactly the
segment tokens are consumed, and the result re-prints as the accumulator's
print followed by the segment tokens. -/
lemma mulLoop_run : ∀ (segs : List (BinOpType × Occ)),
    (∀ op c, (op, c) ∈ segs →
      (op = BinOpType.Multiply ∨ op = BinOpType.Divide) ∧
      pbit op.precedence c.oe.getPrecedence true
        = pbit c.opp c.oe.getPrecedence c.orc ∧
      (∀ (rest : List Token) (f : Nat), 4 * c.print.length + 4 ≤ f →
        ∃ pe' e', parseStep f .unary (c.print ++ rest) = some (pe', rest) ∧
          walkPExpr pe' = .ok e' ∧ e'.wf = true ∧
          ∀ pp' rc', pbit pp' c.oe.getPrecedence rc'
              = pbit c.opp c.oe.getPrecedence c.orc →
            e'.printFormula pp' rc' = c.print)) →
    ∀ (acc : PExpr) (accE : Expr) (CA : List Token) (rest : List Token) (f : Nat),
      restM rest → walkPExpr acc = .ok accE → accE.wf = true →
      accE.printFormula EP_MUL false = CA →
      4 * (segTokens segs).length + 4 ≤ f →
      ∃ pe' e', parseStep f (.mulLoop acc) (segTokens segs ++ rest)
          = some (pe', rest) ∧
        walkPExpr pe' = .ok e' ∧ e'.wf = true ∧
        e'.printFormula EP_MUL false = CA ++ segTokens segs ∧
        (segs = [] → pe' = acc) ∧
        (segs ≠ [] → pclass e'.getPrecedence = 1) := by
  intro segs
  induction segs with
  | nil =>
    intro _ acc accE CA rest f hrm hwalk hwf hca hfuel
    obtain ⟨g, rfl⟩ : ∃ g, f = g + 1 := ⟨f - 1, by omega⟩
    refine ⟨acc, accE, ?_, hwalk, hwf, by simp [segTokens, hca],
      fun _ => rfl, fun h => absurd rfl h⟩
    show parseStep (g + 1) (.mulLoop acc) (segTokens [] ++ rest) = some (acc, rest)
    rw [show segTokens [] ++ rest = rest from by simp [segTokens]]
    exact mulLoop_stop g acc rest hrm
  | cons oc s' ih =>
    intro hch acc accE CA rest f hrm hwalk hwf hca hfuel
    obtain ⟨op, c⟩ := oc
    obtain ⟨hop, hcompat, hparse⟩ := hch op c (List.mem_cons_self _ _)
    have hch' : ∀ op' c', (op', c') ∈ s' →
        (op' = BinOpType.Multiply ∨ op' = BinOpType.Divide) ∧
        pbit op'.precedence c'.oe.getPrecedence true
          = pbit c'.opp c'.oe.getPrecedence c'.orc ∧
        (∀ (rest : List Token) (f : Nat), 4 * c'.print.length + 4 ≤ f →
          ∃ pe' e', parseStep f .unary (c'.print ++ rest) = some (pe', rest) ∧
            walkPExpr pe' = .ok e' ∧ e'.wf = true ∧
            ∀ pp' rc', pbit pp' c'.oe.getPrecedence rc'
                = pbit c'.opp c'.oe.getPrecedence c'.orc →
              e'.printFormula pp' rc' = c'.print) :=
      fun op' c' hm => hch op' c' (List.mem_cons_of_mem _ hm)
    have hlen : (segTokens ((op, c) :: s')).length
        = 1 + c.print.length + (segTokens s').length := by
      show (op.tok :: c.print ++ segTokens s').length = _
      simp
      omega
    obtain ⟨g, rfl⟩ : ∃ g, f = g + 1 := ⟨f - 1, by omega⟩
    obtain ⟨pec, ec, hps, hwk, hwfc, hpr⟩ :=
      hparse (segTokens s' ++ rest) g (by omega)
    rcases hop with rfl | rfl
    · -- the * iteration
      have hprc : ec.printFormula EP_MUL true = c.print :=
        hpr EP_MUL true hcompat
      have hacc2 : walkPExpr (.binaryOp BinOpType.Multiply acc pec)
          = .ok (.binaryOp BinOpType.Multiply accE ec) :=
        walk_binaryOp _ _ _ _ _ hwalk hwk
      have hwf2 : (Expr.binaryOp BinOpType.Multiply accE ec).wf = true := by
        show (accE.wf && ec.wf) = true
        rw [hwf, hwfc]
        rfl
      have hca2 : (Expr.binaryOp BinOpType.Multiply accE ec).printFormula EP_MUL false
          = CA ++ Token.mul :: c.print := by
        rw [printFormula_eq]
        rw [if_neg (show
          ¬pbit EP_MUL (Expr.binaryOp BinOpType.Multiply accE ec).getPrecedence
            false = true from by
          show ¬pbit EP_MUL EP_MUL false = true
          decide)]
        show accE.printFormula EP_MUL false
            ++ Token.mul :: ec.printFormula EP_MUL true = _
        rw [hca, hprc]
      obtain ⟨pe2, e2, hps2, hwk2, hwf2', hpr2, hnil2, hcls2⟩ :=
        ih hch' (.binaryOp BinOpType.Multiply acc pec)
          (.binaryOp BinOpType.Multiply accE ec)
          (CA ++ Token.mul :: c.print) rest g hrm hacc2 hwf2 hca2 (by omega)
      refine ⟨pe2, e2, ?_, hwk2, hwf2', ?_, ?_, ?_⟩
      · show parseStep (g + 1) (.mulLoop acc)
          ((Token.mul :: c.print ++ segTokens s') ++ rest) = some (pe2, rest)
        rw [show (Token.mul :: c.print ++ segTokens s') ++ rest
            = Token.mul :: (c.print ++ (segTokens s' ++ rest)) from by simp]
        simp only [parseStep]
        rw [hps]
        exact hps2
      · rw [hpr2]
        show _ = CA ++ (Token.mul :: c.print ++ segTokens s')
        simp
      · intro h; exact absurd h (by simp)
      · intro _
        by_cases hs' : s' = []
        · subst hs'
          have := hnil2 rfl
          subst this
          rw [hwk2] at hacc2
          injection hacc2 with he
          rw [he]
          rfl
        · exact hcls2 hs'
    · -- the / iteration
      have hprc : ec.printFormula EP_DIV true = c.print :=
        hpr EP_DIV true hcompat
      have hacc2 : walkPExpr (.binaryOp BinOpType.Divide acc pec)
          = .ok (.binaryOp BinOpType.Divide accE ec) :=
        walk_binaryOp _ _ _ _ _ hwalk hwk
      have hwf2 : (Expr.binaryOp BinOpType.Divide accE ec).wf = true := by
        show (accE.wf && ec.wf) = true
        rw [hwf, hwfc]
        rfl
      have hca2 : (Expr.binaryOp BinOpType.Divide accE ec).printFormula EP_MUL false
          = CA ++ Token.div :: c.print := by
        rw [printFormula_eq]
        rw [if_neg (show
          ¬pbit EP_MUL (Expr.binaryOp BinOpType.Divide accE ec).getPrecedence
            false = true from by
          show ¬pbit EP_MUL EP_DIV false = true
          decide)]
        show accE.printFormula EP_DIV false
            ++ Token.div :: ec.printFormula EP_DIV true = _
        rw [hprc]
        rw [printFormula_congr accE EP_DIV false EP_MUL false
          (pbit_left_rows EP_DIV EP_MUL accE.getPrecedence (Or.inl rfl) (Or.inl rfl))]
        rw [hca]
      obtain ⟨pe2, e2, hps2, hwk2, hwf2', hpr2, hnil2, hcls2⟩ :=
        ih hch' (.binaryOp BinOpType.Divide acc pec)
          (.binaryOp BinOpType.Divide accE ec)
          (CA ++ Token.div :: c.print) rest g hrm hacc2 hwf2 hca2 (by omega)
      refine ⟨pe2, e2, ?_, hwk2, hwf2', ?_, ?_, ?_⟩
      · show parseStep (g + 1) (.mulLoop acc)
          ((Token.div :: c.print ++ segTokens s') ++ rest) = some (pe2, rest)
        rw [show (Token.div :: c.print ++ segTokens s') ++ rest
            = Token.div :: (c.print ++ (segTokens s' ++ rest)) from by simp]
        simp only [parseStep]
        rw [hps]
        exact hps2
      · rw [hpr2]
        show _ = CA ++ (Token.div :: c.print ++ segTokens s')
        simp
      · intro h; exact absurd h (by simp)
      · intro _
        by_cases hs' : s' = []
        · subst hs'
          have := hnil2 rfl
          subst this
          rw [hwk2] at hacc2
          injection hacc2 with he
          rw [he]
          rfl
        · exact hcls2 hs'

/-- Running the additive loop over a fragment list: the fragments are
left-associated onto the accumulator, exactly the segment tokens are
consumed, and the result re-prints as the accumulator's print followed by
the segment tokens. -/
lemma addLoop_run : ∀ (segs : List (BinOpType × Occ)),
    (∀ op c, (op, c) ∈ segs →
      (op = BinOpType.Add ∨ op = BinOpType.Subtract) ∧
      pbit op.precedence c.oe.getPrecedence true
        = pbit c.opp c.oe.getPrecedence c.orc ∧
      (∀ (rest : List Token) (f : Nat), restM rest →
          4 * c.print.length + 5 ≤ f →
        ∃ pe' e', parseStep f .mul (c.print ++ rest) = some (pe', rest) ∧
          walkPExpr pe' = .ok e' ∧ e'.wf = true ∧
          ((∀ pp' rc', pbit pp' c.oe.getPrecedence rc'
              = pbit c.opp c.oe.getPrecedence c.orc →
            e'.printFormula pp' rc' = c.print) ∨
           (c.oe.getPrecedence = EP_UNARY ∧ pclass e'.getPrecedence = 1 ∧
            ∀ pp' rc', pbit pp' e'.getPrecedence rc' = false →
              e'.printFormula pp' rc' = c.print)))) →
    ∀ (acc : PExpr) (accE : Expr) (CA : List Token) (rest : List Token) (f : Nat),
      restE rest → walkPExpr acc = .ok accE → accE.wf = true →
      accE.printFormula EP_ADD false = CA →
      4 * (segTokens segs).length + 4 ≤ f →
      ∃ pe' e', parseStep f (.addLoop acc) (segTokens segs ++ rest)
          = some (pe', rest) ∧
        walkPExpr pe' = .ok e' ∧ e'.wf = true ∧
        e'.printFormula EP_ADD false = CA ++ segTokens segs ∧
        (segs = [] → pe' = acc) ∧
        (segs ≠ [] → pclass e'.getPrecedence = 0) := by
  intro segs
  induction segs with
  | nil =>
    intro _ acc accE CA rest f hre hwalk hwf hca hfuel
    obtain ⟨g, rfl⟩ : ∃ g, f = g + 1 := ⟨f - 1, by omega⟩
    refine ⟨acc, accE, ?_, hwalk, hwf, by simp [segTokens, hca],
      fun _ => rfl, fun h => absurd rfl h⟩
    show parseStep (g + 1) (.addLoop acc) (segTokens [] ++ rest) = some (acc, rest)
    rw [show segTokens [] ++ rest = rest from by simp [segTokens]]
    exact addLoop_stop g acc rest hre
  | cons oc s' ih =>
    intro hch acc accE CA rest f hre hwalk hwf hca hfuel
    obtain ⟨op, c⟩ := oc
    obtain ⟨hop, hcompat, hparse⟩ := hch op c (List.mem_cons_self _ _)
    have hch' := fun op' c' hm => hch op' c' (List.mem_cons_of_mem _ hm)
    have hlen : (segTokens ((op, c) :: s')).length
        = 1 + c.print.length + (segTokens s').length := by
      show (op.tok :: c.print ++ segTokens s').length = _
      simp
      omega
    obtain ⟨g, rfl⟩ : ∃ g, f = g + 1 := ⟨f - 1, by omega⟩
    have hrm' : restM (segTokens s' ++ rest) :=
      restM_addsegs s' rest (fun op' c' hm => (hch' op' c' hm).1) hre
    obtain ⟨pec, ec, hps, hwk, hwfc, hpr⟩ :=
      hparse (segTokens s' ++ rest) g hrm' (by omega)
    have hprc : ec.printFormula op.precedence true = c.print := by
      rcases hpr with hpr1 | ⟨hcu, hcls1, hprf⟩
      · exact hpr1 op.precedence true hcompat
      · refine hprf op.precedence true ?_
        refine pbit_row0_col12 op.precedence ec.getPrecedence true ?_ (Or.inl hcls1)
        rcases hop with rfl | rfl
        · rfl
        · rfl
    rcases hop with rfl | rfl
    · -- the + iteration
      have hacc2 : walkPExpr (.binaryOp BinOpType.Add acc pec)
          = .ok (.binaryOp BinOpType.Add accE ec) :=
        walk_binaryOp _ _ _ _ _ hwalk hwk
      have hwf2 : (Expr.binaryOp BinOpType.Add accE ec).wf = true := by
        show (accE.wf && ec.wf) = true
        rw [hwf, hwfc]
        rfl
      have hca2 : (Expr.binaryOp BinOpType.Add accE ec).printFormula EP_ADD false
          = CA ++ Token.add :: c.print := by
        rw [printFormula_eq]
        rw [if_neg (show
          ¬pbit EP_ADD (Expr.binaryOp BinOpType.Add accE ec).getPrecedence
            false = true from by
          show ¬pbit EP_ADD EP_ADD false = true
          decide)]
        show accE.printFormula EP_ADD false
            ++ Token.add :: ec.printFormula EP_ADD true = _
        rw [hca, show ec.printFormula EP_ADD true = c.print from hprc]
      obtain ⟨pe2, e2, hps2, hwk2, hwf2', hpr2, hnil2, hcls2⟩ :=
        ih hch' (.binaryOp BinOpType.Add acc pec)
          (.binaryOp BinOpType.Add accE ec)
          (CA ++ Token.add :: c.print) rest g hre hacc2 hwf2 hca2 (by omega)
      refine ⟨pe2, e2, ?_, hwk2, hwf2', ?_, ?_, ?_⟩
      · show parseStep (g + 1) (.addLoop acc)
          ((Token.add :: c.print ++ segTokens s') ++ rest) = some (pe2, rest)
        rw [show (Token.add :: c.print ++ segTokens s') ++ rest
            = Token.add :: (c.print ++ (segTokens s' ++ rest)) from by simp]
        simp only [parseStep]
        rw [hps]
        exact hps2
      · rw [hpr2]
        show _ = CA ++ (Token.add :: c.print ++ segTokens s')
        simp
      · intro h; exact absurd h (by simp)
      · intro _
        by_cases hs' : s' = []
        · subst hs'
          have := hnil2 rfl
          subst this
          rw [hwk2] at hacc2
          injection hacc2 with he
          rw [he]
          rfl
        · exact hcls2 hs'
    · -- the - iteration
      have hacc2 : walkPExpr (.binaryOp BinOpType.Subtract acc pec)
          = .ok (.binaryOp BinOpType.Subtract accE ec) :=
        walk_binaryOp _ _ _ _ _ hwalk hwk
      have hwf2 : (Expr.binaryOp BinOpType.Subtract accE ec).wf = true := by
        show (accE.wf && ec.wf) = true
        rw [hwf, hwfc]
        rfl
      have hca2 : (Expr.binaryOp BinOpType.Subtract accE ec).printFormula EP_ADD false
          = CA ++ Token.sub :: c.print := by
        rw [printFormula_eq]
        rw [if_neg (show
          ¬pbit EP_ADD (Expr.binaryOp BinOpType.Subtract accE ec).getPrecedence
            false = true from by
          show ¬pbit EP_ADD EP_SUB false = true
          decide)]
        show accE.printFormula EP_SUB false
            ++ Token.sub :: ec.printFormula EP_SUB true = _
        rw [show ec.printFormula EP_SUB true = c.print from hprc]
        rw [printFormula_congr accE EP_SUB false EP_ADD false
          (pbit_addsub_left EP_SUB EP_ADD accE.getPrecedence rfl rfl)]
        rw [hca]
      obtain ⟨pe2, e2, hps2, hwk2, hwf2', hpr2, hnil2, hcls2⟩ :=
        ih hch' (.binaryOp BinOpType.Subtract acc pec)
          (.binaryOp BinOpType.Subtract accE ec)
          (CA ++ Token.sub :: c.print) rest g hre hacc2 hwf2 hca2 (by omega)
      refine ⟨pe2, e2, ?_, hwk2, hwf2', ?_, ?_, ?_⟩
      · show parseStep (g + 1) (.addLoop acc)
          ((Token.sub :: c.print ++ segTokens s') ++ rest) = some (pe2, rest)
        rw [show (Token.sub :: c.print ++ segTokens s') ++ rest
            = Token.sub :: (c.print ++ (segTokens s' ++ rest)) from by simp]
        simp only [parseStep]
        rw [hps]
        exact hps2
      · rw [hpr2]
        show _ = CA ++ (Token.sub :: c.print ++ segTokens s')
        simp
      · intro h; exact absurd h (by simp)
      · intro _
        by_cases hs' : s' = []
        · subst hs'
          have := hnil2 rfl
          subst this
          rw [hwk2] at hacc2
          injection hacc2 with he
          rw [he]
          rfl
        · exact hcls2 hs'

/-- Streams at which the expression level stops also stop the
multiplicative loop. -/
lemma restM_of_restE (rest : List Token) (h : restE rest) : restM rest := by
  rcases h with rfl | ⟨r', rfl⟩
  · exact ⟨by simp, by simp⟩
  · exact ⟨by simp [List.head?], by simp [List.head?]⟩

/-- The multiplicative row does not parenthesise a multiplicative child
on the left. -/
lemma pbit_c1mul : ∀ c : ExprPrecedence,
    pclass c = 1 → pbit EP_MUL c false = false := by decide

/-- Phase 1: an unparenthesised unary-consumable print is consumed by the
unary level. -/
lemma ru_LUf (n : Nat) (hs : SmallUnary n) :
    ∀ e : Expr, e.esize ≤ n → e.wf = true →
    ∀ pp rc, pbit pp e.getPrecedence rc = false → UOK e pp rc = true →
    UnaryConsumes e pp rc := by
  intro e hsz hwf pp rc hb hU rest f hfuel
  cases e with
  | number s =>
    have hpr : (Expr.number s).printFormula pp rc = [Token.number s] := by
      rw [printFormula_eq, if_neg (by rw [hb]; exact Bool.false_ne_true)]
      rfl
    rw [hpr] at hfuel ⊢
    obtain ⟨g, rfl⟩ : ∃ g, f = g + 2 := ⟨f - 2, by simp at hfuel; omega⟩
    refine ⟨.number s, .number s, rfl, rfl, rfl, rfl, ?_⟩
    intro pp' rc' hcond
    rw [printFormula_eq,
      if_neg (by rw [hcond, hb]; exact Bool.false_ne_true)]
    rfl
  | cell p =>
    have hv : p.IsValid = true := hwf
    have hpr : (Expr.cell p).printFormula pp rc = [Token.cell p.toChars] := by
      rw [printFormula_eq, if_neg (by rw [hb]; exact Bool.false_ne_true)]
      show (if p.IsValid then [Token.cell p.toChars] else [Token.refError]) = _
      rw [if_pos hv]
    rw [hpr] at hfuel ⊢
    obtain ⟨g, rfl⟩ : ∃ g, f = g + 2 := ⟨f - 2, by simp at hfuel; omega⟩
    refine ⟨.cell p.toChars, .cell p, rfl, ?_, hwf, rfl, ?_⟩
    · show walkPExpr (.cell p.toChars) = .ok (.cell p)
      rw [walkPExpr, fromChars_toChars p hv, if_pos hv]
    · intro pp' rc' hcond
      rw [printFormula_eq,
        if_neg (by rw [hcond, hb]; exact Bool.false_ne_true)]
      show (if p.IsValid then [Token.cell p.toChars] else [Token.refError]) = _
      rw [if_pos hv]
  | unaryOp u x =>
    have hUx : UOK x EP_UNARY false = true := by
      rw [UOK_unfold, if_neg (by rw [hb]; exact Bool.false_ne_true)] at hU
      exact hU
    have hpr : (Expr.unaryOp u x).printFormula pp rc
        = u.tok :: x.printFormula EP_UNARY false := by
      rw [printFormula_eq, if_neg (by rw [hb]; exact Bool.false_ne_true)]
      rfl
    have hszx : x.esize < n := by
      have : x.esize + 1 ≤ n := hsz
      omega
    have hlen : ((Expr.unaryOp u x).printFormula pp rc).length
        = (x.printFormula EP_UNARY false).length + 1 := by
      rw [hpr]
      simp
    obtain ⟨g, rfl⟩ : ∃ g, f = g + 1 := ⟨f - 1, by omega⟩
    obtain ⟨pex, ex, hps, hwk, hwfx, hclsx, hprx⟩ :=
      hs x EP_UNARY false hszx hwf hUx rest g (by omega)
    refine ⟨.unaryOp u pex, .unaryOp u ex, ?_, walk_unaryOp u pex ex hwk, hwfx, rfl, ?_⟩
    · rw [hpr]
      cases u with
      | UnaryPlus =>
        show parseStep (g + 1) .unary
          (Token.add :: (x.printFormula EP_UNARY false ++ rest)) = _
        simp only [parseStep]
        rw [hps]
        rfl
      | UnaryMinus =>
        show parseStep (g + 1) .unary
          (Token.sub :: (x.printFormula EP_UNARY false ++ rest)) = _
        simp only [parseStep]
        rw [hps]
        rfl
    · intro pp' rc' _
      rw [printFormula_eq, if_neg (by
        rw [show (Expr.unaryOp u ex).getPrecedence = EP_UNARY from rfl, pbit_unary]
        exact Bool.false_ne_true), hpr]
      show u.tok :: ex.printFormula EP_UNARY false = _
      rw [hprx EP_UNARY false rfl]
  | binaryOp op l r =>
    exfalso
    rw [UOK_unfold, if_neg (by rw [hb]; exact Bool.false_ne_true)] at hU
    exact Bool.false_ne_true hU

/-- Phase 2: an unparenthesised non-additive print is consumed by the
multiplicative level. -/
lemma ru_LMf (n : Nat) (hs : SmallUnary n) :
    ∀ e : Expr, e.esize ≤ n → e.wf = true →
    ∀ pp rc, pbit pp e.getPrecedence rc = false → pclass e.getPrecedence ≠ 0 →
    MulConsumes e pp rc := by
  intro e hsz hwf pp rc hb hcl rest f hrm hfuel
  by_cases hU : UOK e pp rc = true
  · -- a single chunk: unary entry, empty loop
    obtain ⟨g, rfl⟩ : ∃ g, f = g + 1 := ⟨f - 1, by omega⟩
    obtain ⟨pe1, e1, hps1, hwk1, hwf1, hcls1, hpr1⟩ :=
      ru_LUf n hs e hsz hwf pp rc hb hU rest g (by omega)
    refine ⟨pe1, e1, ?_, hwk1, hwf1, Or.inl ⟨hcls1, hpr1⟩⟩
    show parseStep (g + 1) .mul (e.printFormula pp rc ++ rest) = some (pe1, rest)
    simp only [parseStep]
    rw [hps1]
    obtain ⟨g2, rfl⟩ : ∃ g2, g = g2 + 1 := ⟨g - 1, by omega⟩
    exact mulLoop_stop g2 pe1 rest hrm
  · have hUf : UOK e pp rc = false := Bool.not_eq_true _ ▸ hU
    rcases hq : msegs e pp rc with ⟨c1, segs⟩
    obtain ⟨hP, hUc1, hwc1, hszc1, hcomp, htail, _, hNU⟩ :=
      msegs_spec e pp rc hwf (Or.inr ⟨hb, hcl⟩) c1 segs hq
    obtain ⟨hne, hltc1, hcu⟩ := hNU hUf
    have hlen : (e.printFormula pp rc).length
        = c1.print.length + (segTokens segs).length := by
      rw [hP]
      simp
    obtain ⟨g, rfl⟩ : ∃ g, f = g + 1 := ⟨f - 1, by omega⟩
    obtain ⟨pe1, e1, hps1, hwk1, hwf1, hcls1, hpr1⟩ :=
      hs c1.oe c1.opp c1.orc (by omega) hwc1 hUc1 (segTokens segs ++ rest) g
        (by
          have : (c1.oe.printFormula c1.opp c1.orc).length = c1.print.length := rfl
          omega)
    have hca : e1.printFormula EP_MUL false = c1.print :=
      hpr1 EP_MUL false (hcomp hne)
    obtain ⟨pe2, e2, hps2, hwk2, hwf2, hpr2, hnil2, hcls2⟩ :=
      mulLoop_run segs
        (fun op c hm => by
          obtain ⟨ha, hbw, hcop, hdc, hel⟩ := htail op c hm
          refine ⟨hcop, hdc, ?_⟩
          intro rest' f' hf'
          obtain ⟨pe', e', h1, h2, h3, _, h5⟩ :=
            hs c.oe c.opp c.orc (by omega) hbw ha rest' f' hf'
          exact ⟨pe', e', h1, h2, h3, h5⟩)
        pe1 e1 c1.print rest g hrm hwk1 hwf1 hca (by omega)
    have hprint2 : e2.printFormula EP_MUL false = e.printFormula pp rc := by
      rw [hpr2, hP]
    refine ⟨pe2, e2, ?_, hwk2, hwf2, ?_⟩
    · show parseStep (g + 1) .mul (e.printFormula pp rc ++ rest) = some (pe2, rest)
      rw [hP, List.append_assoc]
      simp only [parseStep]
      rw [show Occ.print c1 ++ (segTokens segs ++ rest)
          = c1.oe.printFormula c1.opp c1.orc ++ (segTokens segs ++ rest) from rfl]
      rw [hps1]
      exact hps2
    · by_cases hcaseU : e.getPrecedence = EP_UNARY
      · refine Or.inr ⟨hcaseU, hcls2 hne, ?_⟩
        intro pp' rc' hb'
        rw [printFormula_eq, if_neg (by rw [hb']; exact Bool.false_ne_true)]
        have h2 : e2.printFormula EP_MUL false = coreTokens e2 := by
          rw [printFormula_eq,
            if_neg (by
              rw [pbit_c1mul e2.getPrecedence (hcls2 hne)]
              exact Bool.false_ne_true)]
        rw [← h2, hprint2]
      · have hcle1 : pclass e.getPrecedence = 1 := by
          cases hgp : e.getPrecedence with
          | EP_ADD => rw [hgp] at hcl; exact absurd rfl hcl
          | EP_SUB => rw [hgp] at hcl; exact absurd rfl hcl
          | EP_MUL => rfl
          | EP_DIV => rfl
          | EP_UNARY => exact absurd hgp hcaseU
          | EP_ATOM =>
            exact absurd (UOK_atomprec e pp rc hgp)
              (by rw [hUf]; exact Bool.false_ne_true)
        refine Or.inl ⟨by rw [hcls2 hne, hcle1], ?_⟩
        intro pp' rc' hbcond
        have hb' : pbit pp' e2.getPrecedence rc' = false := by
          rw [pbit_pclass pp' e2.getPrecedence e.getPrecedence rc'
            (by rw [hcls2 hne, hcle1])]
          rw [hbcond, hb]
        rw [printFormula_eq, if_neg (by rw [hb']; exact Bool.false_ne_true)]
        have h2 : e2.printFormula EP_MUL false = coreTokens e2 := by
          rw [printFormula_eq,
            if_neg (by
              rw [pbit_c1mul e2.getPrecedence (hcls2 hne)]
              exact Bool.false_ne_true)]
        rw [← h2, hprint2]

/-- Phase 3: any unparenthesised print is consumed by the expression
level when a closing parenthesis or the end follows. -/
lemma ru_LAf (n : Nat) (hsU : SmallUnary n) (hsM : SmallMul n) :
    ∀ e : Expr, e.esize ≤ n → e.wf = true →
    ∀ pp rc, pbit pp e.getPrecedence rc = false → ExprConsumes e pp rc := by
  intro e hsz hwf pp rc hb rest f hre hfuel
  rcases hq : asegs e pp rc with ⟨c1, segs⟩
  obtain ⟨hP, hAc1, hwc1, hszc1, hcomp, htail, hOK, hNA⟩ :=
    asegs_spec e pp rc hwf c1 segs hq
  by_cases hA : pbit pp e.getPrecedence rc = true ∨ pclass e.getPrecedence ≠ 0
  · obtain ⟨rfl, rfl⟩ := hOK hA
    have hcl : pclass e.getPrecedence ≠ 0 := by
      rcases hA with hA | hA
      · rw [hb] at hA; exact absurd hA Bool.false_ne_true
      · exact hA
    obtain ⟨g, rfl⟩ : ∃ g, f = g + 1 := ⟨f - 1, by omega⟩
    obtain ⟨pe1, e1, hps1, hwk1, hwf1, hdisj⟩ :=
      ru_LMf n hsU e hsz hwf pp rc hb hcl rest g (restM_of_restE rest hre)
        (by omega)
    refine ⟨pe1, e1, ?_, hwk1, hwf1, hdisj⟩
    show parseStep (g + 1) .expr (e.printFormula pp rc ++ rest) = some (pe1, rest)
    simp only [parseStep]
    rw [hps1]
    obtain ⟨g2, rfl⟩ : ∃ g2, g = g2 + 1 := ⟨g - 1, by omega⟩
    exact addLoop_stop g2 pe1 rest hre
  · obtain ⟨hne, hltc1⟩ := hNA hA
    have hcl0 : pclass e.getPrecedence = 0 := by
      by_contra hne0
      exact hA (Or.inr hne0)
    have hlen : (e.printFormula pp rc).length
        = c1.print.length + (segTokens segs).length := by
      rw [hP]
      simp
    obtain ⟨g, rfl⟩ : ∃ g, f = g + 1 := ⟨f - 1, by omega⟩
    have hrm1 : restM (segTokens segs ++ rest) :=
      restM_addsegs segs rest (fun op c hm => (htail op c hm).2.2.1) hre
    obtain ⟨pe1, e1, hps1, hwk1, hwf1, hdisj1⟩ :=
      hsM c1.oe c1.opp c1.orc (by omega) hwc1 hAc1 (segTokens segs ++ rest) g hrm1
        (by
          have : (c1.oe.printFormula c1.opp c1.orc).length = c1.print.length := rfl
          omega)
    have hca : e1.printFormula EP_ADD false = c1.print := by
      rcases hdisj1 with ⟨hcls1, hpr1⟩ | ⟨hcu, hcls1, hpr1⟩
      · exact hpr1 EP_ADD false (hcomp hne)
      · exact hpr1 EP_ADD false (pbit_add_row _ _)
    obtain ⟨pe2, e2, hps2, hwk2, hwf2, hpr2, hnil2, hcls2⟩ :=
      addLoop_run segs
        (fun op c hm => by
          obtain ⟨ha, hbw, hcop, hdc, hel⟩ := htail op c hm
          refine ⟨hcop, hdc, ?_⟩
          intro rest' f' hrm' hf'
          obtain ⟨pe', e', h1, h2, h3, hd⟩ :=
            hsM c.oe c.opp c.orc (by omega) hbw ha rest' f' hrm' hf'
          refine ⟨pe', e', h1, h2, h3, ?_⟩
          rcases hd with ⟨_, hp⟩ | hright
          · exact Or.inl hp
          · exact Or.inr hright)
        pe1 e1 c1.print rest g hre hwk1 hwf1 hca (by omega)
    refine ⟨pe2, e2, ?_, hwk2, hwf2, ?_⟩
    · show parseStep (g + 1) .expr (e.printFormula pp rc ++ rest) = some (pe2, rest)
      rw [hP, List.append_assoc]
      simp only [parseStep]
      rw [show Occ.print c1 ++ (segTokens segs ++ rest)
          = c1.oe.printFormula c1.opp c1.orc ++ (segTokens segs ++ rest) from rfl]
      rw [hps1]
      exact hps2
    · refine Or.inl ⟨by rw [hcls2 hne, hcl0], ?_⟩
      intro pp' rc' hbcond
      have hb' : pbit pp' e2.getPrecedence rc' = false := by
        rw [pbit_pclass pp' e2.getPrecedence e.getPrecedence rc'
          (by rw [hcls2 hne, hcl0])]
        rw [hbcond, hb]
      rw [printFormula_eq, if_neg (by rw [hb']; exact Bool.false_ne_true)]
      have h2 : e2.printFormula EP_ADD false = coreTokens e2 := by
        rw [printFormula_eq, if_neg (by rw [pbit_add_row]; exact Bool.false_ne_true)]
      rw [← h2, hpr2, hP]

/-- Phase 4: a parenthesised print is consumed by the unary level (through
the atom rule), and the parse of the inside re-prints with the same
parentheses. -/
lemma ru_LUt (n : Nat) (hsU : SmallUnary n) (hsM : SmallMul n) :
    ∀ e : Expr, e.esize ≤ n → e.wf = true →
    ∀ pp rc, pbit pp e.getPrecedence rc = true → UnaryConsumes e pp rc := by
  intro e hsz hwf pp rc hb rest f hfuel
  have hpr : e.printFormula pp rc
      = Token.lparen :: (coreTokens e ++ [Token.rparen]) := by
    rw [printFormula_eq, if_pos hb]
  have hcore : e.printFormula EP_ATOM false = coreTokens e := printFormula_atom e
  have hlen : (e.printFormula pp rc).length = (coreTokens e).length + 2 := by
    rw [hpr]
    simp
  obtain ⟨g, rfl⟩ : ∃ g, f = g + 2 := ⟨f - 2, by omega⟩
  obtain ⟨pei, ei, hpsi, hwki, hwfi, hdisj⟩ :=
    ru_LAf n hsU hsM e hsz hwf EP_ATOM false (pbit_atom _ _)
      (Token.rparen :: rest) g (Or.inr ⟨rest, rfl⟩)
      (by
        have hcl : (e.printFormula EP_ATOM false).length = (coreTokens e).length := by
          rw [hcore]
        omega)
  have hclne : e.getPrecedence ≠ EP_UNARY := by
    intro hcu
    rw [hcu, pbit_unary] at hb
    exact Bool.false_ne_true hb
  obtain ⟨hcls, hpri⟩ : pclass ei.getPrecedence = pclass e.getPrecedence ∧
      ∀ pp' rc', pbit pp' e.getPrecedence rc' = pbit EP_ATOM e.getPrecedence false →
        ei.printFormula pp' rc' = e.printFormula EP_ATOM false := by
    rcases hdisj with h | ⟨hcu, _, _⟩
    · exact h
    · exact absurd hcu hclne
  have hcorei : coreTokens ei = coreTokens e := by
    have h := hpri EP_ATOM false rfl
    rw [printFormula_atom, printFormula_atom] at h
    exact h
  refine ⟨pei, ei, ?_, hwki, hwfi, hcls, ?_⟩
  · rw [hpr]
    show parseStep (g + 2) .unary
      (Token.lparen :: (coreTokens e ++ [Token.rparen]) ++ rest) = some (pei, rest)
    have hstream : Token.lparen :: (coreTokens e ++ [Token.rparen]) ++ rest
        = Token.lparen :: (e.printFormula EP_ATOM false ++ (Token.rparen :: rest)) := by
      rw [hcore]
      simp
    rw [hstream]
    show (match parseStep g .expr
        (e.printFormula EP_ATOM false ++ (Token.rparen :: rest)) with
      | some (e, Token.rparen :: r') => some (e, r')
      | _ => none) = some (pei, rest)
    rw [hpsi]
  · intro pp' rc' hcond
    rw [printFormula_eq, if_pos (by
      rw [pbit_pclass pp' ei.getPrecedence e.getPrecedence rc' hcls, hcond, hb])]
    rw [hcorei, hpr]

/-- Phase 5: a parenthesised print is consumed by the multiplicative
level. -/
lemma ru_LMt (n : Nat) (hsU : SmallUnary n) (hsM : SmallMul n) :
    ∀ e : Expr, e.esize ≤ n → e.wf = true →
    ∀ pp rc, pbit pp e.getPrecedence rc = true → MulConsumes e pp rc := by
  intro e hsz hwf pp rc hb rest f hrm hfuel
  obtain ⟨g, rfl⟩ : ∃ g, f = g + 1 := ⟨f - 1, by omega⟩
  obtain ⟨pe1, e1, hps1, hwk1, hwf1, hcls1, hpr1⟩ :=
    ru_LUt n hsU hsM e hsz hwf pp rc hb rest g (by omega)
  refine ⟨pe1, e1, ?_, hwk1, hwf1, Or.inl ⟨hcls1, hpr1⟩⟩
  show parseStep (g + 1) .mul (e.printFormula pp rc ++ rest) = some (pe1, rest)
  simp only [parseStep]
  rw [hps1]
  obtain ⟨g2, rfl⟩ : ∃ g2, g = g2 + 1 := ⟨g - 1, by omega⟩
  exact mulLoop_stop g2 pe1 rest hrm

/-- Phase 6: a parenthesised print is consumed by the expression level. -/
lemma ru_LAt (n : Nat) (hsU : SmallUnary n) (hsM : SmallMul n) :
    ∀ e : Expr, e.esize ≤ n → e.wf = true →
    ∀ pp rc, pbit pp e.getPrecedence rc = true → ExprConsumes e pp rc := by
  intro e hsz hwf pp rc hb rest f hre hfuel
  obtain ⟨g, rfl⟩ : ∃ g, f = g + 1 := ⟨f - 1, by omega⟩
  obtain ⟨pe1, e1, hps1, hwk1, hwf1, hdisj⟩ :=
    ru_LMt n hsU hsM e hsz hwf pp rc hb rest g (restM_of_restE rest hre) (by omega)
  refine ⟨pe1, e1, ?_, hwk1, hwf1, hdisj⟩
  show parseStep (g + 1) .expr (e.printFormula pp rc ++ rest) = some (pe1, rest)
  simp only [parseStep]
  rw [hps1]
  obtain ⟨g2, rfl⟩ : ∃ g2, g = g2 + 1 := ⟨g - 1, by omega⟩
  exact addLoop_stop g2 pe1 rest hre

/-- The phases assembled by strong induction on the node count. -/
lemma roundTrip : ∀ n : Nat, SmallUnary n ∧ SmallMul n := by
  intro n
  induction n using Nat.strong_induction_on with
  | _ n IH =>
    constructor
    · intro e pp rc hlt hwf hU
      obtain ⟨hsU, hsM⟩ := IH e.esize hlt
      cases hb : pbit pp e.getPrecedence rc with
      | false => exact ru_LUf e.esize hsU e (Nat.le_refl _) hwf pp rc hb hU
      | true => exact ru_LUt e.esize hsU hsM e (Nat.le_refl _) hwf pp rc hb
    · intro e pp rc hlt hwf hA
      obtain ⟨hsU, hsM⟩ := IH e.esize hlt
      cases hb : pbit pp e.getPrecedence rc with
      | false =>
        rcases hA with hA | hA
        · rw [hb] at hA; exact absurd hA Bool.false_ne_true
        · exact ru_LMf e.esize hsU e (Nat.le_refl _) hwf pp rc hb hA
      | true => exact ru_LMt e.esize hsU hsM e (Nat.le_refl _) hwf pp rc hb

/-- The expression level consumes the print of any well-formed AST. -/
lemma exprConsumes_all (e : Expr) (hwf : e.wf = true) (pp : ExprPrecedence)
    (rc : Bool) : ExprConsumes e pp rc := by
  obtain ⟨hsU, hsM⟩ := roundTrip (e.esize + 1)
  cases hb : pbit pp e.getPrecedence rc with
  | false => exact ru_LAf (e.esize + 1) hsU hsM e (by omega) hwf pp rc hb
  | true => exact ru_LAt (e.esize + 1) hsU hsM e (by omega) hwf pp rc hb

/-- Every core print is nonempty. -/
lemma coreTokens_length_pos (e : Expr) : 1 ≤ (coreTokens e).length := by
  cases e with
  | number s => simp [coreTokens]
  | cell p => rw [coreTokens]; split <;> simp
  | unaryOp u x => simp [coreTokens]
  | binaryOp op l r => simp [coreTokens]; omega

/-- Token-level round trip: the printed stream of a well-formed AST parses
back, with `runParse`'s own fuel, to an AST that prints the very same
stream. -/
lemma printTokens_roundTrip (e : Expr) (hwf : e.wf = true) :
    ∃ pe' e', runParse (printFormulaTokens e) = some pe' ∧
      walkPExpr pe' = .ok e' ∧ e'.wf = true ∧
      printFormulaTokens e' = printFormulaTokens e := by
  have hlen1 : 1 ≤ (e.printFormula EP_ATOM false).length := by
    rw [printFormula_atom]
    exact coreTokens_length_pos e
  obtain ⟨pe', e', hps, hwk, hwf', hdisj⟩ :=
    exprConsumes_all e hwf EP_ATOM false []
      (5 * (printFormulaTokens e).length + 5) (Or.inl rfl)
      (by
        have : printFormulaTokens e = e.printFormula EP_ATOM false := rfl
        rw [this]
        omega)
  refine ⟨pe', e', ?_, hwk, hwf', ?_⟩
  · rw [runParse]
    have hps' : parseStep (5 * (printFormulaTokens e).length + 5) .expr
        (printFormulaTokens e) = some (pe', []) := by
      have h := hps
      rw [List.append_nil] at h
      exact h
    rw [hps']
  · rcases hdisj with ⟨_, hp⟩ | ⟨_, _, hp⟩
    · exact hp EP_ATOM false rfl
    · exact hp EP_ATOM false (pbit_atom _ _)

/-! ## Claim C4 -/

/-- C4 counterexample: on an empty sheet, `SetCell(A1, "=A1")` raises
`CircularDependency` — and afterwards `A1` *is present* as a fresh Empty
cell (`Sheet::SetCell` emplaces before `Cell::Set` runs, and nothing
removes the cell when `Set` throws), so the set of present cells is not
the pre-call one. -/
theorem C4_counterexample :
    sheetSetCell [] ⟨0, 0⟩ "=A1".toList =
      .exc .circularDependency [(⟨0, 0⟩, freshCell)] ∧
    Sheet.find? [] ⟨0, 0⟩ = none ∧
    Sheet.find? [(⟨0, 0⟩, freshCell)] ⟨0, 0⟩ = some freshCell :=
  ⟨by decide, by decide, by decide⟩

/-- C4 (amended): when `SetCell` raises a boundary exception the sheet is
unchanged *except* that, if the target position had no cell, it now holds
a fresh Empty cell (appended; every pre-existing entry — contents, edges,
caches — is untouched).  No referent auto-insertion, no edge or cache
mutation happens on any throwing path. -/
theorem C4_setcell_atomicity_amended (st : Sheet) (pos : Position) (text : List Char)
    (e : ApiExc) (st' : Sheet) (h : sheetSetCell st pos text = .exc e st') :
    st' = st ∨ (st.find? pos = none ∧ st' = st ++ [(pos, freshCell)]) := by
  rw [sheetSetCell] at h
  by_cases hv : ¬pos.IsValid
  · rw [if_pos hv] at h
    left
    cases h
    rfl
  · rw [if_neg hv] at h
    by_cases hp : (Sheet.find? st pos).isSome
    · rw [if_pos hp] at h
      exact Or.inl (cellSet_exc_state _ _ _ _ _ h)
    · rw [if_neg hp] at h
      exact Or.inr ⟨Option.not_isSome_iff_eq_none.mp hp, cellSet_exc_state _ _ _ _ _ h⟩

/-- Witness for C4 (amended) at the concrete cycle-raising call on an
empty sheet. -/
theorem C4_setcell_atomicity_amended_witness :
    sheetSetCell [] ⟨0, 0⟩ "=A1".toList =
      .exc .circularDependency [(⟨0, 0⟩, freshCell)] ∧
    (([(⟨0, 0⟩, freshCell)] : Sheet) = ([] : Sheet) ∨
      (Sheet.find? [] ⟨0, 0⟩ = none ∧
       ([(⟨0, 0⟩, freshCell)] : Sheet) = [] ++ [(⟨0, 0⟩, freshCell)])) :=
  ⟨by decide,
   C4_setcell_atomicity_amended [] ⟨0, 0⟩ "=A1".toList .circularDependency
     [(⟨0, 0⟩, freshCell)] (by decide)⟩

/-! ## Claim C10 -/

/-- C10, evaluated at a failing interleaving: `Set(A1,"=B1")` (auto-inserts
`B1`), `ClearCell(B1)` (erases the map entry), then `Set(A1,"x")` — the
old referent list of `A1` is `[B1]`, `UpdateDependencies` looks `B1` up,
gets a null handle and dereferences it: undefined behaviour. -/
theorem C10_update_dependencies_null_deref :
    (runOps [] [.set ⟨0, 0⟩ "=B1".toList, .clear ⟨0, 1⟩]).isSome = true ∧
    c10St2.find? ⟨0, 1⟩ = none ∧
    c10St2.refsAt ⟨0, 0⟩ = [⟨0, 1⟩] ∧
    sheetSetCell c10St2 ⟨0, 0⟩ "x".toList = .ub ∧
    runOps [] [.set ⟨0, 0⟩ "=B1".toList, .clear ⟨0, 1⟩, .set ⟨0, 0⟩ "x".toList] = none :=
  ⟨by decide, by decide, by decide, by decide, by decide⟩

/-! ## Claim C5, character level: rendering tokens and the lexer round trip -/
lemma digit_ne (c c' : Char) (h : isDigitCh c = true) (h' : isDigitCh c' = false) :
    c ≠ c' := by
  intro hc; subst hc; rw [h] at h'; exact Bool.noConfusion h'

lemma upper_ne (c c' : Char) (h : isUpperCh c = true) (h' : isUpperCh c' = false) :
    c ≠ c' := by
  intro hc; subst hc; rw [h] at h'; exact Bool.noConfusion h'

lemma digit_not_upper (c : Char) (h : isDigitCh c = true) : isUpperCh c = false := by
  simp only [isDigitCh, Bool.and_eq_true, decide_eq_true_eq] at h
  simp only [isUpperCh, Bool.and_eq_false_iff, decide_eq_false_iff_not]
  left; omega

lemma upper_not_digit (c : Char) (h : isUpperCh c = true) : isDigitCh c = false := by
  simp only [isUpperCh, Bool.and_eq_true, decide_eq_true_eq] at h
  simp only [isDigitCh, Bool.and_eq_false_iff, decide_eq_false_iff_not]
  right; omega

lemma digit_not_ws (c : Char) (h : isDigitCh c = true) :
    ¬(c = ' ' ∨ c = '\t' ∨ c = '\r' ∨ c = '\n') := by
  rintro (rfl | rfl | rfl | rfl) <;> exact absurd h (by decide)

lemma upper_not_ws (c : Char) (h : isUpperCh c = true) :
    ¬(c = ' ' ∨ c = '\t' ∨ c = '\r' ∨ c = '\n') := by
  rintro (rfl | rfl | rfl | rfl) <;> exact absurd h (by decide)

lemma mem_takeWhile_digit (l : List Char) :
    ∀ c ∈ l.takeWhile isDigitCh, isDigitCh c = true := by
  intro c hc
  exact List.mem_takeWhile_imp hc

lemma lexNumber_shape (s lex r : List Char)
    (h : lexNumber s = some (lex, r)) : NumOK lex := by
  have hip := mem_takeWhile_digit s
  simp only [lexNumber] at h
  rcases hfs : (match s.dropWhile isDigitCh with
    | '.' :: t => ('.' :: t.takeWhile isDigitCh, t.dropWhile isDigitCh)
    | x => ([], s.dropWhile isDigitCh)) with ⟨fp, s₂⟩
  rw [hfs] at h
  dsimp only at h
  have hfp : fp = [] ∨ ∃ fd, fp = '.' :: fd ∧ ∀ c ∈ fd, isDigitCh c = true := by
    split at hfs
    all_goals simp only [Prod.mk.injEq] at hfs
    · exact Or.inr ⟨_, hfs.1.symm, fun c hc => mem_takeWhile_digit _ c hc⟩
    · exact Or.inl hfs.1.symm
  clear hfs
  by_cases hguard : List.takeWhile isDigitCh s = [] ∧ fp.length ≤ 1
  · rw [if_pos hguard] at h
    exact Option.noConfusion h
  rw [if_neg hguard] at h
  rcases s₂ with - | ⟨e, t⟩
  · dsimp only at h
    cases h
    exact ⟨_, fp, [], by rw [List.append_nil], hip, hfp, Or.inl rfl, hguard⟩
  dsimp only at h
  by_cases he : e = 'e' ∨ e = 'E'
  · rw [if_pos he] at h
    rcases t with - | ⟨sg, t'⟩
    · dsimp only at h
      cases h
      exact ⟨_, fp, [], by rw [List.append_nil], hip, hfp, Or.inl rfl, hguard⟩
    dsimp only at h
    by_cases hsg : sg = '+' ∨ sg = '-'
    · rw [if_pos hsg] at h
      by_cases hds : List.takeWhile isDigitCh t' = []
      · rw [if_pos hds] at h
        cases h
        exact ⟨_, fp, [], by rw [List.append_nil], hip, hfp, Or.inl rfl, hguard⟩
      · rw [if_neg hds] at h
        cases h
        refine ⟨_, fp, e :: sg :: List.takeWhile isDigitCh t',
          rfl, hip, hfp, ?_, hguard⟩
        exact Or.inr ⟨e, sg, _, he, hds, mem_takeWhile_digit t', Or.inr ⟨hsg, rfl⟩⟩
    · rw [if_neg hsg] at h
      by_cases hds : List.takeWhile isDigitCh (sg :: t') = []
      · rw [if_pos hds] at h
        cases h
        exact ⟨_, fp, [], by rw [List.append_nil], hip, hfp, Or.inl rfl, hguard⟩
      · rw [if_neg hds] at h
        cases h
        refine ⟨_, fp, e :: List.takeWhile isDigitCh (sg :: t'),
          rfl, hip, hfp, ?_, hguard⟩
        exact Or.inr ⟨e, '+', _, he, hds, mem_takeWhile_digit _, Or.inl rfl⟩
  · rw [if_neg he] at h
    cases h
    exact ⟨_, fp, [], by rw [List.append_nil], hip, hfp, Or.inl rfl, hguard⟩

lemma digit_not_sign (c : Char) (h : isDigitCh c = true) : ¬(c = '+' ∨ c = '-') := by
  rintro (rfl | rfl) <;> exact absurd h (by decide)

lemma lexNumber_exp_eval (M ex r' : List Char)
    (hexS : expShape ex)
    (hhd : ∀ c ∈ r'.take 1, isDigitCh c = false ∧ c ≠ '.' ∧ c ≠ 'e' ∧ c ≠ 'E') :
    (match ex ++ r' with
     | e :: t =>
       if e = 'e' ∨ e = 'E' then
         match t with
         | sg :: t' =>
           if sg = '+' ∨ sg = '-' then
             if List.takeWhile isDigitCh t' = [] then some (M, ex ++ r')
             else some (M ++ e :: sg :: List.takeWhile isDigitCh t',
               List.dropWhile isDigitCh t')
           else
             if List.takeWhile isDigitCh t = [] then some (M, ex ++ r')
             else some (M ++ e :: List.takeWhile isDigitCh t,
               List.dropWhile isDigitCh t)
         | [] => some (M, ex ++ r')
       else some (M, ex ++ r')
     | [] => some (M, ex ++ r')) = some (M ++ ex, r') := by
  have hr'd : ∀ c ∈ r'.take 1, isDigitCh c = false := fun c hc => (hhd c hc).1
  rcases hexS with rfl | ⟨ec, sg, ds, hec, hds0, hdsD, hx⟩
  · rcases r' with - | ⟨c, t⟩
    · simp
    · simp only [List.nil_append, List.append_nil]
      have hc := hhd c (by simp)
      rw [if_neg (by rintro (rfl | rfl) <;> simp at hc)]
  · rcases hx with rfl | ⟨hsg, rfl⟩
    · rcases ds with - | ⟨d0, ds'⟩
      · exact absurd rfl hds0
      have hd0 : isDigitCh d0 = true := hdsD d0 (by simp)
      have ht := takeWhile_append_left isDigitCh (d0 :: ds') r'
        (by intro a ha; exact hdsD a ha) hr'd
      simp only [List.cons_append]
      rw [if_pos hec, if_neg (digit_not_sign d0 hd0)]
      rw [show d0 :: (ds' ++ r') = (d0 :: ds') ++ r' from rfl, ht.1, ht.2]
      rw [if_neg (by simp)]
    · rcases ds with - | ⟨d0, ds'⟩
      · exact absurd rfl hds0
      have ht := takeWhile_append_left isDigitCh (d0 :: ds') r'
        (by intro a ha; exact hdsD a ha) hr'd
      simp only [List.cons_append]
      rw [if_pos hec, if_pos hsg]
      rw [show d0 :: (ds' ++ r') = (d0 :: ds') ++ r' from rfl, ht.1, ht.2]
      rw [if_neg (by simp)]

lemma NumOK_rescan (lex r' : List Char) (hOK : NumOK lex)
    (hhd : ∀ c ∈ r'.take 1, isDigitCh c = false ∧ c ≠ '.' ∧ c ≠ 'e' ∧ c ≠ 'E') :
    lexNumber (lex ++ r') = some (lex, r') := by
  obtain ⟨ip, fp, ex, hlex, hipD, hfpS, hexS, hguard⟩ := hOK
  subst hlex
  have hexhd : ∀ c ∈ (ex ++ r').take 1, isDigitCh c = false ∧ c ≠ '.' := by
    rcases hexS with rfl | ⟨ec, sg, ds, hec, hds0, hdsD, hx⟩
    · simpa using fun c hc => ⟨(hhd c hc).1, (hhd c hc).2.1⟩
    · rcases hx with rfl | ⟨hsg, rfl⟩ <;>
      · intro c hc
        simp only [List.cons_append, List.take_succ_cons, List.take_zero,
          List.mem_singleton] at hc
        subst hc
        rcases hec with rfl | rfl <;> exact ⟨by decide, by decide⟩
  have hfpexhd : ∀ c ∈ (fp ++ (ex ++ r')).take 1, isDigitCh c = false := by
    rcases hfpS with rfl | ⟨fd, rfl, hfdD⟩
    · simpa using fun c hc => (hexhd c hc).1
    · intro c hc
      simp only [List.cons_append, List.take_succ_cons, List.take_zero,
        List.mem_singleton] at hc
      subst hc; decide
  have ht1 := takeWhile_append_left isDigitCh ip (fp ++ (ex ++ r')) hipD hfpexhd
  conv_lhs => rw [List.append_assoc, List.append_assoc]
  simp only [lexNumber]
  rw [ht1.1, ht1.2]
  rcases hfpS with rfl | ⟨fd, rfl, hfdD⟩
  · have hm : (match ([] : List Char) ++ (ex ++ r') with
        | '.' :: t => ('.' :: List.takeWhile isDigitCh t, List.dropWhile isDigitCh t)
        | x => ([], [] ++ (ex ++ r'))) = (([] : List Char), ex ++ r') := by
      simp only [List.nil_append]
      split
      next t heq =>
        have : ('.' : Char) ∈ (ex ++ r').take 1 := by rw [heq]; simp
        exact absurd rfl (hexhd '.' this).2
      next => rfl
    rw [hm]
    dsimp only
    rw [if_neg hguard]
    exact lexNumber_exp_eval (ip ++ []) ex r' hexS hhd
  · have ht2 := takeWhile_append_left isDigitCh fd (ex ++ r') hfdD
      (fun c hc => (hexhd c hc).1)
    have hm : (match ('.' :: fd) ++ (ex ++ r') with
        | '.' :: t => ('.' :: List.takeWhile isDigitCh t, List.dropWhile isDigitCh t)
        | x => ([], ('.' :: fd) ++ (ex ++ r'))) = ('.' :: fd, ex ++ r') := by
      simp only [List.cons_append]
      rw [ht2.1, ht2.2]
    rw [hm]
    dsimp only
    rw [if_neg hguard]
    exact lexNumber_exp_eval (ip ++ '.' :: fd) ex r' hexS hhd

lemma NumOK_head (s : List Char) (h : NumOK s) :
    ∃ c t, s = c :: t ∧ (isDigitCh c = true ∨ c = '.') := by
  obtain ⟨ip, fp, ex, rfl, hipD, hfpS, hexS, hguard⟩ := h
  rcases ip with - | ⟨c, ipt⟩
  · rcases hfpS with rfl | ⟨fd, rfl, hfdD⟩
    · exact absurd ⟨rfl, by simp⟩ hguard
    · exact ⟨'.', fd ++ ex, rfl, Or.inr rfl⟩
  · exact ⟨c, ipt ++ fp ++ ex, by simp, Or.inl (hipD c (by simp))⟩

lemma CellOK_head (s : List Char) (h : CellOK s) :
    ∃ c t, s = c :: t ∧ isUpperCh c = true := by
  obtain ⟨ls, ds, rfl, hls0, hls3, hlsU, hds0, hdsD⟩ := h
  rcases ls with - | ⟨c, lst⟩
  · exact absurd rfl hls0
  · exact ⟨c, lst ++ ds, by simp, hlsU c (by simp)⟩

lemma render_head_facts (ts : List Token) (hOK : TokListOK ts)
    (hna : ∀ t2, ts.head? = some t2 → atomTok t2 = false) :
    ∀ c ∈ (renderTokens ts).take 1,
      isDigitCh c = false ∧ c ≠ '.' ∧ c ≠ 'e' ∧ c ≠ 'E' ∧ isUpperCh c = false := by
  rcases ts with - | ⟨t, ts'⟩
  · intro c hc; simp [renderTokens] at hc
  · have hat : atomTok t = false := hna t rfl
    have hTok : TokOK t := hOK.1
    intro c hc
    cases t with
    | number s => exact absurd hat (by simp [atomTok])
    | cell s => exact absurd hat (by simp [atomTok])
    | refError => exact absurd hTok (by simp [TokOK])
    | lparen =>
      simp only [renderTokens, Token.chars, List.cons_append, List.nil_append,
        List.take_succ_cons, List.take_zero, List.mem_singleton] at hc
      subst hc; refine ⟨by decide, by decide, by decide, by decide, by decide⟩
    | rparen =>
      simp only [renderTokens, Token.chars, List.cons_append, List.nil_append,
        List.take_succ_cons, List.take_zero, List.mem_singleton] at hc
      subst hc; refine ⟨by decide, by decide, by decide, by decide, by decide⟩
    | add =>
      simp only [renderTokens, Token.chars, List.cons_append, List.nil_append,
        List.take_succ_cons, List.take_zero, List.mem_singleton] at hc
      subst hc; refine ⟨by decide, by decide, by decide, by decide, by decide⟩
    | sub =>
      simp only [renderTokens, Token.chars, List.cons_append, List.nil_append,
        List.take_succ_cons, List.take_zero, List.mem_singleton] at hc
      subst hc; refine ⟨by decide, by decide, by decide, by decide, by decide⟩
    | mul =>
      simp only [renderTokens, Token.chars, List.cons_append, List.nil_append,
        List.take_succ_cons, List.take_zero, List.mem_singleton] at hc
      subst hc; refine ⟨by decide, by decide, by decide, by decide, by decide⟩
    | div =>
      simp only [renderTokens, Token.chars, List.cons_append, List.nil_append,
        List.take_succ_cons, List.take_zero, List.mem_singleton] at hc
      subst hc; refine ⟨by decide, by decide, by decide, by decide, by decide⟩

lemma lexLoop_render (ts : List Token) : ∀ g : Nat, TokListOK ts →
    ts.length < g → lexLoop g (renderTokens ts) = some ts := by
  induction ts with
  | nil =>
    intro g _ hg
    rcases g with - | g
    · omega
    · rfl
  | cons t ts' ih =>
    intro g hOK hg
    rcases g with - | g
    · omega
    obtain ⟨hTok, hsep, hOK'⟩ := hOK
    have ihg := ih g hOK' (by simpa using Nat.lt_of_succ_lt_succ hg)
    cases t with
    | refError => exact absurd hTok (by simp [TokOK])
    | lparen =>
      show lexLoop (g + 1) ('(' :: renderTokens ts') = some (.lparen :: ts')
      simp [lexLoop, ihg]
    | rparen =>
      show lexLoop (g + 1) (')' :: renderTokens ts') = some (.rparen :: ts')
      simp [lexLoop, ihg]
    | add =>
      show lexLoop (g + 1) ('+' :: renderTokens ts') = some (.add :: ts')
      simp [lexLoop, ihg]
    | sub =>
      show lexLoop (g + 1) ('-' :: renderTokens ts') = some (.sub :: ts')
      simp [lexLoop, ihg]
    | mul =>
      show lexLoop (g + 1) ('*' :: renderTokens ts') = some (.mul :: ts')
      simp [lexLoop, ihg]
    | div =>
      show lexLoop (g + 1) ('/' :: renderTokens ts') = some (.div :: ts')
      simp [lexLoop, ihg]
    | number lex =>
      have hN : NumOK lex := hTok
      obtain ⟨c, lt, rfl, hcd⟩ := NumOK_head lex hN
      have hrf := render_head_facts ts' hOK' (hsep rfl)
      have hdig : isDigitCh c = true ∨ c = '.' := hcd
      have hnotup : isUpperCh c = false := by
        rcases hcd with hd | rfl
        · exact digit_not_upper c hd
        · decide
      have hnw : ¬(c = ' ' ∨ c = '\t' ∨ c = '\r' ∨ c = '\n') := by
        rcases hcd with hd | rfl
        · exact digit_not_ws c hd
        · decide
      have hne : ∀ c' : Char, isDigitCh c' = false → c' ≠ '.' → c ≠ c' := by
        intro c' h1 h2 hh
        rcases hcd with hd | rfl
        · rw [hh] at hd; rw [hd] at h1; exact Bool.noConfusion h1
        · exact h2 hh.symm
      show lexLoop (g + 1) ((c :: lt) ++ renderTokens ts') = some (.number (c :: lt) :: ts')
      simp only [List.cons_append, lexLoop]
      rw [if_neg hnw, if_neg (hne '(' (by decide) (by decide)),
        if_neg (hne ')' (by decide) (by decide)),
        if_neg (hne '+' (by decide) (by decide)),
        if_neg (hne '-' (by decide) (by decide)),
        if_neg (hne '*' (by decide) (by decide)),
        if_neg (hne '/' (by decide) (by decide)),
        if_neg (by simp [hnotup]), if_pos hdig]
      rw [show c :: (lt ++ renderTokens ts') = (c :: lt) ++ renderTokens ts' from rfl]
      rw [NumOK_rescan (c :: lt) (renderTokens ts') hN
        (fun c' hc' => ⟨(hrf c' hc').1, (hrf c' hc').2.1, (hrf c' hc').2.2.1,
          (hrf c' hc').2.2.2.1⟩)]
      simp [ihg]
    | cell lex =>
      have hC : CellOK lex := hTok
      obtain ⟨ls, ds, hlex, hls0, hls3, hlsU, hds0, hdsD⟩ := hC
      obtain ⟨c, lt, hcons, hcu⟩ := CellOK_head lex ⟨ls, ds, hlex, hls0, hls3, hlsU, hds0, hdsD⟩
      have hrf := render_head_facts ts' hOK' (hsep rfl)
      have hnw : ¬(c = ' ' ∨ c = '\t' ∨ c = '\r' ∨ c = '\n') := upper_not_ws c hcu
      have hne : ∀ c' : Char, isUpperCh c' = false → c ≠ c' := by
        intro c' h1 hh
        rw [hh] at hcu; rw [hcu] at h1; exact Bool.noConfusion h1
      have hdshd : ∀ a ∈ (ds ++ renderTokens ts').take 1, isUpperCh a = false := by
        rcases ds with - | ⟨d0, dst⟩
        · exact absurd rfl hds0
        · intro a ha
          simp only [List.cons_append, List.take_succ_cons, List.take_zero,
            List.mem_singleton] at ha
          have hd0 := digit_not_upper d0 (hdsD d0 (by simp))
          subst ha
          exact hd0
      have hrdhd : ∀ a ∈ (renderTokens ts').take 1, isDigitCh a = false :=
        fun a ha => (hrf a ha).1
      have htL := takeWhile_append_left isUpperCh ls (ds ++ renderTokens ts') hlsU hdshd
      have htD := takeWhile_append_left isDigitCh ds (renderTokens ts') hdsD hrdhd
      subst hlex
      rw [hcons]
      show lexLoop (g + 1) ((c :: lt) ++ renderTokens ts') = some (.cell (c :: lt) :: ts')
      simp only [List.cons_append, lexLoop]
      rw [if_neg hnw, if_neg (hne '(' (by decide)), if_neg (hne ')' (by decide)),
        if_neg (hne '+' (by decide)), if_neg (hne '-' (by decide)),
        if_neg (hne '*' (by decide)), if_neg (hne '/' (by decide)), if_pos hcu]
      rw [show c :: (lt ++ renderTokens ts') = (c :: lt) ++ renderTokens ts' from rfl,
        ← hcons]
      rw [show ls ++ ds ++ renderTokens ts' = ls ++ (ds ++ renderTokens ts') from
        List.append_assoc ls ds (renderTokens ts')]
      rw [htL.1, htL.2, htD.1, htD.2]
      rw [if_neg (by push_neg; exact ⟨by omega, hds0⟩)]
      rw [ihg]
      rfl

lemma TokOK_chars_ne (t : Token) (h : TokOK t) : t.chars ≠ [] := by
  cases t with
  | number s =>
    obtain ⟨c, lt, rfl, -⟩ := NumOK_head s h
    simp [Token.chars]
  | cell s =>
    obtain ⟨c, lt, rfl, -⟩ := CellOK_head s h
    simp [Token.chars]
  | refError => exact absurd h (by simp [TokOK])
  | lparen => simp [Token.chars]
  | rparen => simp [Token.chars]
  | add => simp [Token.chars]
  | sub => simp [Token.chars]
  | mul => simp [Token.chars]
  | div => simp [Token.chars]

lemma renderTokens_len (ts : List Token) (h : TokListOK ts) :
    ts.length ≤ (renderTokens ts).length := by
  induction ts with
  | nil => simp [renderTokens]
  | cons t ts' ih =>
    obtain ⟨hTok, -, hOK'⟩ := h
    have h1 : 1 ≤ t.chars.length := by
      rcases hc : t.chars with - | ⟨a, l⟩
      · exact absurd hc (TokOK_chars_ne t hTok)
      · simp
    have h2 := ih hOK'
    simp only [renderTokens, List.length_append, List.length_cons]
    omega

lemma lexFormula_render (ts : List Token) (h : TokListOK ts) :
    lexFormula (renderTokens ts) = some ts :=
  lexLoop_render ts ((renderTokens ts).length + 1) h
    (Nat.lt_succ_of_le (renderTokens_len ts h))

lemma lexLoop_num : ∀ (g : Nat) (s : List Char) (ts : List Token),
    lexLoop g s = some ts → TSNum NumOK ts := by
  intro g
  induction g with
  | zero => intro s ts h; exact Option.noConfusion h
  | succ g ih =>
    intro s ts h
    rcases s with - | ⟨c, r⟩
    · cases h
      intro s hs
      exact absurd hs (List.not_mem_nil _)
    simp only [lexLoop] at h
    split at h
    · exact ih r ts h
    split at h
    · obtain ⟨ts₁, h1, rfl⟩ := Option.map_eq_some'.mp h
      intro s hs
      rcases List.mem_cons.mp hs with he | hm
      · exact Token.noConfusion he
      · exact ih r ts₁ h1 s hm
    split at h
    · obtain ⟨ts₁, h1, rfl⟩ := Option.map_eq_some'.mp h
      intro s hs
      rcases List.mem_cons.mp hs with he | hm
      · exact Token.noConfusion he
      · exact ih r ts₁ h1 s hm
    split at h
    · obtain ⟨ts₁, h1, rfl⟩ := Option.map_eq_some'.mp h
      intro s hs
      rcases List.mem_cons.mp hs with he | hm
      · exact Token.noConfusion he
      · exact ih r ts₁ h1 s hm
    split at h
    · obtain ⟨ts₁, h1, rfl⟩ := Option.map_eq_some'.mp h
      intro s hs
      rcases List.mem_cons.mp hs with he | hm
      · exact Token.noConfusion he
      · exact ih r ts₁ h1 s hm
    split at h
    · obtain ⟨ts₁, h1, rfl⟩ := Option.map_eq_some'.mp h
      intro s hs
      rcases List.mem_cons.mp hs with he | hm
      · exact Token.noConfusion he
      · exact ih r ts₁ h1 s hm
    split at h
    · obtain ⟨ts₁, h1, rfl⟩ := Option.map_eq_some'.mp h
      intro s hs
      rcases List.mem_cons.mp hs with he | hm
      · exact Token.noConfusion he
      · exact ih r ts₁ h1 s hm
    split at h
    · split at h
      · exact Option.noConfusion h
      · obtain ⟨ts₁, h1, rfl⟩ := Option.map_eq_some'.mp h
        intro s hs
        rcases List.mem_cons.mp hs with he | hm
        · exact Token.noConfusion he
        · exact ih _ ts₁ h1 s hm
    split at h
    · rcases hlx : lexNumber (c :: r) with - | ⟨lexeme, rest⟩
      · rw [hlx] at h; exact Option.noConfusion h
      · rw [hlx] at h
        obtain ⟨ts₁, h1, rfl⟩ := Option.map_eq_some'.mp h
        intro s hs
        rcases List.mem_cons.mp hs with he | hm
        · cases he
          exact lexNumber_shape (c :: r) _ rest hlx
        · exact ih rest ts₁ h1 s hm
    · exact Option.noConfusion h

lemma TSNum_tail (P : List Char → Prop) (t : Token) (ts : List Token)
    (h : TSNum P (t :: ts)) : TSNum P ts :=
  fun s hs => h s (List.mem_cons_of_mem t hs)

lemma parseStep_num (P : List Char → Prop) :
    ∀ (f : Nat) (lv : PLevel) (ts : List Token) (res : PExpr × List Token),
    parseStep f lv ts = some res → TSNum P ts → LVNum P lv →
    PENum P res.1 ∧ TSNum P res.2 := by
  intro f
  induction f with
  | zero => intro lv ts res h _ _; exact Option.noConfusion h
  | succ f ih =>
    intro lv ts res h hts hlv
    cases lv with
    | atom =>
      rcases ts with - | ⟨t, r⟩
      · exact Option.noConfusion h
      cases t with
      | number s =>
        have h' : some (PExpr.number s, r) = some res := h
        cases h'
        exact ⟨hts s (List.mem_cons_self _ _), TSNum_tail P _ r hts⟩
      | cell s =>
        have h' : some (PExpr.cell s, r) = some res := h
        cases h'
        exact ⟨trivial, TSNum_tail P _ r hts⟩
      | lparen =>
        have h' : (match parseStep f .expr r with
          | some (e, Token.rparen :: r') => some (e, r')
          | _ => none) = some res := h
        rcases hp : parseStep f .expr r with - | ⟨e, r₁⟩
        · rw [hp] at h'
          exact Option.noConfusion h'
        rw [hp] at h'
        obtain ⟨he, hr₁⟩ := ih .expr r (e, r₁) hp (TSNum_tail P _ r hts) trivial
        rcases r₁ with - | ⟨t1, r'⟩
        · exact Option.noConfusion h'
        cases t1 with
        | rparen =>
          have h'' : some (e, r') = some res := h'
          cases h''
          exact ⟨he, TSNum_tail P _ r' hr₁⟩
        | lparen => exact Option.noConfusion h'
        | add => exact Option.noConfusion h'
        | sub => exact Option.noConfusion h'
        | mul => exact Option.noConfusion h'
        | div => exact Option.noConfusion h'
        | number s => exact Option.noConfusion h'
        | cell s => exact Option.noConfusion h'
        | refError => exact Option.noConfusion h'
      | rparen => exact Option.noConfusion h
      | add => exact Option.noConfusion h
      | sub => exact Option.noConfusion h
      | mul => exact Option.noConfusion h
      | div => exact Option.noConfusion h
      | refError => exact Option.noConfusion h
    | unary =>
      rcases ts with - | ⟨t, r⟩
      · exact ih .atom [] res h hts trivial
      cases t with
      | add =>
        have h' : (parseStep f .unary r).map
            (fun p => (PExpr.unaryOp .UnaryPlus p.1, p.2)) = some res := h
        obtain ⟨⟨u, r₁⟩, hp, hres⟩ := Option.map_eq_some'.mp h'
        obtain ⟨hu, hr₁⟩ := ih .unary r (u, r₁) hp (TSNum_tail P _ r hts) trivial
        subst hres
        exact ⟨hu, hr₁⟩
      | sub =>
        have h' : (parseStep f .unary r).map
            (fun p => (PExpr.unaryOp .UnaryMinus p.1, p.2)) = some res := h
        obtain ⟨⟨u, r₁⟩, hp, hres⟩ := Option.map_eq_some'.mp h'
        obtain ⟨hu, hr₁⟩ := ih .unary r (u, r₁) hp (TSNum_tail P _ r hts) trivial
        subst hres
        exact ⟨hu, hr₁⟩
      | number s => exact ih .atom (Token.number s :: r) res h hts trivial
      | cell s => exact ih .atom (Token.cell s :: r) res h hts trivial
      | lparen => exact ih .atom (Token.lparen :: r) res h hts trivial
      | rparen => exact ih .atom (Token.rparen :: r) res h hts trivial
      | mul => exact ih .atom (Token.mul :: r) res h hts trivial
      | div => exact ih .atom (Token.div :: r) res h hts trivial
      | refError => exact ih .atom (Token.refError :: r) res h hts trivial
    | mulLoop acc =>
      rcases ts with - | ⟨t, r⟩
      · have h' : some (acc, ([] : List Token)) = some res := h
        cases h'
        exact ⟨hlv, hts⟩
      cases t with
      | mul =>
        have h' : (match parseStep f .unary r with
          | some (u, r') => parseStep f (.mulLoop (.binaryOp .Multiply acc u)) r'
          | none => none) = some res := h
        rcases hp : parseStep f .unary r with - | ⟨u, r₁⟩
        · rw [hp] at h'
          exact Option.noConfusion h'
        rw [hp] at h'
        have h'' : parseStep f (.mulLoop (.binaryOp .Multiply acc u)) r₁ = some res := h'
        obtain ⟨hu, hr₁⟩ := ih .unary r (u, r₁) hp (TSNum_tail P _ r hts) trivial
        exact ih _ r₁ res h'' hr₁ ⟨hlv, hu⟩
      | div =>
        have h' : (match parseStep f .unary r with
          | some (u, r') => parseStep f (.mulLoop (.binaryOp .Divide acc u)) r'
          | none => none) = some res := h
        rcases hp : parseStep f .unary r with - | ⟨u, r₁⟩
        · rw [hp] at h'
          exact Option.noConfusion h'
        rw [hp] at h'
        have h'' : parseStep f (.mulLoop (.binaryOp .Divide acc u)) r₁ = some res := h'
        obtain ⟨hu, hr₁⟩ := ih .unary r (u, r₁) hp (TSNum_tail P _ r hts) trivial
        exact ih _ r₁ res h'' hr₁ ⟨hlv, hu⟩
      | number s =>
        have h' : some (acc, Token.number s :: r) = some res := h
        cases h'
        exact ⟨hlv, hts⟩
      | cell s =>
        have h' : some (acc, Token.cell s :: r) = some res := h
        cases h'
        exact ⟨hlv, hts⟩
      | lparen =>
        have h' : some (acc, Token.lparen :: r) = some res := h
        cases h'
        exact ⟨hlv, hts⟩
      | rparen =>
        have h' : some (acc, Token.rparen :: r) = some res := h
        cases h'
        exact ⟨hlv, hts⟩
      | add =>
        have h' : some (acc, Token.add :: r) = some res := h
        cases h'
        exact ⟨hlv, hts⟩
      | sub =>
        have h' : some (acc, Token.sub :: r) = some res := h
        cases h'
        exact ⟨hlv, hts⟩
      | refError =>
        have h' : some (acc, Token.refError :: r) = some res := h
        cases h'
        exact ⟨hlv, hts⟩
    | mul =>
      have h' : (match parseStep f .unary ts with
        | some (u, r) => parseStep f (.mulLoop u) r
        | none => none) = some res := h
      rcases hp : parseStep f .unary ts with - | ⟨u, r₁⟩
      · rw [hp] at h'
        exact Option.noConfusion h'
      rw [hp] at h'
      have h'' : parseStep f (.mulLoop u) r₁ = some res := h'
      obtain ⟨hu, hr₁⟩ := ih .unary ts (u, r₁) hp hts trivial
      exact ih _ r₁ res h'' hr₁ hu
    | addLoop acc =>
      rcases ts with - | ⟨t, r⟩
      · have h' : some (acc, ([] : List Token)) = some res := h
        cases h'
        exact ⟨hlv, hts⟩
      cases t with
      | add =>
        have h' : (match parseStep f .mul r with
          | some (m, r') => parseStep f (.addLoop (.binaryOp .Add acc m)) r'
          | none => none) = some res := h
        rcases hp : parseStep f .mul r with - | ⟨m, r₁⟩
        · rw [hp] at h'
          exact Option.noConfusion h'
        rw [hp] at h'
        have h'' : parseStep f (.addLoop (.binaryOp .Add acc m)) r₁ = some res := h'
        obtain ⟨hm, hr₁⟩ := ih .mul r (m, r₁) hp (TSNum_tail P _ r hts) trivial
        exact ih _ r₁ res h'' hr₁ ⟨hlv, hm⟩
      | sub =>
        have h' : (match parseStep f .mul r with
          | some (m, r') => parseStep f (.addLoop (.binaryOp .Subtract acc m)) r'
          | none => none) = some res := h
        rcases hp : parseStep f .mul r with - | ⟨m, r₁⟩
        · rw [hp] at h'
          exact Option.noConfusion h'
        rw [hp] at h'
        have h'' : parseStep f (.addLoop (.binaryOp .Subtract acc m)) r₁ = some res := h'
        obtain ⟨hm, hr₁⟩ := ih .mul r (m, r₁) hp (TSNum_tail P _ r hts) trivial
        exact ih _ r₁ res h'' hr₁ ⟨hlv, hm⟩
      | number s =>
        have h' : some (acc, Token.number s :: r) = some res := h
        cases h'
        exact ⟨hlv, hts⟩
      | cell s =>
        have h' : some (acc, Token.cell s :: r) = some res := h
        cases h'
        exact ⟨hlv, hts⟩
      | lparen =>
        have h' : some (acc, Token.lparen :: r) = some res := h
        cases h'
        exact ⟨hlv, hts⟩
      | rparen =>
        have h' : some (acc, Token.rparen :: r) = some res := h
        cases h'
        exact ⟨hlv, hts⟩
      | mul =>
        have h' : some (acc, Token.mul :: r) = some res := h
        cases h'
        exact ⟨hlv, hts⟩
      | div =>
        have h' : some (acc, Token.div :: r) = some res := h
        cases h'
        exact ⟨hlv, hts⟩
      | refError =>
        have h' : some (acc, Token.refError :: r) = some res := h
        cases h'
        exact ⟨hlv, hts⟩
    | expr =>
      have h' : (match parseStep f .mul ts with
        | some (m, r) => parseStep f (.addLoop m) r
        | none => none) = some res := h
      rcases hp : parseStep f .mul ts with - | ⟨m, r₁⟩
      · rw [hp] at h'
        exact Option.noConfusion h'
      rw [hp] at h'
      have h'' : parseStep f (.addLoop m) r₁ = some res := h'
      obtain ⟨hm, hr₁⟩ := ih .mul ts (m, r₁) hp hts trivial
      exact ih _ r₁ res h'' hr₁ hm


/-- A valid position renders to a lexable `CELL` lexeme: one to three
upper-case letters followed by a non-empty run of digits. -/
lemma CellOK_toChars (p : Position) (hv : p.IsValid = true) : CellOK p.toChars := by
  have hp : 0 ≤ p.row ∧ 0 ≤ p.col ∧ p.row < 16384 ∧ p.col < 16384 := by
    simpa [Position.IsValid, MAX_ROWS, MAX_COLS, Bool.and_eq_true, decide_eq_true_eq,
      and_assoc] using hv
  rw [Position.toChars, if_neg (by simp [hv])]
  refine ⟨(colLettersRev (p.col.toNat + 1) p.col.toNat).reverse,
    natDecimal (p.row + 1).toNat, rfl, ?_, ?_, ?_, natDecimal_ne_nil _,
    fun c hc => natDecimal_digits _ c hc⟩
  · simp only [colLettersRev]
    simp
  · rw [List.length_reverse]
    exact (colLettersRev_length _ _ (by omega)).2.2 (by omega)
  · intro c hc
    exact colLettersRev_valid _ _ (by omega) c (List.mem_reverse.mp hc)

lemma TokListOK_single (t : Token) (h : TokOK t) : TokListOK [t] :=
  ⟨h, fun _ t2 ht2 => Option.noConfusion ht2, trivial⟩

/-- Concatenation preserves lexability when the right part opens with a
non-atom token (true at every junction the printer produces). -/
lemma TokListOK_append (A B : List Token) (hA : TokListOK A) (hB : TokListOK B)
    (hBhd : ∀ t2, B.head? = some t2 → atomTok t2 = false) :
    TokListOK (A ++ B) := by
  induction A with
  | nil => exact hB
  | cons t A' ihA =>
    obtain ⟨hTok, hsep, hA'⟩ := hA
    refine ⟨hTok, ?_, ihA hA'⟩
    intro hat t2 ht2
    rcases A' with - | ⟨a, A''⟩
    · exact hBhd t2 ht2
    · exact hsep hat t2 ht2

lemma TokListOK_wrap (A : List Token) (h : TokListOK A) :
    TokListOK (Token.lparen :: (A ++ [Token.rparen])) :=
  ⟨trivial, fun hat => Bool.noConfusion hat,
    TokListOK_append A [Token.rparen] h (TokListOK_single _ trivial)
      (fun t2 ht2 => by cases ht2; rfl)⟩

/-- The printed stream of a well-formed AST whose number lexemes came from
the lexer is lexable: every token re-lexes and no two atoms are adjacent. -/
lemma print_TokListOK : ∀ (e : Expr), e.wf = true → ENum NumOK e →
    ∀ (pp : ExprPrecedence) (rc : Bool), TokListOK (e.printFormula pp rc) := by
  intro e
  induction e with
  | number s =>
    intro hwf hnum pp rc
    rw [printFormula_eq]
    split
    · exact TokListOK_wrap _ (TokListOK_single _ hnum)
    · exact TokListOK_single _ hnum
  | cell p =>
    intro hwf hnum pp rc
    have hv : p.IsValid = true := hwf
    have hcore : TokListOK (coreTokens (.cell p)) := by
      show TokListOK (if p.IsValid then [Token.cell p.toChars] else [Token.refError])
      rw [if_pos hv]
      exact TokListOK_single _ (CellOK_toChars p hv)
    rw [printFormula_eq]
    split
    · exact TokListOK_wrap _ hcore
    · exact hcore
  | unaryOp op x ih =>
    intro hwf hnum pp rc
    have hcore : TokListOK (coreTokens (.unaryOp op x)) := by
      refine ⟨?_, ?_, ih hwf hnum EP_UNARY false⟩
      · cases op <;> trivial
      · cases op <;> exact fun hat => Bool.noConfusion hat
    rw [printFormula_eq]
    split
    · exact TokListOK_wrap _ hcore
    · exact hcore
  | binaryOp op l r ihl ihr =>
    intro hwf hnum pp rc
    have hw2 : (l.wf && r.wf) = true := hwf
    rw [Bool.and_eq_true] at hw2
    obtain ⟨hwl, hwr⟩ := hw2
    obtain ⟨hnl, hnr⟩ := hnum
    have hcore : TokListOK (coreTokens (.binaryOp op l r)) := by
      refine TokListOK_append _ _ (ihl hwl hnl op.precedence false)
        ⟨?_, ?_, ihr hwr hnr op.precedence true⟩ ?_
      · cases op <;> trivial
      · cases op <;> exact fun hat => Bool.noConfusion hat
      · intro t2 ht2
        cases ht2
        cases op <;> rfl
    rw [printFormula_eq]
    split
    · exact TokListOK_wrap _ hcore
    · exact hcore

/-- `exitLiteral` keeps number lexemes verbatim, so any lexeme predicate
carries over from the parse tree to the AST. -/
lemma walk_num (P : List Char → Prop) : ∀ (pe : PExpr) (e : Expr),
    walkPExpr pe = .ok e → PENum P pe → ENum P e := by
  intro pe
  induction pe with
  | number s =>
    intro e h hp
    have h' : (Except.ok (Expr.number s) : Except AstError Expr) = .ok e := h
    cases h'
    exact hp
  | cell s =>
    intro e h hp
    by_cases hv : (Position.fromChars s).IsValid = true
    · simp only [walkPExpr] at h
      rw [if_pos hv] at h
      cases h
      trivial
    · simp only [walkPExpr] at h
      rw [if_neg hv] at h
      exact Except.noConfusion h
  | unaryOp op x ih =>
    intro e h hp
    simp only [walkPExpr] at h
    rcases hx : walkPExpr x with er | x' <;> rw [hx] at h
    · exact Except.noConfusion h
    · have h' : (Except.ok (Expr.unaryOp op x') : Except AstError Expr) = .ok e := h
      cases h'
      exact ih x' hx hp
  | binaryOp op l r ihl ihr =>
    intro e h hp
    simp only [walkPExpr] at h
    rcases hl : walkPExpr l with er | l' <;> rw [hl] at h
    · exact Except.noConfusion h
    rcases hr : walkPExpr r with er | r' <;> rw [hr] at h
    · exact Except.noConfusion h
    have h' : (Except.ok (Expr.binaryOp op l' r') : Except AstError Expr) = .ok e := h
    cases h'
    exact ⟨ihl l' hl hp.1, ihr r' hr hp.2⟩

/-- `exitCell` rejects invalid positions, so every AST the listener
returns is well-formed. -/
lemma walk_wf : ∀ (pe : PExpr) (e : Expr), walkPExpr pe = .ok e → e.wf = true := by
  intro pe
  induction pe with
  | number s =>
    intro e h
    have h' : (Except.ok (Expr.number s) : Except AstError Expr) = .ok e := h
    cases h'
    rfl
  | cell s =>
    intro e h
    by_cases hv : (Position.fromChars s).IsValid = true
    · simp only [walkPExpr] at h
      rw [if_pos hv] at h
      cases h
      exact hv
    · simp only [walkPExpr] at h
      rw [if_neg hv] at h
      exact Except.noConfusion h
  | unaryOp op x ih =>
    intro e h
    simp only [walkPExpr] at h
    rcases hx : walkPExpr x with er | x' <;> rw [hx] at h
    · exact Except.noConfusion h
    · have h' : (Except.ok (Expr.unaryOp op x') : Except AstError Expr) = .ok e := h
      cases h'
      exact ih x' hx
  | binaryOp op l r ihl ihr =>
    intro e h
    simp only [walkPExpr] at h
    rcases hl : walkPExpr l with er | l' <;> rw [hl] at h
    · exact Except.noConfusion h
    rcases hr : walkPExpr r with er | r' <;> rw [hr] at h
    · exact Except.noConfusion h
    have h' : (Except.ok (Expr.binaryOp op l' r') : Except AstError Expr) = .ok e := h
    cases h'
    show (l'.wf && r'.wf) = true
    rw [Bool.and_eq_true]
    exact ⟨ihl l' hl, ihr r' hr⟩

/-- Every AST `ParseFormulaAST` accepts is well-formed and carries only
lexer-shaped number lexemes. -/
lemma parseStream_num_wf (s : List Char) (e : Expr)
    (h : parseFormulaASTStream s = .ok e) :
    e.wf = true ∧ ENum NumOK e := by
  simp only [parseFormulaASTStream] at h
  rcases hlx : lexFormula s with - | ts
  · rw [hlx] at h
    exact Except.noConfusion h
  rw [hlx] at h
  have h0 : (match runParse ts with
    | none => Except.error AstError.parsingError
    | some pe => walkPExpr pe) = Except.ok e := h
  rcases hrp : runParse ts with - | pe
  · rw [hrp] at h0
    exact Except.noConfusion h0
  rw [hrp] at h0
  have h' : walkPExpr pe = .ok e := h0
  have hts : TSNum NumOK ts := lexLoop_num (s.length + 1) s ts hlx
  have hpe : PENum NumOK pe := by
    simp only [runParse] at hrp
    rcases hps : parseStep (5 * ts.length + 5) .expr ts with - | ⟨pe1, r⟩ <;>
      rw [hps] at hrp
    · exact Option.noConfusion hrp
    rcases r with - | ⟨t, r1⟩
    · have h2 : some pe1 = some pe := hrp
      cases h2
      exact (parseStep_num NumOK _ .expr ts (pe, []) hps hts trivial).1
    · exact Option.noConfusion hrp
  exact ⟨walk_wf pe e h', walk_num NumOK pe e h' hpe⟩

/-- C5: formula printing round-trips at the character level.  For every
expression string the parser accepts with AST `e`, re-parsing the printed
expression (`Formula::GetExpression`, i.e. the `PrintFormula` output)
succeeds, and the accepted AST prints character-for-character the same
string; moreover the printer parenthesises a child exactly where the 6×6
`PRECEDENCE_RULES` table has the corresponding left- or right-child bit
set. -/
theorem C5_print_roundtrip (s : List Char) (e : Expr)
    (h : parseFormulaASTStream s = .ok e) :
    (∃ e', parseFormulaASTStream (renderTokens (printFormulaTokens e)) = .ok e' ∧
       renderTokens (printFormulaTokens e') = renderTokens (printFormulaTokens e)) ∧
    (∀ (x : Expr) (pp : ExprPrecedence) (rc : Bool),
       x.printFormula pp rc =
         if pbit pp x.getPrecedence rc then
           Token.lparen :: (coreTokens x ++ [Token.rparen])
         else coreTokens x) := by
  obtain ⟨hwf, hnum⟩ := parseStream_num_wf s e h
  obtain ⟨pe', e', hrp, hwk, hwf', hpr⟩ := printTokens_roundTrip e hwf
  have hTL : TokListOK (printFormulaTokens e) :=
    print_TokListOK e hwf hnum EP_ATOM false
  refine ⟨⟨e', ?_, by rw [hpr]⟩, fun x pp rc => printFormula_eq x pp rc⟩
  have h1 : parseFormulaASTStream (renderTokens (printFormulaTokens e)) =
      (match runParse (printFormulaTokens e) with
       | none => Except.error AstError.parsingError
       | some pe => walkPExpr pe) := by
    simp only [parseFormulaASTStream]
    rw [lexFormula_render (printFormulaTokens e) hTL]
  rw [h1, hrp]
  exact hwk


/-- Witness for C5 at the accepted input `1+2*A1`. -/
theorem C5_print_roundtrip_witness :
    parseFormulaASTStream ("1+2*A1".toList) =
      .ok (Expr.binaryOp .Add (.number ['1'])
        (.binaryOp .Multiply (.number ['2']) (.cell ⟨0, 0⟩))) ∧
    ((∃ e', parseFormulaASTStream (renderTokens (printFormulaTokens
         (Expr.binaryOp .Add (.number ['1'])
           (.binaryOp .Multiply (.number ['2']) (.cell ⟨0, 0⟩))))) = .ok e' ∧
       renderTokens (printFormulaTokens e') =
         renderTokens (printFormulaTokens
           (Expr.binaryOp .Add (.number ['1'])
             (.binaryOp .Multiply (.number ['2']) (.cell ⟨0, 0⟩))))) ∧
     (∀ (x : Expr) (pp : ExprPrecedence) (rc : Bool),
        x.printFormula pp rc =
          if pbit pp x.getPrecedence rc then
            Token.lparen :: (coreTokens x ++ [Token.rparen])
          else coreTokens x)) :=
  ⟨rfl, C5_print_roundtrip ("1+2*A1".toList) _ rfl⟩

end Spreadsheet
